import Mathlib

/-!
Huffman versus arithmetic coding: cost analysis.

A shallow embedding of `src/Huffman-Arithmetic.cpp` (namespace `HuffmanArithmetic`) and
theorems about it.

Modelling conventions:

* `double` has two readings here.  In the first part of the file a `double` is an exact
  rational (`ℚ`): the quotient `count / length`, the sums of probabilities and the product of
  powers are computed without rounding, and `log2`, `ceil` and `pow` are the mathematical
  functions.  `ceil(log2(x))` is `Int.clog 2 x`, the least integer `j` with `x ≤ 2 ^ j`; the
  truncation `int lg = log2(n)` is `Nat.log 2 n`.  This reading decides what the program
  counts (the map, the shape of the tree, the bit totals) and what holds of its numbers in
  exact arithmetic.  The section `Binary64` gives `initHuffman`, `createTree` and
  `calculateInterval` once more in the arithmetic the program runs, IEEE 754 binary64 with
  rounding to nearest, ties to even: there a quotient, a sum or a product is the nearest
  binary64 number, and a product below half of `2 ^ (-1074)` is 0.  `getNumberOfBits` has the
  exact reading only: `log2` on a `double` is a function of the C library, whose last digit
  is not fixed.
* `int` and `size_t` values that the program only counts upwards from `0` or `1` (occurrence
  counts, depths, bit totals, sizes) are natural numbers.  The model does not wrap them: the
  overflow of a signed `int` has no defined behaviour in C++.
* A `std::string` is a `String` and the characters of `sequence` are a `List Char`.
* A `Symbol*` is a value of the inductive type `Symbol`; `Symbol.null` is `nullptr`.  The
  type allows a node with a single child, as the C++ struct does.
* `std::map<std::string, std::pair<int, double>>` is an association list kept in strictly
  increasing key order, the order in which the program iterates over it.
* `std::priority_queue<Symbol*, std::vector<Symbol*>, Comparator>` is the list of the
  pointers it holds.  `top()` is an element that `Comparator` ranks below no other element;
  which one among several such elements is a matter of the heap layout.  The relation `IsTop`
  admits each of them, and the step relation `CreateTreeLoop` follows every run that the loop
  of `createTree` can make.  Rounding of the `double` sums can only change which of several
  nodes of equal exact weight comes first, as long as the exact weights, which are multiples
  of `1 / length`, differ by more than the rounding error; the relation covers those runs
  too.  `pqTop` is one executable choice, the first such element of the list; the functions
  `createTree` and `initHuffman` use it, and every result they return is a run of the
  relations `CreateTree` and `InitHuffman`.
* `top()` on an empty queue is undefined in C++; the relations have no run there and the
  executable functions return `Fault.topOfEmptyQueue`.
* The two result functions return the ratio they print, without the label.
-/

namespace HuffmanArithmetic

/-! ## Data model -/

/-- Model of a `Symbol*`: `null` is `nullptr`, `mk symb p left right` points to a `Symbol`
object with those four fields. -/
inductive Symbol where
  | null : Symbol
  | mk (symb : String) (p : ℚ) (left right : Symbol) : Symbol
  deriving DecidableEq

namespace Symbol

/-- Field `p` of the object pointed to. -/
def p : Symbol → ℚ
  | null => 0
  | mk _ q _ _ => q

/-- The member `operator<` of `Symbol`: `p > rhs.p`. -/
def lt (lhs rhs : Symbol) : Prop := lhs.p > rhs.p

instance (lhs rhs : Symbol) : Decidable (lt lhs rhs) := by
  unfold lt; infer_instance

end Symbol

/-- The functor `Comparator`: `*lhs < *rhs`. -/
def Comparator (lhs rhs : Symbol) : Prop := Symbol.lt lhs rhs

instance (lhs rhs : Symbol) : Decidable (Comparator lhs rhs) := by
  unfold Comparator; infer_instance

/-- An entry of `symbolMap`: the key and the pair `(first, second)` = (count, probability). -/
abbrev Entry := String × (Nat × ℚ)

/-- Model of `std::map<std::string, std::pair<int, double>>`: the entries in key order. -/
abbrev SymbolMap := List Entry

namespace SymbolMap

/-- The lookup `m.find(s)`: the mapped pair, or `none` for `m.end()`. -/
def find : SymbolMap → String → Option (Nat × ℚ)
  | [], _ => none
  | (k, v) :: rest, s => if k = s then some v else find rest s

/-- The assignment `m[s] = v`: overwrites the pair stored under `s`, or inserts a new entry at
its place in key order. -/
def assign : SymbolMap → String → (Nat × ℚ) → SymbolMap
  | [], s, v => [(s, v)]
  | (k, w) :: rest, s, v =>
    if s < k then (s, v) :: (k, w) :: rest
    else if s = k then (k, v) :: rest
    else (k, w) :: assign rest s v

/-- The read access `m[s]`: returns the mapped pair; when the key is absent `operator[]`
first inserts it with the value-initialised pair `{0, 0.}`. -/
def index (m : SymbolMap) (s : String) : SymbolMap × (Nat × ℚ) :=
  match m.find s with
  | some v => (m, v)
  | none => (m.assign s (0, 0), (0, 0))

/-- The member `m.size()`. -/
def size (m : SymbolMap) : Nat := m.length

end SymbolMap

/-- Model of `struct EncodingArgs`.  The pointer `treeRoot` has no initialiser in C++; it is
null here until `createTree` assigns it. -/
structure EncodingArgs where
  pq : List Symbol := []
  symbolMap : SymbolMap := []
  treeRoot : Symbol := Symbol.null
  arithmeticCodeInterval : ℚ := 1
  k : Int := 0
  deriving DecidableEq

/-! ## The priority queue -/

/-- Holds when `pq.top()` may return `x`: `x` is in the queue and `Comparator` ranks it below
no element of the queue. -/
def IsTop (pq : List Symbol) (x : Symbol) : Prop :=
  x ∈ pq ∧ ∀ y ∈ pq, ¬ Comparator x y

/-- One executable `pq.top()`: the first element that `Comparator` ranks below no other;
`none` on the empty queue, where `top()` is undefined. -/
def pqTop : List Symbol → Option Symbol
  | [] => none
  | x :: rest =>
    match pqTop rest with
    | none => some x
    | some y => if Comparator x y then some y else some x

/-- The call `pq.push(x)`. -/
def pqPush (pq : List Symbol) (x : Symbol) : List Symbol := x :: pq

/-- The call `pq.pop()` after `top()` returned `x`. -/
def pqPop (pq : List Symbol) (x : Symbol) : List Symbol := pq.erase x

/-! ## huffmanRatio -/

/-- The function `huffmanRatio(args, root, codes, limit, sum)`; the three reference parameters
`args`, `codes` and `sum` are returned.  `codes` is the storage of the vector; a write
`codes[limit] = v` outside that storage leaves the list unchanged. -/
def huffmanRatio (args : EncodingArgs) (root : Symbol) (codes : List Nat) (limit : Nat)
    (sum : Nat) : EncodingArgs × List Nat × Nat :=
  match root with
  | Symbol.null => (args, codes, sum)
  | Symbol.mk symb _ left right =>
    let s1 :=
      match left with
      | Symbol.null => (args, codes, sum)
      | Symbol.mk _ _ _ _ => huffmanRatio args left (codes.set limit 0) (limit + 1) sum
    let s2 :=
      match right with
      | Symbol.null => s1
      | Symbol.mk _ _ _ _ => huffmanRatio s1.1 right (s1.2.1.set limit 1) (limit + 1) s1.2.2
    if left = Symbol.null ∧ right = Symbol.null then
      let r := s2.1.symbolMap.index symb
      ({ s2.1 with symbolMap := r.1 }, s2.2.1, s2.2.2 + limit * r.2.1)
    else s2

/-! ## createTree -/

/-- The node `createTree` allocates for a merge: `new Symbol("#", left->p + right->p)` with
its two children set.  The sum is the exact one; `Binary64.mergeNode` rounds it. -/
def mergeNode (left right : Symbol) : Symbol :=
  Symbol.mk "#" (left.p + right.p) left right

/-- Runs of the `while (args.pq.size() != 1)` loop of `createTree`: `CreateTreeLoop pq pq'`
holds when the loop started on queue `pq` can exit with queue `pq'`. -/
inductive CreateTreeLoop : List Symbol → List Symbol → Prop where
  | exit {pq : List Symbol} : pq.length = 1 → CreateTreeLoop pq pq
  | iter {pq pq' : List Symbol} {left right : Symbol} :
      pq.length ≠ 1 → IsTop pq left → IsTop (pqPop pq left) right →
      CreateTreeLoop (pqPush (pqPop (pqPop pq left) right) (mergeNode left right)) pq' →
      CreateTreeLoop pq pq'

/-- Runs of `createTree(args)`: `CreateTree args args'` holds when the call started in state
`args` can return in state `args'`. -/
def CreateTree (args args' : EncodingArgs) : Prop :=
  if args.pq.length = 1 then
    ∃ root, IsTop args.pq root ∧ args' = { args with treeRoot := root }
  else
    ∃ pq' root, CreateTreeLoop args.pq pq' ∧ IsTop pq' root ∧
      args' = { args with pq := pq', treeRoot := root }

/-- Reasons for which the executable model stops without a result. -/
inductive Fault where
  /-- The call `top()` on an empty queue, whose behaviour is undefined. -/
  | topOfEmptyQueue
  /-- The iteration budget given to the loop is used up. -/
  | budget
  deriving DecidableEq

/-- The loop of `createTree` with `pqTop` for `top()`, for at most `budget` iterations. -/
def createTreeLoop : Nat → List Symbol → Except Fault (List Symbol)
  | budget, pq =>
    if pq.length ≠ 1 then
      match pqTop pq with
      | none => Except.error Fault.topOfEmptyQueue
      | some left =>
        match pqTop (pqPop pq left) with
        | none => Except.error Fault.topOfEmptyQueue
        | some right =>
          match budget with
          | 0 => Except.error Fault.budget
          | b + 1 =>
            createTreeLoop b (pqPush (pqPop (pqPop pq left) right) (mergeNode left right))
    else Except.ok pq

/-- The function `createTree(args)` with `pqTop` for `top()`.  Every iteration of the loop
shortens the queue by one, so `args.pq.length` iterations are never used up. -/
def createTree (args : EncodingArgs) : Except Fault EncodingArgs :=
  if args.pq.length = 1 then
    match pqTop args.pq with
    | none => Except.error Fault.topOfEmptyQueue
    | some root => Except.ok { args with treeRoot := root }
  else
    match createTreeLoop args.pq.length args.pq with
    | Except.error e => Except.error e
    | Except.ok pq' =>
      match pqTop pq' with
      | none => Except.error Fault.topOfEmptyQueue
      | some root => Except.ok { args with pq := pq', treeRoot := root }

/-! ## initHuffman -/

/-- The body of the first loop of `initHuffman` for the character `c`: the key is the string
`s` made of `c` alone; an entry found under `s` has its count incremented, otherwise the entry
`{1, 0.}` is stored. -/
def countChar (symbolMap : SymbolMap) (c : Char) : SymbolMap :=
  let s := "".push c
  match symbolMap.find s with
  | some v => symbolMap.assign s (v.1 + 1, v.2)
  | none => symbolMap.assign s (1, 0)

/-- The first loop of `initHuffman`: counts the characters of `sequence` into the map. -/
def countSymbols (sequence : List Char) (symbolMap : SymbolMap) : SymbolMap :=
  sequence.foldl countChar symbolMap

/-- The second loop of `initHuffman` over the entries of the map, in key order: stores
`p = count / length` in the entry and pushes the leaf `new Symbol(key, p)`.  Returns the
entries after the loop and the queue.  The quotient is the exact one; `Binary64.pushLeaves`
rounds it. -/
def pushLeaves (length : Nat) : List Entry → List Symbol → List Entry × List Symbol
  | [], pq => ([], pq)
  | (key, (count, _)) :: rest, pq =>
    let p : ℚ := (count : ℚ) / (length : ℚ)
    let r := pushLeaves length rest (pqPush pq (Symbol.mk key p Symbol.null Symbol.null))
    ((key, (count, p)) :: r.1, r.2)

/-- The state of `initHuffman` at its call of `createTree`. -/
def initQueue (sequence : List Char) (args : EncodingArgs) : EncodingArgs :=
  let m := countSymbols sequence args.symbolMap
  let r := pushLeaves sequence.length m args.pq
  { args with symbolMap := r.1, pq := r.2 }

/-- Runs of `initHuffman(sequence, args)`. -/
def InitHuffman (sequence : List Char) (args args' : EncodingArgs) : Prop :=
  CreateTree (initQueue sequence args) args'

/-- The function `initHuffman(sequence, args)` with `pqTop` for `top()`. -/
def initHuffman (sequence : List Char) (args : EncodingArgs) : Except Fault EncodingArgs :=
  createTree (initQueue sequence args)

/-! ## Arithmetic coding estimate -/

/-- The function `calculateInterval(args)` with exact powers and products;
`Binary64.calculateInterval` rounds them. -/
def calculateInterval (args : EncodingArgs) : EncodingArgs :=
  { args with
    arithmeticCodeInterval :=
      args.symbolMap.foldl (fun w e => w * e.2.2 ^ e.2.1) args.arithmeticCodeInterval }

/-- The function `getNumberOfBits(args)` in exact arithmetic: `ceil(log2(x))` is the least
integer `j` with `x ≤ 2 ^ j`. -/
def getNumberOfBits (args : EncodingArgs) : EncodingArgs :=
  { args with k := Int.clog 2 (1 / args.arithmeticCodeInterval) + 1 }

/-! ## Reports -/

/-- The function `bitsPerSymbol(n)`: `int lg = log2(n)` truncates the logarithm. -/
def bitsPerSymbol (n : Nat) : Nat :=
  let lg := Nat.log 2 n
  if 2 ^ lg ≥ n then lg else lg + 1

/-- The value of a `double` quotient of two integers. -/
inductive Ratio where
  /-- A finite quotient. -/
  | finite (q : ℚ)
  /-- The result of dividing a positive number by zero. -/
  | inf
  /-- The result of dividing zero by zero. -/
  | nan
  deriving DecidableEq

/-- The expression `(double)a / b` for an integer `a ≥ 0` and an integer `b`. -/
def ratio (a : Nat) (b : Int) : Ratio :=
  if b ≠ 0 then Ratio.finite ((a : ℚ) / (b : ℚ))
  else if a = 0 then Ratio.nan
  else Ratio.inf

/-- The local `nonStatistical` of `huffmanResults` and `arithmeticResults`. -/
def nonStatistical (sequence : List Char) (args : EncodingArgs) : Nat :=
  bitsPerSymbol args.symbolMap.size * sequence.length

/-- What a call of `huffmanResults` leaves behind: the reference parameter `args`, the locals
`statistical` and `nonStatistical`, and the ratio `ro` that is written after the label
`HUFFMAN CODE COMPRESSION RATIO: `. -/
structure HuffmanReport where
  args : EncodingArgs
  statistical : Nat
  nonStatistical : Nat
  ro : Ratio

/-- The function `huffmanResults(sequence, args)`.  The vector `codes` has room for
`args.symbolMap.size() - 1` entries; `nonStatistical` is computed after the call of
`huffmanRatio`, from the map as that call leaves it. -/
def huffmanResults (sequence : List Char) (args : EncodingArgs) : HuffmanReport :=
  let codes : List Nat := List.replicate (args.symbolMap.size - 1) 0
  let r := huffmanRatio args args.treeRoot codes 0 0
  let statistical := r.2.2
  { args := r.1, statistical := statistical, nonStatistical := nonStatistical sequence r.1,
    ro := ratio (nonStatistical sequence r.1) (statistical : Int) }

/-- The function `arithmeticResults(sequence, args)`: the ratio `ro` that is written after the
label `ARITHMETIC CODE COMPRESSION RATIO: `. -/
def arithmeticResults (sequence : List Char) (args : EncodingArgs) : Ratio :=
  ratio (nonStatistical sequence args) args.k

/-! ## Auxiliary notions used in the statements -/

namespace SymbolMap

/-- The keys of the map, in iteration order. -/
def keys (m : SymbolMap) : List String := m.map Prod.fst

/-- The keys are strictly increasing. -/
def Ordered (m : SymbolMap) : Prop := m.Pairwise (fun a b => a.1 < b.1)

/-- The count `m[s].first` that a read access returns. -/
def count (m : SymbolMap) (s : String) : Nat := (m.index s).2.1

/-- The sum of the counts of all entries. -/
def total (m : SymbolMap) : Nat := (m.map (fun e => e.2.1)).sum

end SymbolMap

namespace Symbol

/-- The leaves of the tree below a pointer, from left to right: the `symb` of each node that
has no child, with its depth below the root. -/
def leaves : Symbol → List (String × Nat)
  | null => []
  | mk s _ l r =>
    if l = null ∧ r = null then [(s, 0)]
    else (leaves l ++ leaves r).map (fun e => (e.1, e.2 + 1))

/-- The number of edges on the longest path from the root down to a node. -/
def height : Symbol → Nat
  | null => 0
  | mk _ _ l r => if l = null ∧ r = null then 0 else max (height l) (height r) + 1

/-- Every node below the pointer has either no child or two children. -/
def Full : Symbol → Prop
  | null => True
  | mk _ _ l r => (l = null ↔ r = null) ∧ Full l ∧ Full r

/-- Decision procedure for `Full`. -/
def decFull : (t : Symbol) → Decidable (Full t)
  | null => isTrue trivial
  | mk _ _ l r =>
    match decFull l, decFull r with
    | isTrue hl, isTrue hr =>
      if h : (l = null ↔ r = null) then isTrue ⟨h, hl, hr⟩ else isFalse (fun hf => h hf.1)
    | isFalse hl, _ => isFalse (fun hf => hl hf.2.1)
    | _, isFalse hr => isFalse (fun hf => hr hf.2.2)

instance (t : Symbol) : Decidable (Full t) := decFull t

/-- The number of nodes below the pointer that have a child. -/
def internalCount : Symbol → Nat
  | null => 0
  | mk _ _ l r => if l = null ∧ r = null then 0 else internalCount l + internalCount r + 1

end Symbol

/-- The sum over the leaves of the tree of `(limit + depth) * count symb`. -/
def pathLength (count : String → Nat) (limit : Nat) (t : Symbol) : Nat :=
  (t.leaves.map (fun e => (limit + e.2) * count e.1)).sum

/-- The sum over the leaves of the tree of `count symb`. -/
def leafWeight (count : String → Nat) (t : Symbol) : Nat :=
  (t.leaves.map (fun e => count e.1)).sum

/-- The weights of a multiset of (weight, depth) pairs. -/
def weights (L : Multiset (ℕ × ℕ)) : Multiset ℕ := L.map Prod.fst

/-- The depths of a multiset of (weight, depth) pairs. -/
def depths (L : Multiset (ℕ × ℕ)) : Multiset ℕ := L.map Prod.snd

/-- The weighted path length of a multiset of (weight, depth) pairs. -/
def cost (L : Multiset (ℕ × ℕ)) : ℕ := (L.map (fun e => e.1 * e.2)).sum

/-- The Kraft sum of a multiset of depths, scaled by `2 ^ H`. -/
def kraftSum (H : ℕ) (ds : Multiset ℕ) : ℕ := (ds.map (fun d => 2 ^ (H - d))).sum

/-- The depths are at most `H` and satisfy Kraft's inequality. -/
def KraftAt (H : ℕ) (L : Multiset (ℕ × ℕ)) : Prop :=
  (∀ d ∈ depths L, d ≤ H) ∧ kraftSum H (depths L) ≤ 2 ^ H

/-- The (weight, depth) pairs of the leaves of a tree. -/
def assignment (count : String → Nat) (t : Symbol) : Multiset (ℕ × ℕ) :=
  Multiset.ofList (t.leaves.map (fun e => (count e.1, e.2)))

/-- What the loop of `createTree` maintains for every pointer in the queue: it is not null and
its `p` is the count of its leaves divided by `n`. -/
def Good (count : String → Nat) (n : Nat) (t : Symbol) : Prop :=
  t ≠ Symbol.null ∧ t.p = (leafWeight count t : ℚ) / (n : ℚ)

/-- The leaf that the second loop of `initHuffman` pushes for an entry of the map. -/
def leafOf (length : Nat) (e : Entry) : Symbol :=
  Symbol.mk e.1 ((e.2.1 : ℚ) / (length : ℚ)) Symbol.null Symbol.null

/-- An entry of the map as the second loop of `initHuffman` leaves it. -/
def withProbability (length : Nat) (e : Entry) : Entry :=
  (e.1, (e.2.1, (e.2.1 : ℚ) / (length : ℚ)))

/-- The `symb` of the leaves of all trees of a queue. -/
def forestSymbols : List Symbol → List String
  | [] => []
  | t :: ts => t.leaves.map Prod.fst ++ forestSymbols ts

/-! ## Further notions used in the statements -/

namespace Symbol

/-- The sum of the `p` of the leaves below the pointer. -/
def leafP : Symbol → ℚ
  | null => 0
  | mk _ p l r => if l = null ∧ r = null then p else leafP l + leafP r

/-- The leaves below the pointer, from left to right: the `symb` and the `p` of each node
that has no child. -/
def leafNodes : Symbol → List (String × ℚ)
  | null => []
  | mk s p l r => if l = null ∧ r = null then [(s, p)] else leafNodes l ++ leafNodes r

/-- Every node below the pointer that has a child holds in `p` the sum of the `p` of the
leaves of its subtree. -/
def SumsLeaves : Symbol → Prop
  | null => True
  | mk _ p l r =>
    (¬ (l = null ∧ r = null) → p = leafP l + leafP r) ∧ SumsLeaves l ∧ SumsLeaves r

/-- Every node below the pointer that has a child holds in `p` the sum of the `p` of its two
children. -/
def SumsChildren : Symbol → Prop
  | null => True
  | mk _ q l r => (¬ (l = null ∧ r = null) → q = l.p + r.p) ∧ SumsChildren l ∧ SumsChildren r

end Symbol

/-- The flattening of what `f` yields on the trees of a queue. -/
def forestOf {α : Type} (f : Symbol → List α) : List Symbol → List α
  | [] => []
  | t :: ts => f t ++ forestOf f ts

/-- Iterations of the `while (args.pq.size() != 1)` loop of `createTree`, counted:
`CreateTreeIters pq k pq'` holds when the loop started on queue `pq` can run through its body
`k` times and then stand at its test with queue `pq'`. -/
inductive CreateTreeIters : List Symbol → Nat → List Symbol → Prop where
  | zero {pq : List Symbol} : CreateTreeIters pq 0 pq
  | succ {pq pq' : List Symbol} {left right : Symbol} {k : Nat} :
      pq.length ≠ 1 → IsTop pq left → IsTop (pqPop pq left) right →
      CreateTreeIters (pqPush (pqPop (pqPop pq left) right) (mergeNode left right)) k pq' →
      CreateTreeIters pq (k + 1) pq'

/-- The writes `codes[limit] = v` that `huffmanRatio(args, root, codes, limit, sum)`
performs, in order: the index and the value of each. -/
def codeWrites : Symbol → Nat → List (Nat × Nat)
  | Symbol.null, _ => []
  | Symbol.mk _ _ left right, limit =>
    (match left with
      | Symbol.null => []
      | Symbol.mk _ _ _ _ => (limit, 0) :: codeWrites left (limit + 1)) ++
    (match right with
      | Symbol.null => []
      | Symbol.mk _ _ _ _ => (limit, 1) :: codeWrites right (limit + 1))


/-! ## The same functions over IEEE 754 binary64

The definitions above read `double` as an exact rational.  The definitions of this section
read it as the program's compiler does, as a binary64 number: a finite `double` is the
rational it stands for, and every arithmetic operation returns the exact result rounded to
the nearest binary64 number, to the one with an even last digit when two are equally near.
An operation whose result is an infinity or a NaN returns `none`.  All values that occur are
non-negative, so the sign of a zero plays no role. -/

namespace Binary64

/-- The integer nearest to `q`; of two equally near integers the even one. -/
def nearestEven (q : ℚ) : ℤ :=
  let f := ⌊q⌋
  if q - f < 1 / 2 then f
  else if 1 / 2 < q - f then f + 1
  else if f % 2 = 0 then f else f + 1

/-- Bisection for the greatest `e` with `lo ≤ e < hi` and `2 ^ e ≤ q`; the answer is `lo`
when there is no such `e`. -/
def searchExponent : Nat → ℤ → ℤ → ℚ → ℤ
  | 0, lo, _, _ => lo
  | steps + 1, lo, hi, q =>
    let mid := (lo + hi) / 2
    if (2 : ℚ) ^ mid ≤ q then searchExponent steps mid hi q
    else searchExponent steps lo mid q

/-- The exponent of the binade of `q ≥ 0`: the greatest `e` from -1022 to 1023 with
`2 ^ e ≤ q`, and -1022, the exponent of the subnormal numbers, when `q < 2 ^ (-1022)`. -/
def exponent (q : ℚ) : ℤ := searchExponent 11 (-1022) 1024 q

/-- The binary64 number nearest to `q`, ties to even: a multiple of `2 ^ (e - 52)`, the
spacing of the numbers with 53 significant binary digits in the binade of `q`, or of
`2 ^ (-1074)` below `2 ^ (-1022)`.  A result of magnitude `2 ^ 1024` or more is an infinity:
`none`. -/
def roundNearest (q : ℚ) : Option ℚ :=
  let ulp : ℚ := (2 : ℚ) ^ (exponent |q| - 52)
  let r : ℚ := (nearestEven (|q| / ulp) : ℚ) * ulp
  if r < (2 : ℚ) ^ (1024 : ℤ) then some (if q < 0 then -r else r) else none

/-- The conversion of an integer to `double`. -/
def ofNat (n : Nat) : Option ℚ := roundNearest n

/-- The quotient `x / y` of two finite `double`s; a division by zero yields an infinity or a
NaN. -/
def div (x y : ℚ) : Option ℚ := if y = 0 then none else roundNearest (x / y)

/-- The sum `x + y` of two finite `double`s. -/
def add (x y : ℚ) : Option ℚ := roundNearest (x + y)

/-- The product `x * y` of two finite `double`s. -/
def mul (x y : ℚ) : Option ℚ := roundNearest (x * y)

/-- The call `pow(x, n)` for a finite `double` `x` and an `int` `n ≥ 0`, which is converted
to `double` without rounding: the correctly rounded power.  The `pow` of the C library stays
within one unit in the last place of it; the language does not fix its last digit. -/
def pow (x : ℚ) (n : Nat) : Option ℚ := roundNearest (x ^ n)

/-- Reasons for which the executable model stops without a result. -/
inductive Fault where
  /-- The call `top()` on an empty queue, whose behaviour is undefined. -/
  | topOfEmptyQueue
  /-- The iteration budget given to the loop is used up. -/
  | budget
  /-- A `double` that is an infinity or a NaN. -/
  | notFinite
  deriving DecidableEq

/-- The node `createTree` allocates for a merge: `new Symbol("#", left->p + right->p)` with
its two children set, the sum rounded. -/
def mergeNode (left right : Symbol) : Option Symbol :=
  (add left.p right.p).map (fun s => Symbol.mk "#" s left right)

/-- Runs of the `while (args.pq.size() != 1)` loop of `createTree` with rounded sums. -/
inductive CreateTreeLoop : List Symbol → List Symbol → Prop where
  | exit {pq : List Symbol} : pq.length = 1 → CreateTreeLoop pq pq
  | iter {pq pq' : List Symbol} {left right parent : Symbol} :
      pq.length ≠ 1 → IsTop pq left → IsTop (pqPop pq left) right →
      mergeNode left right = some parent →
      CreateTreeLoop (pqPush (pqPop (pqPop pq left) right) parent) pq' →
      CreateTreeLoop pq pq'

/-- Runs of `createTree(args)` with rounded sums. -/
def CreateTree (args args' : EncodingArgs) : Prop :=
  if args.pq.length = 1 then
    ∃ root, IsTop args.pq root ∧ args' = { args with treeRoot := root }
  else
    ∃ pq' root, CreateTreeLoop args.pq pq' ∧ IsTop pq' root ∧
      args' = { args with pq := pq', treeRoot := root }

/-- The loop of `createTree` with `pqTop` for `top()` and rounded sums, for at most `budget`
iterations. -/
def createTreeLoop : Nat → List Symbol → Except Fault (List Symbol)
  | budget, pq =>
    if pq.length ≠ 1 then
      match pqTop pq with
      | none => Except.error Fault.topOfEmptyQueue
      | some left =>
        match pqTop (pqPop pq left) with
        | none => Except.error Fault.topOfEmptyQueue
        | some right =>
          match mergeNode left right with
          | none => Except.error Fault.notFinite
          | some parent =>
            match budget with
            | 0 => Except.error Fault.budget
            | b + 1 => createTreeLoop b (pqPush (pqPop (pqPop pq left) right) parent)
    else Except.ok pq

/-- The function `createTree(args)` with `pqTop` for `top()` and rounded sums. -/
def createTree (args : EncodingArgs) : Except Fault EncodingArgs :=
  if args.pq.length = 1 then
    match pqTop args.pq with
    | none => Except.error Fault.topOfEmptyQueue
    | some root => Except.ok { args with treeRoot := root }
  else
    match createTreeLoop args.pq.length args.pq with
    | Except.error e => Except.error e
    | Except.ok pq' =>
      match pqTop pq' with
      | none => Except.error Fault.topOfEmptyQueue
      | some root => Except.ok { args with pq := pq', treeRoot := root }

/-- The elements of the queue that `top()` may return. -/
def tops (pq : List Symbol) : List Symbol :=
  pq.filter (fun x => decide (∀ y ∈ pq, ¬ Comparator x y))

/-- The queues with which the loop of `createTree` can exit when it starts on `pq`, for
every choice that `top()` can make, within `budget` iterations. -/
def createTreeRuns : Nat → List Symbol → List (List Symbol)
  | budget, pq =>
    if pq.length ≠ 1 then
      match budget with
      | 0 => []
      | b + 1 =>
        (tops pq).flatMap (fun left =>
          (tops (pqPop pq left)).flatMap (fun right =>
            match mergeNode left right with
            | none => []
            | some parent => createTreeRuns b (pqPush (pqPop (pqPop pq left) right) parent)))
    else [pq]

/-- The second loop of `initHuffman` over the entries of the map, in key order: stores
`p = (double)count / length` in the entry and pushes the leaf `new Symbol(key, p)`. -/
def pushLeaves (length : Nat) :
    List Entry → List Symbol → Option (List Entry × List Symbol)
  | [], pq => some ([], pq)
  | (key, (count, _)) :: rest, pq => do
    let c ← ofNat count
    let n ← ofNat length
    let p ← div c n
    let r ← pushLeaves length rest (pqPush pq (Symbol.mk key p Symbol.null Symbol.null))
    pure ((key, (count, p)) :: r.1, r.2)

/-- The state of `initHuffman` at its call of `createTree`. -/
def initQueue (sequence : List Char) (args : EncodingArgs) : Option EncodingArgs := do
  let r ← pushLeaves sequence.length (countSymbols sequence args.symbolMap) args.pq
  pure { args with symbolMap := r.1, pq := r.2 }

/-- Runs of `initHuffman(sequence, args)` with rounded quotients and sums. -/
def InitHuffman (sequence : List Char) (args args' : EncodingArgs) : Prop :=
  ∃ a, initQueue sequence args = some a ∧ CreateTree a args'

/-- The function `initHuffman(sequence, args)` with `pqTop` for `top()`. -/
def initHuffman (sequence : List Char) (args : EncodingArgs) : Except Fault EncodingArgs :=
  match initQueue sequence args with
  | none => Except.error Fault.notFinite
  | some a => createTree a

/-- The loop of `calculateInterval` over the entries of the map, in key order:
`width *= pow(probability, count)`. -/
def intervalLoop : List Entry → ℚ → Option ℚ
  | [], w => some w
  | e :: rest, w => do
    let x ← pow e.2.2 e.2.1
    let w' ← mul w x
    intervalLoop rest w'

/-- The function `calculateInterval(args)` with rounded powers and products. -/
def calculateInterval (args : EncodingArgs) : Option EncodingArgs :=
  (intervalLoop args.symbolMap args.arithmeticCodeInterval).map
    (fun w => { args with arithmeticCodeInterval := w })

end Binary64
/-! ## The symbol map -/

namespace SymbolMap

theorem find_assign_same (m : SymbolMap) (s : String) (v : Nat × ℚ) :
    (m.assign s v).find s = some v := by
  induction m with
  | nil => simp [assign, find]
  | cons e rest ih =>
    obtain ⟨k, w⟩ := e
    by_cases h1 : s < k
    · simp [assign, find, h1]
    · by_cases h2 : s = k
      · simp [assign, find, h1, h2]
      · have h3 : ¬ k = s := fun h => h2 h.symm
        simp [assign, find, h1, h2, h3, ih]

theorem find_assign_other (m : SymbolMap) (s t : String) (v : Nat × ℚ) (h : t ≠ s) :
    (m.assign s v).find t = m.find t := by
  induction m with
  | nil => simp [assign, find, Ne.symm h]
  | cons e rest ih =>
    obtain ⟨k, w⟩ := e
    by_cases h1 : s < k
    · simp [assign, find, h1, Ne.symm h]
    · by_cases h2 : s = k
      · subst h2
        simp [assign, find, h1, Ne.symm h]
      · simp [assign, find, h1, h2, ih]

theorem mem_keys_assign (m : SymbolMap) (s t : String) (v : Nat × ℚ) :
    t ∈ (m.assign s v).keys ↔ t = s ∨ t ∈ m.keys := by
  induction m with
  | nil => simp [assign, keys]
  | cons e rest ih =>
    obtain ⟨k, w⟩ := e
    by_cases h1 : s < k
    · simp [assign, keys, h1]
    · by_cases h2 : s = k
      · subst h2
        simp [assign, keys, h1]
      · simp only [keys] at ih
        simp [assign, keys, h1, h2, ih]
        tauto

theorem ordered_assign (m : SymbolMap) (s : String) (v : Nat × ℚ) (hm : m.Ordered) :
    (m.assign s v).Ordered := by
  induction m with
  | nil => simp [assign, Ordered]
  | cons e rest ih =>
    obtain ⟨k, w⟩ := e
    have hm' := List.pairwise_cons.mp hm
    by_cases h1 : s < k
    · simp only [assign, h1, if_true]
      refine List.pairwise_cons.mpr ⟨?_, hm⟩
      intro b hb
      rcases List.mem_cons.mp hb with rfl | hb
      · exact h1
      · exact lt_trans h1 (hm'.1 b hb)
    · by_cases h2 : s = k
      · subst h2
        simp only [assign, h1, if_false, if_true]
        exact List.pairwise_cons.mpr ⟨hm'.1, hm'.2⟩
      · simp only [assign, h1, h2, if_false]
        refine List.pairwise_cons.mpr ⟨?_, ih hm'.2⟩
        intro b hb
        have hb' : b.1 ∈ (assign rest s v).keys := List.mem_map_of_mem _ hb
        rcases (mem_keys_assign rest s b.1 v).mp hb' with h | h
        · rw [h]
          exact lt_of_le_of_ne (not_lt.mp h1) (Ne.symm h2)
        · obtain ⟨b', hb', hbb⟩ := List.mem_map.mp h
          rw [← hbb]
          exact hm'.1 b' hb'

theorem find_eq_none_of_lt (m : SymbolMap) (s : String) (h : ∀ e ∈ m, s < e.1) :
    m.find s = none := by
  induction m with
  | nil => simp [find]
  | cons e rest ih =>
    obtain ⟨k, w⟩ := e
    have hk : s < k := h (k, w) (List.mem_cons_self _ _)
    have : ¬ k = s := fun hks => lt_irrefl s (hks ▸ hk)
    simp [find, this]
    exact ih (fun e he => h e (List.mem_cons_of_mem _ he))

theorem find_eq_none_iff (m : SymbolMap) (s : String) : m.find s = none ↔ s ∉ m.keys := by
  induction m with
  | nil => simp [find, keys]
  | cons e rest ih =>
    obtain ⟨k, w⟩ := e
    by_cases h : k = s
    · simp [find, keys, h]
    · simp only [keys] at ih
      simp [find, keys, h, ih, Ne.symm h]

theorem mem_of_find (m : SymbolMap) (s : String) (v : Nat × ℚ) (h : m.find s = some v) :
    (s, v) ∈ m := by
  induction m with
  | nil => simp [find] at h
  | cons e rest ih =>
    obtain ⟨k, w⟩ := e
    by_cases hk : k = s
    · simp [find, hk] at h
      simp [hk, h]
    · simp [find, hk] at h
      exact List.mem_cons_of_mem _ (ih h)

theorem find_of_mem (m : SymbolMap) (hm : m.Ordered) (s : String) (v : Nat × ℚ)
    (h : (s, v) ∈ m) : m.find s = some v := by
  induction m with
  | nil => simp at h
  | cons e rest ih =>
    obtain ⟨k, w⟩ := e
    have hm' := List.pairwise_cons.mp hm
    rcases List.mem_cons.mp h with h | h
    · injection h with h1 h2
      simp [find, h1, h2]
    · have hlt : k < s := hm'.1 (s, v) h
      have : ¬ k = s := fun hks => lt_irrefl s (hks ▸ hlt)
      simp [find, this]
      exact ih hm'.2 h

theorem keys_nodup (m : SymbolMap) (hm : m.Ordered) : m.keys.Nodup := by
  unfold keys Ordered at *
  rw [List.Nodup, List.pairwise_map]
  exact hm.imp (fun h => ne_of_lt h)

theorem count_eq (m : SymbolMap) (s : String) :
    m.count s = ((m.find s).map Prod.fst).getD 0 := by
  unfold count index
  cases h : m.find s <;> simp

theorem total_assign (m : SymbolMap) (hm : m.Ordered) (s : String) (v : Nat × ℚ) :
    (m.assign s v).total + m.count s = m.total + v.1 := by
  induction m with
  | nil => simp [assign, total, count_eq, find]
  | cons e rest ih =>
    obtain ⟨k, w⟩ := e
    have hm' := List.pairwise_cons.mp hm
    by_cases h1 : s < k
    · have hnone : find ((k, w) :: rest) s = none := by
        apply find_eq_none_of_lt
        intro e he
        rcases List.mem_cons.mp he with rfl | he
        · exact h1
        · exact lt_trans h1 (hm'.1 e he)
      simp [assign, h1, total, count_eq, hnone]
      omega
    · by_cases h2 : s = k
      · subst h2
        simp [assign, h1, total, count_eq, find]
        omega
      · have h3 : ¬ k = s := fun h => h2 h.symm
        have ih' := ih hm'.2
        simp only [total, count_eq] at ih' ⊢
        simp [assign, h1, h2, find, h3]
        omega

end SymbolMap

theorem countSymbols_cons (c : Char) (sequence : List Char) (m : SymbolMap) :
    countSymbols (c :: sequence) m = countSymbols sequence (countChar m c) := rfl

theorem countChar_eq (m : SymbolMap) (c : Char) :
    countChar m c = m.assign ("".push c) (m.count ("".push c) + 1,
      ((m.find ("".push c)).map Prod.snd).getD 0) := by
  unfold countChar
  cases h : m.find ("".push c) <;> simp [SymbolMap.count_eq, h]

theorem push_injective (c d : Char) (h : "".push c = "".push d) : c = d := by
  have := congrArg String.data h
  simpa using this

theorem countChar_ordered (m : SymbolMap) (c : Char) (hm : m.Ordered) :
    (countChar m c).Ordered := by
  rw [countChar_eq]
  exact SymbolMap.ordered_assign _ _ _ hm

theorem countChar_count (m : SymbolMap) (c : Char) (s : String) :
    (countChar m c).count s = m.count s + if "".push c = s then 1 else 0 := by
  rw [countChar_eq]
  by_cases hs : "".push c = s
  · subst hs
    rw [SymbolMap.count_eq, SymbolMap.find_assign_same]
    simp
  · rw [SymbolMap.count_eq, SymbolMap.find_assign_other _ _ _ _ (Ne.symm hs),
      ← SymbolMap.count_eq]
    simp [hs]

theorem countChar_keys (m : SymbolMap) (c : Char) (s : String) :
    s ∈ (countChar m c).keys ↔ s = "".push c ∨ s ∈ m.keys := by
  rw [countChar_eq, SymbolMap.mem_keys_assign]

theorem countChar_total (m : SymbolMap) (c : Char) (hm : m.Ordered) :
    (countChar m c).total = m.total + 1 := by
  rw [countChar_eq]
  have h := SymbolMap.total_assign m hm ("".push c)
    (m.count ("".push c) + 1, ((m.find ("".push c)).map Prod.snd).getD 0)
  simp only at h
  omega

theorem countSymbols_ordered (sequence : List Char) (m : SymbolMap) (hm : m.Ordered) :
    (countSymbols sequence m).Ordered := by
  induction sequence generalizing m with
  | nil => simpa [countSymbols] using hm
  | cons c rest ih =>
    rw [countSymbols_cons]
    exact ih _ (countChar_ordered m c hm)

theorem countSymbols_count (sequence : List Char) (m : SymbolMap) (s : String) :
    (countSymbols sequence m).count s =
      m.count s + sequence.countP (fun c => "".push c = s) := by
  induction sequence generalizing m with
  | nil => simp [countSymbols]
  | cons c rest ih =>
    rw [countSymbols_cons, ih, countChar_count]
    by_cases hs : "".push c = s
    · rw [List.countP_cons_of_pos _ _ (by simpa using hs)]
      simp [hs]
      omega
    · rw [List.countP_cons_of_neg _ _ (by simpa using hs)]
      simp [hs]

theorem countSymbols_keys (sequence : List Char) (m : SymbolMap) (s : String) :
    s ∈ (countSymbols sequence m).keys ↔ s ∈ m.keys ∨ ∃ c ∈ sequence, s = "".push c := by
  induction sequence generalizing m with
  | nil => simp [countSymbols]
  | cons c rest ih =>
    rw [countSymbols_cons, ih, countChar_keys]
    simp only [List.mem_cons, exists_eq_or_imp]
    tauto

theorem countSymbols_total (sequence : List Char) (m : SymbolMap) (hm : m.Ordered) :
    (countSymbols sequence m).total = m.total + sequence.length := by
  induction sequence generalizing m with
  | nil => simp [countSymbols]
  | cons c rest ih =>
    rw [countSymbols_cons, ih _ (countChar_ordered m c hm), countChar_total m c hm]
    simp only [List.length_cons]
    omega

theorem countP_push (sequence : List Char) (c : Char) :
    sequence.countP (fun d => "".push d = "".push c) = sequence.count c := by
  rw [List.count, List.countP_congr]
  intro d _
  simp only [decide_eq_true_eq, beq_iff_eq]
  exact ⟨fun h => push_injective _ _ h, fun h => by rw [h]⟩

/-- What the counting loop of `initHuffman` leaves in an empty map. -/
theorem countSymbols_facts (sequence : List Char) :
    (∀ s, s ∈ (countSymbols sequence []).keys ↔ ∃ c ∈ sequence, s = "".push c) ∧
    (countSymbols sequence []).keys.Nodup ∧
    (∀ c ∈ sequence, ∃ q, ("".push c, (sequence.count c, q)) ∈ countSymbols sequence []) ∧
    (∀ e ∈ countSymbols sequence [], ∃ c ∈ sequence, e.1 = "".push c ∧
      e.2.1 = sequence.count c ∧ 1 ≤ e.2.1) ∧
    ((countSymbols sequence []).map (fun e => e.2.1)).sum = sequence.length := by
  have hord : (countSymbols sequence []).Ordered :=
    countSymbols_ordered sequence [] List.Pairwise.nil
  have hkeys : ∀ s, s ∈ (countSymbols sequence []).keys ↔ ∃ c ∈ sequence, s = "".push c := by
    intro s
    rw [countSymbols_keys]
    simp [SymbolMap.keys]
  have hcount : ∀ c, (countSymbols sequence []).count ("".push c) = sequence.count c := by
    intro c
    rw [countSymbols_count, countP_push]
    simp [SymbolMap.count_eq, SymbolMap.find]
  refine ⟨hkeys, SymbolMap.keys_nodup _ hord, ?_, ?_, ?_⟩
  · intro c hc
    have hk : "".push c ∈ (countSymbols sequence []).keys := (hkeys _).mpr ⟨c, hc, rfl⟩
    cases h : (countSymbols sequence []).find ("".push c) with
    | none => exact absurd hk ((SymbolMap.find_eq_none_iff _ _).mp h)
    | some v =>
      have := hcount c
      rw [SymbolMap.count_eq, h] at this
      simp at this
      refine ⟨v.2, ?_⟩
      rw [← this]
      exact SymbolMap.mem_of_find _ _ _ h
  · intro e he
    obtain ⟨c, hc, hec⟩ := (hkeys e.1).mp (List.mem_map_of_mem _ he)
    have hf := SymbolMap.find_of_mem _ hord e.1 e.2 he
    have := hcount c
    rw [← hec, SymbolMap.count_eq, hf] at this
    simp at this
    refine ⟨c, hc, hec, this, ?_⟩
    rw [this]
    exact List.count_pos_iff.mpr hc
  · have := countSymbols_total sequence [] List.Pairwise.nil
    simpa [SymbolMap.total] using this

/-! ## The traversal `huffmanRatio` -/

theorem pathLength_null (c : String → Nat) (limit : Nat) : pathLength c limit Symbol.null = 0 := by
  simp [pathLength, Symbol.leaves]

theorem pathLength_leaf (c : String → Nat) (limit : Nat) (s : String) (p : ℚ) :
    pathLength c limit (Symbol.mk s p Symbol.null Symbol.null) = limit * c s := by
  simp [pathLength, Symbol.leaves]

theorem pathLength_node (c : String → Nat) (limit : Nat) (s : String) (p : ℚ) (l r : Symbol)
    (h : ¬ (l = Symbol.null ∧ r = Symbol.null)) :
    pathLength c limit (Symbol.mk s p l r) =
      pathLength c (limit + 1) l + pathLength c (limit + 1) r := by
  simp only [pathLength, Symbol.leaves, h, if_false, List.map_map, List.map_append,
    List.sum_append]
  congr 2 <;> (apply List.map_congr_left; intro e _; simp only [Function.comp]; ring_nf)

theorem index_count (m : SymbolMap) (s t : String) : (m.index s).1.count t = m.count t := by
  unfold SymbolMap.index
  cases h : m.find s with
  | some v => rfl
  | none =>
    simp only [SymbolMap.count_eq]
    by_cases hts : t = s
    · subst hts
      simp [SymbolMap.find_assign_same, h]
    · rw [SymbolMap.find_assign_other _ _ _ _ hts]

theorem huffmanRatio_null (args : EncodingArgs) (codes : List Nat) (limit sum : Nat) :
    huffmanRatio args Symbol.null codes limit sum = (args, codes, sum) := by
  simp [huffmanRatio]

theorem huffmanRatio_mk (args : EncodingArgs) (symb : String) (p : ℚ) (left right : Symbol)
    (codes : List Nat) (limit sum : Nat) :
    huffmanRatio args (Symbol.mk symb p left right) codes limit sum =
      if left = Symbol.null ∧ right = Symbol.null then
        ({ args with symbolMap := (args.symbolMap.index symb).1 }, codes,
          sum + limit * (args.symbolMap.index symb).2.1)
      else
        huffmanRatio (huffmanRatio args left (codes.set limit 0) (limit + 1) sum).1 right
          (if left = Symbol.null then (if right = Symbol.null then codes else codes.set limit 1)
            else if right = Symbol.null then
              (huffmanRatio args left (codes.set limit 0) (limit + 1) sum).2.1
            else (huffmanRatio args left (codes.set limit 0) (limit + 1) sum).2.1.set limit 1)
          (limit + 1)
          (huffmanRatio args left (codes.set limit 0) (limit + 1) sum).2.2 := by
  cases left <;> cases right <;> simp [huffmanRatio]

theorem huffmanRatio_spec (root : Symbol) :
    ∀ (args : EncodingArgs) (codes : List Nat) (limit sum : Nat),
      (∀ s, (huffmanRatio args root codes limit sum).1.symbolMap.count s =
        args.symbolMap.count s) ∧
      (huffmanRatio args root codes limit sum).2.2 =
        sum + pathLength args.symbolMap.count limit root := by
  induction root with
  | null =>
    intro args codes limit sum
    simp [huffmanRatio_null, pathLength_null]
  | mk symb p left right ihl ihr =>
    intro args codes limit sum
    rw [huffmanRatio_mk]
    by_cases h : left = Symbol.null ∧ right = Symbol.null
    · obtain ⟨hl, hr⟩ := h
      subst hl hr
      simp only [and_self, if_true, pathLength_leaf]
      exact ⟨fun s => index_count _ _ _, rfl⟩
    · rw [if_neg h, pathLength_node _ _ _ _ _ _ h]
      obtain ⟨h1, h2⟩ := ihl args (codes.set limit 0) (limit + 1) sum
      generalize huffmanRatio args left (codes.set limit 0) (limit + 1) sum = s1 at h1 h2 ⊢
      generalize (if left = Symbol.null then (if right = Symbol.null then codes
        else codes.set limit 1) else if right = Symbol.null then s1.2.1
        else s1.2.1.set limit 1) = codes1
      obtain ⟨h3, h4⟩ := ihr s1.1 codes1 (limit + 1) s1.2.2
      refine ⟨fun s => (h3 s).trans (h1 s), ?_⟩
      rw [h4, h2]
      have : s1.1.symbolMap.count = args.symbolMap.count := funext h1
      rw [this]
      ring

/-! ## Depth assignments and Kraft's inequality -/

theorem weights_cons (e : ℕ × ℕ) (L : Multiset (ℕ × ℕ)) :
    weights (e ::ₘ L) = e.1 ::ₘ weights L := by simp [weights]

theorem depths_cons (e : ℕ × ℕ) (L : Multiset (ℕ × ℕ)) :
    depths (e ::ₘ L) = e.2 ::ₘ depths L := by simp [depths]

theorem cost_cons (e : ℕ × ℕ) (L : Multiset (ℕ × ℕ)) :
    cost (e ::ₘ L) = e.1 * e.2 + cost L := by simp [cost]

theorem kraftSum_cons (H d : ℕ) (ds : Multiset ℕ) :
    kraftSum H (d ::ₘ ds) = 2 ^ (H - d) + kraftSum H ds := by simp [kraftSum]

/-- Exchange step: the least weight can be moved to a deepest position without raising the
cost. -/
theorem exchange_min (L : Multiset (ℕ × ℕ)) (D a x : ℕ) (hD : ∀ e ∈ L, e.2 ≤ D)
    (hx : (x, D) ∈ L) (ha : a ∈ weights L) (hmin : ∀ w ∈ weights L, a ≤ w) :
    ∃ M, weights M = (weights L).erase a ∧ depths M = (depths L).erase D ∧
      a * D + cost M ≤ cost L := by
  obtain ⟨e, he, hea⟩ := Multiset.mem_map.mp ha
  obtain ⟨a', d⟩ := e
  simp only at hea
  subst hea
  by_cases hd : d = D
  · subst hd
    refine ⟨L.erase (a', d), ?_, ?_, ?_⟩
    · conv_rhs => rw [← Multiset.cons_erase he, weights_cons]
      simp
    · conv_rhs => rw [← Multiset.cons_erase he, depths_cons]
      simp
    · conv_rhs => rw [← Multiset.cons_erase he, cost_cons]
  · have hne : (x, D) ≠ (a', d) := fun h => hd (by injection h with _ h2; exact h2.symm)
    have hx' : (x, D) ∈ L.erase (a', d) := (Multiset.mem_erase_of_ne hne).mpr hx
    have hL : L = (a', d) ::ₘ (x, D) ::ₘ (L.erase (a', d)).erase (x, D) := by
      rw [Multiset.cons_erase hx', Multiset.cons_erase he]
    refine ⟨(x, d) ::ₘ (L.erase (a', d)).erase (x, D), ?_, ?_, ?_⟩
    · conv_rhs => rw [hL]
      simp [weights_cons]
    · conv_rhs => rw [hL, depths_cons, depths_cons, Multiset.cons_swap]
      simp [depths_cons]
    · conv_rhs => rw [hL]
      simp only [cost_cons]
      have h1 : a' ≤ x := hmin x (Multiset.mem_map.mpr ⟨(x, D), hx, rfl⟩)
      have h2 : d ≤ D := hD (a', d) he
      obtain ⟨u, rfl⟩ := Nat.exists_eq_add_of_le h1
      obtain ⟨v, rfl⟩ := Nat.exists_eq_add_of_le h2
      nlinarith [Nat.zero_le (u * v)]

theorem kraft_parity (H D S : ℕ) (hD1 : 1 ≤ D) (hDH : D ≤ H) (hdvd : 2 ^ (H - D + 1) ∣ S)
    (hle : 2 ^ (H - D) + S ≤ 2 ^ H) : 2 ^ (H - (D - 1)) + S ≤ 2 ^ H := by
  have e1 : H - (D - 1) = H - D + 1 := by omega
  have hdvd' : 2 ^ (H - D + 1) ∣ 2 ^ H := pow_dvd_pow 2 (by omega)
  obtain ⟨a, ha⟩ := hdvd
  obtain ⟨b, hb⟩ := hdvd'
  have hq : 2 ^ (H - D + 1) = 2 * 2 ^ (H - D) := by rw [pow_succ]; ring
  have hpos : 0 < 2 ^ (H - D) := by positivity
  rw [e1, ha, hb]
  rw [ha, hb, hq] at hle
  rw [hq]
  have hab : a < b := by
    by_contra hcon
    have hba : b ≤ a := not_lt.mp hcon
    have := Nat.mul_le_mul_left (2 * 2 ^ (H - D)) hba
    omega
  have := Nat.mul_le_mul_left (2 * 2 ^ (H - D)) (Nat.succ_le_of_lt hab)
  rw [Nat.mul_succ] at this
  omega

/-- An assignment that satisfies Kraft's inequality can be changed, without raising the cost,
into one whose two deepest entries have the same depth. -/
theorem two_deepest (H : ℕ) : ∀ (n : ℕ) (L : Multiset (ℕ × ℕ)), (depths L).sum = n →
    KraftAt H L → 2 ≤ Multiset.card L →
    ∃ D M x y, 1 ≤ D ∧ (∀ e ∈ M, e.2 ≤ D) ∧
      KraftAt H ((x, D) ::ₘ (y, D) ::ₘ M) ∧
      weights ((x, D) ::ₘ (y, D) ::ₘ M) = weights L ∧
      cost ((x, D) ::ₘ (y, D) ::ₘ M) ≤ cost L := by
  intro n
  induction n using Nat.strong_induction_on with
  | _ n ih =>
    intro L hn hK hcard
    have hne : L.toFinset.Nonempty := by
      rw [Multiset.toFinset_nonempty]
      intro h0
      rw [h0] at hcard
      simp at hcard
    obtain ⟨e, he, hmax⟩ := Finset.exists_max_image L.toFinset (fun e => e.2) hne
    rw [Multiset.mem_toFinset] at he
    have hmax' : ∀ e' ∈ L, e'.2 ≤ e.2 := fun e' he' => hmax e' (Multiset.mem_toFinset.mpr he')
    have hL : e ::ₘ L.erase e = L := Multiset.cons_erase he
    have hcardM : 1 ≤ Multiset.card (L.erase e) := by
      have := Multiset.card_erase_add_one he
      omega
    obtain ⟨e1, he1⟩ : ∃ e1, e1 ∈ L.erase e := by
      exact Multiset.card_pos_iff_exists_mem.mp hcardM
    have heH : e.2 ≤ H := hK.1 e.2 (Multiset.mem_map.mpr ⟨e, he, rfl⟩)
    by_cases hex : ∃ e' ∈ L.erase e, e'.2 = e.2
    · obtain ⟨e', he', hd⟩ := hex
      have hM : e' ::ₘ (L.erase e).erase e' = L.erase e := Multiset.cons_erase he'
      have hL2 : (e.1, e.2) ::ₘ (e'.1, e.2) ::ₘ (L.erase e).erase e' = L := by
        have h2 : (e'.1, e.2) = e' := by rw [← hd]
        rw [h2, hM]
        exact hL
      refine ⟨e.2, (L.erase e).erase e', e.1, e'.1, ?_, ?_, ?_, ?_, ?_⟩
      · by_contra h0
        have h0' : e.2 = 0 := by omega
        have hk := hK.2
        rw [← hL2, depths_cons, depths_cons, kraftSum_cons, kraftSum_cons] at hk
        simp only [h0', Nat.sub_zero] at hk
        have hpos : 0 < 2 ^ H := by positivity
        omega
      · intro e'' he''
        exact hmax' e'' (Multiset.mem_of_mem_erase (Multiset.mem_of_mem_erase he''))
      · rw [hL2]; exact hK
      · rw [hL2]
      · rw [hL2]
    · push_neg at hex
      have hlt : ∀ e' ∈ L.erase e, e'.2 < e.2 := fun e' he' =>
        lt_of_le_of_ne (hmax' e' (Multiset.mem_of_mem_erase he')) (hex e' he')
      have hD1 : 1 ≤ e.2 := by
        have := hlt e1 he1
        omega
      have hsum : (depths L).sum = e.2 + (depths (L.erase e)).sum := by
        conv_lhs => rw [← hL, depths_cons]
        simp
      have hK1 : KraftAt H ((e.1, e.2 - 1) ::ₘ L.erase e) := by
        constructor
        · intro d hd
          rw [depths_cons, Multiset.mem_cons] at hd
          rcases hd with rfl | hd
          · simp only; omega
          · obtain ⟨e', he', rfl⟩ := Multiset.mem_map.mp hd
            exact hK.1 _ (Multiset.mem_map.mpr ⟨e', Multiset.mem_of_mem_erase he', rfl⟩)
        · rw [depths_cons, kraftSum_cons]
          apply kraft_parity H e.2 _ hD1 heH
          · apply Multiset.dvd_sum
            intro t ht
            obtain ⟨d, hd, rfl⟩ := Multiset.mem_map.mp ht
            obtain ⟨e', he', rfl⟩ := Multiset.mem_map.mp hd
            have := hlt e' he'
            exact pow_dvd_pow 2 (by omega)
          · have hk := hK.2
            rw [← hL, depths_cons, kraftSum_cons] at hk
            exact hk
      have hcard1 : 2 ≤ Multiset.card ((e.1, e.2 - 1) ::ₘ L.erase e) := by
        rw [Multiset.card_cons]
        omega
      have hsum1 : (depths ((e.1, e.2 - 1) ::ₘ L.erase e)).sum < n := by
        rw [depths_cons, Multiset.sum_cons, ← hn, hsum]
        simp only
        omega
      obtain ⟨D, M, x, y, h1, h2, h3, h4, h5⟩ := ih _ hsum1 _ rfl hK1 hcard1
      refine ⟨D, M, x, y, h1, h2, h3, ?_, ?_⟩
      · rw [h4, weights_cons]
        conv_rhs => rw [← hL, weights_cons]
      · refine le_trans h5 ?_
        rw [cost_cons]
        conv_rhs => rw [← hL, cost_cons]
        simp only
        have : e.1 * (e.2 - 1) ≤ e.1 * e.2 := Nat.mul_le_mul_left _ (Nat.sub_le _ _)
        omega

/-- The reduction step of the optimality argument: from an assignment for weights
`a, b, W` with `a` and `b` the two least, an assignment for `a + b, W` that is cheaper by
at least `a + b`. -/
theorem merge_two (H : ℕ) (L : Multiset (ℕ × ℕ)) (a b : ℕ) (W : Multiset ℕ)
    (hK : KraftAt H L) (hW : weights L = a ::ₘ b ::ₘ W)
    (ha : ∀ w ∈ b ::ₘ W, a ≤ w) (hb : ∀ w ∈ W, b ≤ w) :
    ∃ L', KraftAt H L' ∧ weights L' = (a + b) ::ₘ W ∧ cost L' + a + b ≤ cost L := by
  have hcard : 2 ≤ Multiset.card L := by
    have : Multiset.card L = Multiset.card (weights L) := by simp [weights]
    rw [this, hW]
    simp
  obtain ⟨D, M, x, y, hD1, hM, hK0, hW0, hc0⟩ := two_deepest H _ L rfl hK hcard
  have hDH : D ≤ H := hK0.1 D (by simp [depths_cons])
  -- move `a` to depth `D`
  have hall0 : ∀ e ∈ (x, D) ::ₘ (y, D) ::ₘ M, e.2 ≤ D := by
    intro e he
    rcases Multiset.mem_cons.mp he with rfl | he
    · exact le_refl _
    rcases Multiset.mem_cons.mp he with rfl | he
    · exact le_refl _
    · exact hM e he
  obtain ⟨M1, hW1, hd1, hc1⟩ := exchange_min ((x, D) ::ₘ (y, D) ::ₘ M) D a x hall0
    (Multiset.mem_cons_self _ _) (by rw [hW0, hW]; exact Multiset.mem_cons_self _ _)
    (by
      intro w hw
      rw [hW0, hW] at hw
      rcases Multiset.mem_cons.mp hw with rfl | hw
      · exact le_refl _
      · exact ha w hw)
  rw [hW0, hW, Multiset.erase_cons_head] at hW1
  rw [depths_cons, Multiset.erase_cons_head, depths_cons] at hd1
  simp only at hd1
  -- move `b` to depth `D`
  have hDM1 : D ∈ depths M1 := by rw [hd1]; exact Multiset.mem_cons_self _ _
  obtain ⟨e, he, heD⟩ := Multiset.mem_map.mp hDM1
  obtain ⟨x', d'⟩ := e
  simp only at heD
  subst heD
  have hall1 : ∀ e ∈ M1, e.2 ≤ d' := by
    intro e he
    have : e.2 ∈ depths M1 := Multiset.mem_map.mpr ⟨e, he, rfl⟩
    rw [hd1] at this
    rcases Multiset.mem_cons.mp this with h | h
    · exact le_of_eq h
    · obtain ⟨e', he', h'⟩ := Multiset.mem_map.mp h
      rw [← h']
      exact hM e' he'
  obtain ⟨M2, hW2, hd2, hc2⟩ := exchange_min M1 d' b x' hall1 he
    (by rw [hW1]; exact Multiset.mem_cons_self _ _)
    (by
      intro w hw
      rw [hW1] at hw
      rcases Multiset.mem_cons.mp hw with rfl | hw
      · exact le_refl _
      · exact hb w hw)
  rw [hW1, Multiset.erase_cons_head] at hW2
  rw [hd1, Multiset.erase_cons_head] at hd2
  refine ⟨(a + b, d' - 1) ::ₘ M2, ⟨?_, ?_⟩, ?_, ?_⟩
  · intro d hd
    rw [depths_cons, Multiset.mem_cons, hd2] at hd
    rcases hd with rfl | hd
    · simp only; omega
    · exact hK0.1 d (by
        rw [depths_cons, depths_cons]
        exact Multiset.mem_cons_of_mem (Multiset.mem_cons_of_mem hd))
  · have hk := hK0.2
    rw [depths_cons, depths_cons, kraftSum_cons, kraftSum_cons] at hk
    rw [depths_cons, kraftSum_cons, hd2]
    simp only at hk ⊢
    have e1 : H - (d' - 1) = H - d' + 1 := by omega
    rw [e1, pow_succ]
    omega
  · rw [weights_cons, hW2]
  · rw [cost_cons]
    simp only
    have e2 : (a + b) * (d' - 1) + (a + b) = a * d' + b * d' := by
      obtain ⟨v, rfl⟩ := Nat.exists_eq_add_of_le hD1
      simp only [Nat.add_sub_cancel_left]
      ring
    omega

/-! ## Trees as depth assignments -/

theorem leafWeight_null (c : String → Nat) : leafWeight c Symbol.null = 0 := by
  simp [leafWeight, Symbol.leaves]

theorem leafWeight_leaf (c : String → Nat) (s : String) (p : ℚ) :
    leafWeight c (Symbol.mk s p Symbol.null Symbol.null) = c s := by
  simp [leafWeight, Symbol.leaves]

theorem leafWeight_node (c : String → Nat) (s : String) (p : ℚ) (l r : Symbol)
    (h : ¬ (l = Symbol.null ∧ r = Symbol.null)) :
    leafWeight c (Symbol.mk s p l r) = leafWeight c l + leafWeight c r := by
  simp only [leafWeight, Symbol.leaves, h, if_false, List.map_map, List.map_append,
    List.sum_append]
  rfl

theorem pathLength_limit (c : String → Nat) (limit : Nat) (t : Symbol) :
    pathLength c limit t = limit * leafWeight c t + pathLength c 0 t := by
  unfold pathLength leafWeight
  induction t.leaves with
  | nil => simp
  | cons e rest ih =>
    simp only [List.map_cons, List.sum_cons, ih]
    ring

theorem cost_assignment (c : String → Nat) (t : Symbol) :
    cost (assignment c t) = pathLength c 0 t := by
  unfold cost assignment pathLength
  simp only [Multiset.map_coe, Multiset.sum_coe, List.map_map]
  congr 1
  apply List.map_congr_left
  intro e _
  simp only [Function.comp]
  ring

theorem weights_assignment (c : String → Nat) (t : Symbol) :
    weights (assignment c t) = Multiset.ofList ((t.leaves.map Prod.fst).map c) := by
  unfold weights assignment
  simp only [Multiset.map_coe, List.map_map]
  rfl

theorem leaves_depth_le (t : Symbol) : ∀ e ∈ t.leaves, e.2 ≤ t.height := by
  induction t with
  | null => simp [Symbol.leaves]
  | mk s p l r ihl ihr =>
    intro e he
    by_cases h : l = Symbol.null ∧ r = Symbol.null
    · simp only [Symbol.leaves, h, and_self, if_true, List.mem_singleton] at he
      simp [he]
    · simp only [Symbol.leaves, Symbol.height, h, if_false, List.mem_map, List.mem_append] at he ⊢
      obtain ⟨e', he', rfl⟩ := he
      rcases he' with he' | he'
      · have := ihl e' he'
        simp only
        omega
      · have := ihr e' he'
        simp only
        omega

theorem kraft_tree (H : ℕ) (t : Symbol) : ∀ limit, limit + t.height ≤ H →
    (t.leaves.map (fun e => 2 ^ (H - (limit + e.2)))).sum ≤ 2 ^ (H - limit) := by
  induction t with
  | null => simp [Symbol.leaves]
  | mk s p l r ihl ihr =>
    intro limit hH
    by_cases h : l = Symbol.null ∧ r = Symbol.null
    · simp [Symbol.leaves, h]
    · simp only [Symbol.leaves, Symbol.height, h, if_false, List.map_map, List.map_append,
        List.sum_append] at hH ⊢
      have h1 := ihl (limit + 1) (by omega)
      have h2 := ihr (limit + 1) (by omega)
      have e1 : H - limit = (H - (limit + 1)) + 1 := by omega
      rw [e1, pow_succ]
      have e2 : ∀ (u : Symbol),
          (List.map ((fun e => 2 ^ (H - (limit + e.2))) ∘ fun e : String × ℕ => (e.1, e.2 + 1))
            u.leaves) = List.map (fun e => 2 ^ (H - (limit + 1 + e.2))) u.leaves := by
        intro u
        apply List.map_congr_left
        intro e _
        simp only [Function.comp]
        congr 2
        omega
      rw [e2 l, e2 r]
      omega

theorem kraftAt_assignment (c : String → Nat) (t : Symbol) :
    KraftAt t.height (assignment c t) := by
  constructor
  · intro d hd
    simp only [depths, assignment, Multiset.map_coe, Multiset.mem_coe, List.map_map,
      List.mem_map] at hd
    obtain ⟨e, he, rfl⟩ := hd
    exact leaves_depth_le t e he
  · have := kraft_tree t.height t 0 (by omega)
    simp only [kraftSum, depths, assignment, Multiset.map_coe, Multiset.sum_coe, List.map_map]
    simpa [Function.comp] using this

/-! ## The greedy loop -/

theorem mergeNode_good (c : String → Nat) (n : Nat) (l r : Symbol) (hl : Good c n l)
    (hr : Good c n r) : Good c n (mergeNode l r) ∧
      leafWeight c (mergeNode l r) = leafWeight c l + leafWeight c r ∧
      pathLength c 0 (mergeNode l r) =
        pathLength c 0 l + pathLength c 0 r + leafWeight c l + leafWeight c r := by
  have hnl : ¬ (l = Symbol.null ∧ r = Symbol.null) := fun h => hl.1 h.1
  have hw : leafWeight c (mergeNode l r) = leafWeight c l + leafWeight c r :=
    leafWeight_node c _ _ l r hnl
  refine ⟨⟨by simp [mergeNode], ?_⟩, hw, ?_⟩
  · have hp : (mergeNode l r).p = l.p + r.p := rfl
    rw [hw, hp, hl.2, hr.2]
    push_cast
    ring
  · simp only [mergeNode]
    rw [pathLength_node c 0 _ _ l r hnl, pathLength_limit c (0 + 1) l,
      pathLength_limit c (0 + 1) r]
    ring

theorem good_le (c : String → Nat) (n : Nat) (hn : 0 < n) (x y : Symbol) (hx : Good c n x)
    (hy : Good c n y) (h : ¬ Comparator x y) : leafWeight c x ≤ leafWeight c y := by
  simp only [Comparator, Symbol.lt, gt_iff_lt, not_lt] at h
  rw [hx.2, hy.2] at h
  have hn' : (0 : ℚ) < n := by exact_mod_cast hn
  have := (div_le_div_iff_of_pos_right hn').mp h
  exact_mod_cast this

theorem createTreeLoop_length {pq pq' : List Symbol} (h : CreateTreeLoop pq pq') :
    pq'.length = 1 := by
  induction h with
  | exit h => exact h
  | iter _ _ _ _ ih => exact ih

/-- The greedy loop against an arbitrary depth assignment. -/
theorem greedy_le (c : String → Nat) (n : Nat) (hn : 0 < n) (H : ℕ) {pq pq' : List Symbol}
    (hrun : CreateTreeLoop pq pq') :
    (∀ t ∈ pq, Good c n t) → ∀ L : Multiset (ℕ × ℕ), KraftAt H L →
      weights L = Multiset.ofList (pq.map (leafWeight c)) →
      (pq'.map (pathLength c 0)).sum ≤ (pq.map (pathLength c 0)).sum + cost L := by
  induction hrun with
  | exit _ =>
    intro _ L _ _
    omega
  | @iter pq pq' left right hlen hleft hright hrest ih =>
    intro hgood L hK hW
    have hl_mem : left ∈ pq := hleft.1
    have hr_mem' : right ∈ pq.erase left := hright.1
    have hr_mem : right ∈ pq := List.mem_of_mem_erase hr_mem'
    have hperm : pq.Perm (left :: right :: (pq.erase left).erase right) :=
      (List.perm_cons_erase hl_mem).trans ((List.perm_cons_erase hr_mem').cons left)
    have hsub : ∀ t ∈ (pq.erase left).erase right, t ∈ pq.erase left :=
      fun t ht => List.mem_of_mem_erase ht
    have hgl := hgood left hl_mem
    have hgr := hgood right hr_mem
    obtain ⟨hgm, hwm, hpm⟩ := mergeNode_good c n left right hgl hgr
    have hW' : weights L = leafWeight c left ::ₘ leafWeight c right ::ₘ
        Multiset.ofList (((pq.erase left).erase right).map (leafWeight c)) := by
      rw [hW]
      have := hperm.map (leafWeight c)
      rw [← Multiset.coe_eq_coe] at this
      rw [this]
      rfl
    obtain ⟨L', hK', hWL', hcost⟩ := merge_two H L _ _ _ hK hW'
      (by
        intro w hw
        rcases Multiset.mem_cons.mp hw with rfl | hw
        · exact good_le c n hn left right hgl hgr (hleft.2 right hr_mem)
        · simp only [Multiset.mem_coe, List.mem_map] at hw
          obtain ⟨t, ht, rfl⟩ := hw
          have htm : t ∈ pq := List.mem_of_mem_erase (hsub t ht)
          exact good_le c n hn left t hgl (hgood t htm) (hleft.2 t htm))
      (by
        intro w hw
        simp only [Multiset.mem_coe, List.mem_map] at hw
        obtain ⟨t, ht, rfl⟩ := hw
        have htm : t ∈ pq := List.mem_of_mem_erase (hsub t ht)
        exact good_le c n hn right t hgr (hgood t htm) (hright.2 t (hsub t ht)))
    have hgood' : ∀ t ∈ pqPush (pqPop (pqPop pq left) right) (mergeNode left right),
        Good c n t := by
      intro t ht
      simp only [pqPush, pqPop, List.mem_cons] at ht
      rcases ht with rfl | ht
      · exact hgm
      · exact hgood t (List.mem_of_mem_erase (hsub t ht))
    have hstep := ih hgood' L' hK' (by
      rw [hWL']
      simp only [pqPush, pqPop, List.map_cons, hwm]
      rfl)
    have hsum : (pq.map (pathLength c 0)).sum = pathLength c 0 left + pathLength c 0 right +
        (((pq.erase left).erase right).map (pathLength c 0)).sum := by
      rw [(hperm.map (pathLength c 0)).sum_eq]
      simp only [List.map_cons, List.sum_cons]
      ring
    simp only [pqPush, pqPop, List.map_cons, List.sum_cons, hpm] at hstep
    rw [hsum]
    omega

/-! ## The executable queue and loop -/

theorem pqTop_eq_none (pq : List Symbol) : pqTop pq = none ↔ pq = [] := by
  cases pq with
  | nil => simp [pqTop]
  | cons x rest =>
    simp only [pqTop, reduceCtorEq, iff_false]
    cases pqTop rest with
    | none => simp
    | some y => by_cases h : Comparator x y <;> simp [h]

theorem pqTop_isTop (pq : List Symbol) (x : Symbol) (h : pqTop pq = some x) : IsTop pq x := by
  induction pq generalizing x with
  | nil => simp [pqTop] at h
  | cons a rest ih =>
    simp only [pqTop] at h
    cases hr : pqTop rest with
    | none =>
      rw [hr] at h
      simp only [Option.some.injEq] at h
      subst h
      rw [(pqTop_eq_none rest).mp hr]
      refine ⟨List.mem_singleton.mpr rfl, ?_⟩
      intro y hy
      rw [List.mem_singleton] at hy
      subst hy
      simp [Comparator, Symbol.lt]
    | some y =>
      rw [hr] at h
      have hy := ih y hr
      by_cases hc : Comparator a y
      · simp only [hc, if_true, Option.some.injEq] at h
        subst h
        refine ⟨List.mem_cons_of_mem _ hy.1, ?_⟩
        intro z hz
        rcases List.mem_cons.mp hz with rfl | hz
        · simp only [Comparator, Symbol.lt, gt_iff_lt, not_lt] at hc ⊢
          exact le_of_lt hc
        · exact hy.2 z hz
      · simp only [hc, if_false, Option.some.injEq] at h
        subst h
        refine ⟨List.mem_cons_self _ _, ?_⟩
        intro z hz
        rcases List.mem_cons.mp hz with rfl | hz
        · simp [Comparator, Symbol.lt]
        · have := hy.2 z hz
          simp only [Comparator, Symbol.lt, gt_iff_lt, not_lt] at hc this ⊢
          exact le_trans hc this

theorem createTreeLoop_sound (budget : Nat) : ∀ (pq pq' : List Symbol),
    createTreeLoop budget pq = Except.ok pq' → CreateTreeLoop pq pq' := by
  induction budget with
  | zero =>
    intro pq pq' h
    unfold createTreeLoop at h
    by_cases hlen : pq.length = 1
    · simp only [hlen, ne_eq, not_true_eq_false, if_false, Except.ok.injEq] at h
      subst h
      exact CreateTreeLoop.exit hlen
    · simp only [hlen, ne_eq, not_false_eq_true, if_true] at h
      cases h1 : pqTop pq with
      | none => simp [h1] at h
      | some left =>
        simp only [h1] at h
        cases h2 : pqTop (pqPop pq left) with
        | none => simp [h2] at h
        | some right => simp [h2] at h
  | succ b ih =>
    intro pq pq' h
    unfold createTreeLoop at h
    by_cases hlen : pq.length = 1
    · simp only [hlen, ne_eq, not_true_eq_false, if_false, Except.ok.injEq] at h
      subst h
      exact CreateTreeLoop.exit hlen
    · simp only [hlen, ne_eq, not_false_eq_true, if_true] at h
      cases h1 : pqTop pq with
      | none => simp [h1] at h
      | some left =>
        simp only [h1] at h
        cases h2 : pqTop (pqPop pq left) with
        | none => simp [h2] at h
        | some right =>
          simp only [h2] at h
          exact CreateTreeLoop.iter hlen (pqTop_isTop _ _ h1) (pqTop_isTop _ _ h2) (ih _ _ h)

theorem createTreeLoop_total (budget : Nat) : ∀ (pq : List Symbol), pq ≠ [] →
    pq.length ≤ budget + 1 → ∃ pq', createTreeLoop budget pq = Except.ok pq' := by
  induction budget with
  | zero =>
    intro pq hne hlen
    have h1 : pq.length = 1 := by
      have := List.length_pos.mpr hne
      omega
    exact ⟨pq, by unfold createTreeLoop; simp [h1]⟩
  | succ b ih =>
    intro pq hne hlen
    by_cases h1 : pq.length = 1
    · exact ⟨pq, by unfold createTreeLoop; simp [h1]⟩
    · have hpos := List.length_pos.mpr hne
      cases ht : pqTop pq with
      | none => exact absurd ((pqTop_eq_none pq).mp ht) hne
      | some left =>
        have hl := (pqTop_isTop _ _ ht).1
        have hlen1 : (pqPop pq left).length = pq.length - 1 := List.length_erase_of_mem hl
        have hne1 : pqPop pq left ≠ [] := by
          intro h0
          rw [h0] at hlen1
          simp at hlen1
          omega
        cases ht2 : pqTop (pqPop pq left) with
        | none => exact absurd ((pqTop_eq_none _).mp ht2) hne1
        | some right =>
          have hr := (pqTop_isTop _ _ ht2).1
          have hlen2 : (pqPop (pqPop pq left) right).length = (pqPop pq left).length - 1 :=
            List.length_erase_of_mem hr
          obtain ⟨pq', hpq'⟩ := ih (pqPush (pqPop (pqPop pq left) right) (mergeNode left right))
            (by simp [pqPush]) (by simp only [pqPush, List.length_cons]; omega)
          refine ⟨pq', ?_⟩
          unfold createTreeLoop
          simp only [h1, ne_eq, not_false_eq_true, if_true, ht, ht2]
          exact hpq'

theorem createTree_sound (args args' : EncodingArgs) (h : createTree args = Except.ok args') :
    CreateTree args args' := by
  unfold createTree at h
  unfold CreateTree
  by_cases hlen : args.pq.length = 1
  · simp only [hlen, if_true] at h ⊢
    cases ht : pqTop args.pq with
    | none => simp [ht] at h
    | some root =>
      simp only [ht, Except.ok.injEq] at h
      exact ⟨root, pqTop_isTop _ _ ht, h.symm⟩
  · simp only [hlen, if_false] at h ⊢
    cases hl : createTreeLoop args.pq.length args.pq with
    | error e => simp [hl] at h
    | ok pq' =>
      simp only [hl] at h
      cases ht : pqTop pq' with
      | none => simp [ht] at h
      | some root =>
        simp only [ht, Except.ok.injEq] at h
        exact ⟨pq', root, createTreeLoop_sound _ _ _ hl, pqTop_isTop _ _ ht, h.symm⟩

theorem createTree_total (args : EncodingArgs) (hne : args.pq ≠ []) :
    ∃ args', createTree args = Except.ok args' := by
  unfold createTree
  by_cases hlen : args.pq.length = 1
  · simp only [hlen, if_true]
    cases ht : pqTop args.pq with
    | none => exact absurd ((pqTop_eq_none _).mp ht) hne
    | some root => exact ⟨_, rfl⟩
  · simp only [hlen, if_false]
    obtain ⟨pq', hpq'⟩ := createTreeLoop_total args.pq.length args.pq hne (by omega)
    rw [hpq']
    have hlen' := createTreeLoop_length (createTreeLoop_sound _ _ _ hpq')
    cases ht : pqTop pq' with
    | none =>
      rw [(pqTop_eq_none _).mp ht] at hlen'
      simp at hlen'
    | some root =>
      simp only [ht]
      exact ⟨_, rfl⟩

/-- Every run of `createTree` is a run of its loop that ends with the root alone in the
queue. -/
theorem createTree_run (args args' : EncodingArgs) (h : CreateTree args args') :
    CreateTreeLoop args.pq [args'.treeRoot] ∧ args'.pq = [args'.treeRoot] ∧
      args'.symbolMap = args.symbolMap ∧
      args'.arithmeticCodeInterval = args.arithmeticCodeInterval ∧ args'.k = args.k := by
  have single : ∀ (pq : List Symbol) (root : Symbol), pq.length = 1 → IsTop pq root →
      pq = [root] := by
    intro pq root hlen htop
    match pq, hlen, htop with
    | [x], _, htop =>
      have := htop.1
      rw [List.mem_singleton] at this
      rw [this]
  unfold CreateTree at h
  by_cases hlen : args.pq.length = 1
  · simp only [hlen, if_true] at h
    obtain ⟨root, htop, rfl⟩ := h
    have hpq := single _ _ hlen htop
    refine ⟨?_, hpq, rfl, rfl, rfl⟩
    have := CreateTreeLoop.exit hlen
    simp only
    rw [← hpq]
    exact this
  · simp only [hlen, if_false] at h
    obtain ⟨pq', root, hloop, htop, rfl⟩ := h
    have hpq := single _ _ (createTreeLoop_length hloop) htop
    subst hpq
    exact ⟨hloop, rfl, rfl, rfl, rfl⟩

/-! ## The state of `initHuffman` at its call of `createTree` -/

theorem pushLeaves_eq (n : Nat) (m : List Entry) (pq : List Symbol) :
    pushLeaves n m pq = (m.map (withProbability n), (m.map (leafOf n)).reverse ++ pq) := by
  induction m generalizing pq with
  | nil => simp [pushLeaves]
  | cons e rest ih =>
    obtain ⟨key, count, q⟩ := e
    simp only [pushLeaves, ih, pqPush, List.map_cons, List.reverse_cons, List.append_assoc,
      List.singleton_append]
    rfl

theorem initQueue_symbolMap (sequence : List Char) :
    (initQueue sequence {}).symbolMap =
      (countSymbols sequence []).map (withProbability sequence.length) := by
  simp [initQueue, pushLeaves_eq]

theorem initQueue_pq (sequence : List Char) :
    (initQueue sequence {}).pq =
      ((countSymbols sequence []).map (leafOf sequence.length)).reverse := by
  simp [initQueue, pushLeaves_eq]

theorem keys_withProbability (n : Nat) (m : SymbolMap) :
    SymbolMap.keys (m.map (withProbability n)) = m.keys := by
  simp [SymbolMap.keys, withProbability, Function.comp]

theorem ordered_withProbability (n : Nat) (m : SymbolMap) (hm : m.Ordered) :
    SymbolMap.Ordered (m.map (withProbability n)) := by
  unfold SymbolMap.Ordered at *
  rw [List.pairwise_map]
  exact hm

theorem initQueue_ordered (sequence : List Char) :
    (initQueue sequence {}).symbolMap.Ordered := by
  rw [initQueue_symbolMap]
  exact ordered_withProbability _ _ (countSymbols_ordered sequence [] List.Pairwise.nil)

theorem count_of_mem (m : SymbolMap) (hm : m.Ordered) (e : Entry) (he : e ∈ m) :
    m.count e.1 = e.2.1 := by
  rw [SymbolMap.count_eq, SymbolMap.find_of_mem m hm e.1 e.2 he]
  rfl

theorem leaves_leafOf (n : Nat) (e : Entry) : (leafOf n e).leaves = [(e.1, 0)] := by
  simp [leafOf, Symbol.leaves]

theorem forestSymbols_leaves (n : Nat) (m : SymbolMap) :
    forestSymbols (m.map (leafOf n)) = m.keys := by
  induction m with
  | nil => rfl
  | cons e rest ih =>
    simp only [List.map_cons, forestSymbols, leaves_leafOf, ih, SymbolMap.keys]
    rfl

theorem forestSymbols_perm {F G : List Symbol} (h : F.Perm G) :
    (forestSymbols F).Perm (forestSymbols G) := by
  induction h with
  | nil => exact List.Perm.refl _
  | cons x _ ih => exact List.Perm.append_left _ ih
  | swap x y l =>
    simp only [forestSymbols, ← List.append_assoc]
    exact List.Perm.append_right _ List.perm_append_comm
  | trans _ _ ih1 ih2 => exact ih1.trans ih2

theorem leaves_mergeNode (l r : Symbol) (hl : l ≠ Symbol.null) :
    (mergeNode l r).leaves.map Prod.fst = l.leaves.map Prod.fst ++ r.leaves.map Prod.fst := by
  have hnl : ¬ (l = Symbol.null ∧ r = Symbol.null) := fun h => hl h.1
  simp only [mergeNode, Symbol.leaves, hnl, if_false, List.map_map, List.map_append]
  rfl

/-- The loop of `createTree` keeps the leaves of the queue and never stores a null pointer. -/
theorem createTreeLoop_symbols {pq pq' : List Symbol} (hrun : CreateTreeLoop pq pq') :
    (∀ t ∈ pq, t ≠ Symbol.null) →
      (∀ t ∈ pq', t ≠ Symbol.null) ∧ (forestSymbols pq').Perm (forestSymbols pq) := by
  induction hrun with
  | exit _ => exact fun h => ⟨h, List.Perm.refl _⟩
  | @iter pq pq' left right hlen hleft hright hrest ih =>
    intro hnn
    have hl_mem : left ∈ pq := hleft.1
    have hr_mem' : right ∈ pq.erase left := hright.1
    have hperm : pq.Perm (left :: right :: (pq.erase left).erase right) :=
      (List.perm_cons_erase hl_mem).trans ((List.perm_cons_erase hr_mem').cons left)
    have hnn' : ∀ t ∈ pqPush (pqPop (pqPop pq left) right) (mergeNode left right),
        t ≠ Symbol.null := by
      intro t ht
      simp only [pqPush, pqPop, List.mem_cons] at ht
      rcases ht with rfl | ht
      · simp [mergeNode]
      · exact hnn t (List.mem_of_mem_erase (List.mem_of_mem_erase ht))
    obtain ⟨h1, h2⟩ := ih hnn'
    refine ⟨h1, h2.trans ?_⟩
    refine List.Perm.trans ?_ (forestSymbols_perm hperm).symm
    simp only [pqPush, pqPop, forestSymbols, leaves_mergeNode left right (hnn left hl_mem),
      List.append_assoc]
    exact List.Perm.refl _

/-- The facts about the queue of leaves on which the analysis of the loop rests. -/
theorem leaves_good (n : Nat) (m : SymbolMap) (hm : m.Ordered) (pq : List Symbol)
    (hpq : pq.Perm ((m.map (leafOf n)).reverse)) :
    (∀ t ∈ pq, Good (SymbolMap.count (m.map (withProbability n))) n t) ∧
    (pq.map (leafWeight (SymbolMap.count (m.map (withProbability n))))).Perm
      (m.map (fun e => e.2.1)) ∧
    (pq.map (pathLength (SymbolMap.count (m.map (withProbability n))) 0)).sum = 0 ∧
    (forestSymbols pq).Perm m.keys := by
  have hm' := ordered_withProbability n m hm
  have hcount : ∀ e ∈ m, SymbolMap.count (m.map (withProbability n)) e.1 = e.2.1 := by
    intro e he
    exact count_of_mem _ hm' (withProbability n e) (List.mem_map_of_mem _ he)
  have hmem : ∀ t ∈ pq, ∃ e ∈ m, t = leafOf n e := by
    intro t ht
    have := hpq.subset ht
    simp only [List.mem_reverse, List.mem_map] at this
    obtain ⟨e, he, rfl⟩ := this
    exact ⟨e, he, rfl⟩
  refine ⟨?_, ?_, ?_, ?_⟩
  · intro t ht
    obtain ⟨e, he, rfl⟩ := hmem t ht
    refine ⟨by simp [leafOf], ?_⟩
    simp only [leafOf, leafWeight_leaf, Symbol.p, hcount e he]
  · refine (hpq.map _).trans ?_
    refine (List.reverse_perm _).map _ |>.trans ?_
    rw [List.map_map]
    apply List.Perm.of_eq
    apply List.map_congr_left
    intro e he
    simp only [Function.comp, leafOf, leafWeight_leaf, hcount e he]
  · apply List.sum_eq_zero
    intro x hx
    obtain ⟨t, ht, rfl⟩ := List.mem_map.mp hx
    obtain ⟨e, he, rfl⟩ := hmem t ht
    simp [leafOf, pathLength_leaf]
  · refine (forestSymbols_perm hpq).trans ?_
    refine (forestSymbols_perm (List.reverse_perm _)).trans ?_
    rw [forestSymbols_leaves]

/-! ## Runs of `initHuffman` -/

theorem statistical_eq (sequence : List Char) (args : EncodingArgs) :
    (huffmanResults sequence args).statistical =
      pathLength args.symbolMap.count 0 args.treeRoot := by
  simp only [huffmanResults]
  rw [(huffmanRatio_spec _ _ _ _ _).2]
  omega

theorem counts_eq_map_keys (m : SymbolMap) (hm : m.Ordered) :
    m.keys.map m.count = m.map (fun e => e.2.1) := by
  simp only [SymbolMap.keys, List.map_map]
  apply List.map_congr_left
  intro e he
  exact count_of_mem m hm e he

theorem counts_withProbability (n : Nat) (m : SymbolMap) :
    (m.map (withProbability n)).map (fun e => e.2.1) = m.map (fun e => e.2.1) := by
  simp [withProbability, Function.comp]

theorem initQueue_ne_nil (sequence : List Char) (hne : sequence ≠ []) :
    (initQueue sequence {}).pq ≠ [] := by
  rw [initQueue_pq]
  intro h
  have h0 : countSymbols sequence [] = [] := by simpa using h
  have := countSymbols_total sequence [] List.Pairwise.nil
  rw [h0] at this
  simp only [SymbolMap.total, List.map_nil, List.sum_nil, zero_add] at this
  exact hne (List.length_eq_zero.mp this.symm)

/-- For a non-empty sequence `initHuffman` returns, and its result is a run. -/
theorem initHuffman_total (sequence : List Char) (hne : sequence ≠ []) :
    ∃ args', initHuffman sequence {} = Except.ok args' ∧ InitHuffman sequence {} args' := by
  obtain ⟨args', h⟩ := createTree_total (initQueue sequence {}) (initQueue_ne_nil sequence hne)
  exact ⟨args', h, createTree_sound _ _ h⟩

/-- A run of `createTree` on the leaves of the sequence, pushed in any order `pq`: the
resulting tree costs no more than any depth assignment for the counts that satisfies Kraft's
inequality, and its own leaves are such an assignment. -/
theorem run_facts (sequence : List Char) (hne : sequence ≠ []) (pq : List Symbol)
    (hpq : pq.Perm (initQueue sequence {}).pq) (args' : EncodingArgs)
    (hrun : CreateTree { initQueue sequence {} with pq := pq } args') :
    args'.symbolMap = (initQueue sequence {}).symbolMap ∧
    args'.treeRoot ≠ Symbol.null ∧
    (args'.treeRoot.leaves.map Prod.fst).Perm args'.symbolMap.keys ∧
    (∀ (H : ℕ) (L : Multiset (ℕ × ℕ)), KraftAt H L →
      weights L = Multiset.ofList (args'.symbolMap.map (fun e => e.2.1)) →
      pathLength args'.symbolMap.count 0 args'.treeRoot ≤ cost L) := by
  obtain ⟨hloop, _, hmap, _, _⟩ := createTree_run _ _ hrun
  simp only at hloop hmap
  have hord := countSymbols_ordered sequence [] List.Pairwise.nil
  have hn : 0 < sequence.length := List.length_pos.mpr hne
  rw [initQueue_pq] at hpq
  obtain ⟨hgood, hweights, hzero, hsym⟩ := leaves_good sequence.length _ hord pq hpq
  obtain ⟨hnn, hperm⟩ := createTreeLoop_symbols hloop (fun t ht => (hgood t ht).1)
  rw [hmap, initQueue_symbolMap]
  refine ⟨rfl, hnn _ (List.mem_singleton.mpr rfl), ?_, ?_⟩
  · rw [keys_withProbability]
    have := hperm.trans hsym
    simpa [forestSymbols] using this
  · intro H L hK hW
    have := greedy_le _ sequence.length hn H hloop hgood L hK (by
      rw [hW, counts_withProbability]
      exact (Multiset.coe_eq_coe.mpr hweights).symm)
    simpa [hzero] using this

/-- The cost of a tree whose leaves carry each key once, as a depth assignment. -/
theorem tree_assignment (m : SymbolMap) (hm : m.Ordered) (t : Symbol)
    (ht : (t.leaves.map Prod.fst).Perm m.keys) :
    KraftAt t.height (assignment m.count t) ∧
      weights (assignment m.count t) = Multiset.ofList (m.map (fun e => e.2.1)) ∧
      cost (assignment m.count t) = pathLength m.count 0 t := by
  refine ⟨kraftAt_assignment _ _, ?_, cost_assignment _ _⟩
  rw [weights_assignment, ← counts_eq_map_keys m hm]
  exact Multiset.coe_eq_coe.mpr (ht.map _)

theorem subperm_sum_le {α : Type} (f : α → ℕ) {S T : List α} (h : S.Subperm T) :
    (S.map f).sum ≤ (T.map f).sum := by
  obtain ⟨l, hl, hsub⟩ := h
  rw [← (hl.map f).sum_eq]
  exact (hsub.map f).sum_le_sum (fun a _ => Nat.zero_le a)

/-- A tree that has a leaf for every key of the map contains a depth assignment for the
counts that satisfies Kraft's inequality and costs no more than the tree. -/
theorem tree_cover (m : SymbolMap) (hm : m.Ordered) (t : Symbol)
    (ht : ∀ k ∈ m.keys, k ∈ t.leaves.map Prod.fst) :
    ∃ L : Multiset (ℕ × ℕ), KraftAt t.height L ∧
      weights L = Multiset.ofList (m.map (fun e => e.2.1)) ∧
      cost L ≤ pathLength m.count 0 t := by
  have hex : ∀ k, ∃ e : String × ℕ, k ∈ m.keys → e ∈ t.leaves ∧ e.1 = k := by
    intro k
    by_cases hk : k ∈ m.keys
    · obtain ⟨e, he, hek⟩ := List.mem_map.mp (ht k hk)
      exact ⟨e, fun _ => ⟨he, hek⟩⟩
    · exact ⟨(k, 0), fun h => absurd h hk⟩
  choose sel hsel using hex
  have hnodup : (m.keys.map sel).Nodup := by
    apply List.Nodup.map_on _ (SymbolMap.keys_nodup m hm)
    intro x hx y hy hxy
    rw [← (hsel x hx).2, ← (hsel y hy).2, hxy]
  have hsubset : m.keys.map sel ⊆ t.leaves := by
    intro e he
    obtain ⟨k, hk, rfl⟩ := List.mem_map.mp he
    exact (hsel k hk).1
  have hsp : (m.keys.map sel).Subperm t.leaves := List.subperm_of_subset hnodup hsubset
  refine ⟨Multiset.ofList ((m.keys.map sel).map (fun e => (m.count e.1, e.2))),
    ⟨?_, ?_⟩, ?_, ?_⟩
  · intro d hd
    simp only [depths, Multiset.map_coe, Multiset.mem_coe, List.map_map, List.mem_map] at hd
    obtain ⟨k, hk, rfl⟩ := hd
    exact leaves_depth_le t _ (hsel k hk).1
  · have h1 := subperm_sum_le (fun e : String × ℕ => 2 ^ (t.height - e.2)) hsp
    have h2 := kraft_tree t.height t 0 (by omega)
    simp only [Nat.zero_add, Nat.sub_zero] at h2
    simp only [kraftSum, depths, Multiset.map_coe, Multiset.sum_coe, List.map_map] at h1 ⊢
    exact le_trans h1 h2
  · simp only [weights, Multiset.map_coe, List.map_map]
    rw [← counts_eq_map_keys m hm]
    congr 1
    apply List.map_congr_left
    intro k hk
    simp only [Function.comp, (hsel k hk).2]
  · have h1 := subperm_sum_le (fun e : String × ℕ => (0 + e.2) * m.count e.1) hsp
    simp only [cost, pathLength, Multiset.map_coe, Multiset.sum_coe, List.map_map] at h1 ⊢
    refine le_trans (le_of_eq ?_) h1
    congr 1
    apply List.map_congr_left
    intro k _
    simp only [Function.comp]
    ring

/-- Two runs of `createTree` on the leaves of the sequence, pushed in any two orders, build
trees of the same cost. -/
theorem run_unique (sequence : List Char) (hne : sequence ≠ []) (pq₁ pq₂ : List Symbol)
    (h₁ : pq₁.Perm (initQueue sequence {}).pq) (h₂ : pq₂.Perm (initQueue sequence {}).pq)
    (args₁ args₂ : EncodingArgs)
    (hrun₁ : CreateTree { initQueue sequence {} with pq := pq₁ } args₁)
    (hrun₂ : CreateTree { initQueue sequence {} with pq := pq₂ } args₂) :
    (huffmanResults sequence args₁).statistical = (huffmanResults sequence args₂).statistical := by
  obtain ⟨hm₁, _, hl₁, hopt₁⟩ := run_facts sequence hne pq₁ h₁ args₁ hrun₁
  obtain ⟨hm₂, _, hl₂, hopt₂⟩ := run_facts sequence hne pq₂ h₂ args₂ hrun₂
  have hord := initQueue_ordered sequence
  rw [statistical_eq, statistical_eq]
  have hmm : args₁.symbolMap = args₂.symbolMap := hm₁.trans hm₂.symm
  obtain ⟨a1, a2, a3⟩ := tree_assignment args₁.symbolMap (hm₁ ▸ hord) args₁.treeRoot hl₁
  obtain ⟨b1, b2, b3⟩ := tree_assignment args₂.symbolMap (hm₂ ▸ hord) args₂.treeRoot hl₂
  apply le_antisymm
  · rw [← b3]
    rw [hmm]
    exact hopt₁ _ _ (hmm ▸ b1) (by rw [hmm]; exact b2) |> (hmm ▸ ·)
  · rw [← a3]
    rw [← hmm]
    exact hopt₂ _ _ (hmm ▸ a1) (by rw [← hmm]; exact a2) |> (hmm ▸ ·)

theorem sum_map_div (m : SymbolMap) (n : ℕ) :
    (m.map (fun e => ((e.2.1 : ℚ) / (n : ℚ)))).sum =
      (((m.map (fun e => e.2.1)).sum : ℕ) : ℚ) / (n : ℚ) := by
  induction m with
  | nil => simp
  | cons e rest ih =>
    simp only [List.map_cons, List.sum_cons, ih]
    push_cast
    ring

theorem full_leafOf (n : Nat) (e : Entry) :
    (leafOf n e).Full ∧ (leafOf n e).internalCount = 0 := by
  simp [leafOf, Symbol.Full, Symbol.internalCount]

theorem full_mergeNode (l r : Symbol) (hl : l ≠ Symbol.null) (hr : r ≠ Symbol.null)
    (hfl : l.Full) (hfr : r.Full) :
    (mergeNode l r).Full ∧
      (mergeNode l r).internalCount = l.internalCount + r.internalCount + 1 := by
  simp [mergeNode, Symbol.Full, Symbol.internalCount, hl, hr, hfl, hfr]

/-- The loop of `createTree` keeps every tree of the queue full, and each merge trades one
queue entry for one internal node. -/
theorem createTreeLoop_full {pq pq' : List Symbol} (hrun : CreateTreeLoop pq pq') :
    (∀ t ∈ pq, t ≠ Symbol.null ∧ t.Full) →
      (∀ t ∈ pq', t.Full) ∧
      (pq'.map Symbol.internalCount).sum + pq'.length =
        (pq.map Symbol.internalCount).sum + pq.length := by
  induction hrun with
  | exit _ => exact fun h => ⟨fun t ht => (h t ht).2, rfl⟩
  | @iter pq pq' left right hlen hleft hright hrest ih =>
    intro hinv
    have hl_mem : left ∈ pq := hleft.1
    have hr_mem' : right ∈ pq.erase left := hright.1
    have hr_mem : right ∈ pq := List.mem_of_mem_erase hr_mem'
    have hperm : pq.Perm (left :: right :: (pq.erase left).erase right) :=
      (List.perm_cons_erase hl_mem).trans ((List.perm_cons_erase hr_mem').cons left)
    obtain ⟨hfm, hcm⟩ := full_mergeNode left right (hinv left hl_mem).1 (hinv right hr_mem).1
      (hinv left hl_mem).2 (hinv right hr_mem).2
    have hinv' : ∀ t ∈ pqPush (pqPop (pqPop pq left) right) (mergeNode left right),
        t ≠ Symbol.null ∧ t.Full := by
      intro t ht
      simp only [pqPush, pqPop, List.mem_cons] at ht
      rcases ht with rfl | ht
      · exact ⟨by simp [mergeNode], hfm⟩
      · exact hinv t (List.mem_of_mem_erase (List.mem_of_mem_erase ht))
    obtain ⟨h1, h2⟩ := ih hinv'
    refine ⟨h1, ?_⟩
    rw [h2, (hperm.map Symbol.internalCount).sum_eq, hperm.length_eq]
    simp only [pqPush, pqPop, List.map_cons, List.sum_cons, List.length_cons, hcm]
    omega

theorem size_eq_dedup (sequence : List Char) :
    (countSymbols sequence []).size = sequence.dedup.length := by
  obtain ⟨hkeys, hnodup, _, _, _⟩ := countSymbols_facts sequence
  have h1 : (countSymbols sequence []).size = (countSymbols sequence []).keys.length := by
    simp [SymbolMap.size, SymbolMap.keys]
  have hinj : Function.Injective (fun c : Char => "".push c) :=
    fun c d h => push_injective c d h
  have h2 : ((countSymbols sequence []).keys).Perm (sequence.dedup.map (fun c => "".push c)) := by
    rw [List.perm_ext_iff_of_nodup hnodup ((List.nodup_dedup sequence).map hinj)]
    intro s
    rw [hkeys, List.mem_map]
    constructor
    · rintro ⟨c, hc, rfl⟩
      exact ⟨c, List.mem_dedup.mpr hc, rfl⟩
    · rintro ⟨c, hc, rfl⟩
      exact ⟨c, List.mem_dedup.mp hc, rfl⟩
  rw [h1, h2.length_eq, List.length_map]

theorem initQueue_size (sequence : List Char) :
    (initQueue sequence {}).symbolMap.size = sequence.dedup.length := by
  rw [initQueue_symbolMap, ← size_eq_dedup]
  simp [SymbolMap.size]

theorem bitsPerSymbol_le (n : Nat) : n ≤ 2 ^ bitsPerSymbol n := by
  unfold bitsPerSymbol
  by_cases h : 2 ^ Nat.log 2 n ≥ n
  · simp only [h, if_true]
  · simp only [h, if_false]
    exact le_of_lt (Nat.lt_pow_succ_log_self (by norm_num) n)

theorem bitsPerSymbol_least (n b : Nat) (hn : 1 ≤ n) (hb : n ≤ 2 ^ b) : bitsPerSymbol n ≤ b := by
  unfold bitsPerSymbol
  have hlog : 2 ^ Nat.log 2 n ≤ n := Nat.pow_log_le_self 2 (by omega)
  by_cases h : 2 ^ Nat.log 2 n ≥ n
  · simp only [h, if_true]
    have : 2 ^ Nat.log 2 n ≤ 2 ^ b := le_trans hlog hb
    exact (Nat.pow_le_pow_iff_right (by norm_num)).mp this
  · simp only [h, if_false]
    have hlt : 2 ^ Nat.log 2 n < 2 ^ b :=
      lt_of_lt_of_le (lt_of_le_of_ne hlog (fun e => h (by omega))) hb
    exact (Nat.pow_lt_pow_iff_right (by norm_num)).mp hlt

/-- The shape of the tree that a run of `initHuffman` builds. -/
theorem run_full (sequence : List Char) (hne : sequence ≠ []) (args' : EncodingArgs)
    (hrun : InitHuffman sequence {} args') :
    args'.treeRoot ≠ Symbol.null ∧ args'.treeRoot.Full ∧
      args'.treeRoot.leaves.length = args'.symbolMap.size ∧
      args'.treeRoot.internalCount = args'.symbolMap.size - 1 := by
  obtain ⟨hm, hnn, hl, _⟩ :=
    run_facts sequence hne (initQueue sequence {}).pq (List.Perm.refl _) args' hrun
  obtain ⟨hloop, _, _, _, _⟩ := createTree_run _ _ hrun
  have hinit : ∀ t ∈ (initQueue sequence {}).pq, t ≠ Symbol.null ∧ t.Full ∧
      t.internalCount = 0 := by
    intro t ht
    rw [initQueue_pq] at ht
    simp only [List.mem_reverse, List.mem_map] at ht
    obtain ⟨e, _, rfl⟩ := ht
    exact ⟨by simp [leafOf], (full_leafOf _ e).1, (full_leafOf _ e).2⟩
  obtain ⟨hfull, hcount⟩ :=
    createTreeLoop_full hloop (fun t ht => ⟨(hinit t ht).1, (hinit t ht).2.1⟩)
  have hzero : ((initQueue sequence {}).pq.map Symbol.internalCount).sum = 0 := by
    apply List.sum_eq_zero
    intro x hx
    obtain ⟨t, ht, rfl⟩ := List.mem_map.mp hx
    exact (hinit t ht).2.2
  have hlen : (initQueue sequence {}).pq.length = args'.symbolMap.size := by
    rw [hm, initQueue_pq, initQueue_symbolMap]
    simp [SymbolMap.size]
  have hleaves : args'.treeRoot.leaves.length = args'.symbolMap.size := by
    have := hl.length_eq
    simpa [SymbolMap.keys, SymbolMap.size] using this
  refine ⟨hnn, hfull _ (List.mem_singleton.mpr rfl), hleaves, ?_⟩
  simp only [List.map_cons, List.map_nil, List.sum_cons, List.sum_nil, List.length_cons,
    List.length_nil, hzero, hlen] at hcount
  omega

theorem index_of_mem_keys (m : SymbolMap) (s : String) (h : s ∈ m.keys) :
    (m.index s).1 = m := by
  unfold SymbolMap.index
  cases hf : m.find s with
  | some v => rfl
  | none => exact absurd h ((SymbolMap.find_eq_none_iff m s).mp hf)

/-- When every leaf of the tree carries a key of the map, `huffmanRatio` leaves `args` as it
found it. -/
theorem huffmanRatio_args (root : Symbol) :
    ∀ (args : EncodingArgs) (codes : List Nat) (limit sum : Nat),
      (∀ e ∈ root.leaves, e.1 ∈ args.symbolMap.keys) →
      (huffmanRatio args root codes limit sum).1 = args := by
  induction root with
  | null =>
    intro args codes limit sum _
    rw [huffmanRatio_null]
  | mk symb p left right ihl ihr =>
    intro args codes limit sum hk
    rw [huffmanRatio_mk]
    by_cases h : left = Symbol.null ∧ right = Symbol.null
    · have hs : symb ∈ args.symbolMap.keys := by
        apply hk (symb, 0)
        simp [Symbol.leaves, h]
      simp only [h, and_self, if_true, index_of_mem_keys _ _ hs]
    · have hl : ∀ e ∈ left.leaves, e.1 ∈ args.symbolMap.keys := by
        intro e he
        apply hk (e.1, e.2 + 1)
        simp only [Symbol.leaves, h, if_false, List.mem_map, List.mem_append]
        exact ⟨e, Or.inl he, rfl⟩
      have hr : ∀ e ∈ right.leaves, e.1 ∈ args.symbolMap.keys := by
        intro e he
        apply hk (e.1, e.2 + 1)
        simp only [Symbol.leaves, h, if_false, List.mem_map, List.mem_append]
        exact ⟨e, Or.inr he, rfl⟩
      rw [if_neg h, ihl args _ _ _ hl]
      exact ihr args _ _ _ hr

theorem clog_eq (r : ℚ) (j : ℤ) (hr : 0 < r) (h1 : (2 : ℚ) ^ (j - 1) < r)
    (h2 : r ≤ (2 : ℚ) ^ j) : Int.clog 2 r = j := by
  have hb : 1 < 2 := by norm_num
  have ha : Int.clog 2 r ≤ j := (Int.le_zpow_iff_clog_le hb hr).mp (by exact_mod_cast h2)
  have hc : j - 1 < Int.clog 2 r := (Int.zpow_lt_iff_lt_clog hb hr).mp (by exact_mod_cast h1)
  omega

theorem pathLength_of_internalCount (c : String → Nat) (t : Symbol)
    (h : t.internalCount = 0) : pathLength c 0 t = 0 := by
  cases t with
  | null => exact pathLength_null c 0
  | mk s p l r =>
    by_cases hl : l = Symbol.null ∧ r = Symbol.null
    · obtain ⟨h1, h2⟩ := hl
      subst h1 h2
      rw [pathLength_leaf]
      omega
    · simp [Symbol.internalCount, hl] at h

/-- After a run of `initHuffman`, the calls `calculateInterval` and `getNumberOfBits` leave the
map and the tree alone, and `huffmanResults` returns `args` as it found it. -/
theorem pipeline_args (sequence : List Char) (hne : sequence ≠ []) (args' : EncodingArgs)
    (hrun : InitHuffman sequence {} args') :
    (huffmanResults sequence (getNumberOfBits (calculateInterval args'))).args =
      getNumberOfBits (calculateInterval args') := by
  obtain ⟨_, _, hl, _⟩ :=
    run_facts sequence hne (initQueue sequence {}).pq (List.Perm.refl _) args' hrun
  simp only [huffmanResults]
  apply huffmanRatio_args
  intro e he
  exact hl.subset (List.mem_map_of_mem _ he)

theorem pipeline_report (sequence : List Char) (hne : sequence ≠ []) (args' : EncodingArgs)
    (hrun : InitHuffman sequence {} args') :
    (huffmanResults sequence (getNumberOfBits (calculateInterval args'))).nonStatistical =
      nonStatistical sequence (getNumberOfBits (calculateInterval args')) ∧
    (huffmanResults sequence (getNumberOfBits (calculateInterval args'))).ro =
      ratio (nonStatistical sequence (getNumberOfBits (calculateInterval args')))
        ((huffmanResults sequence (getNumberOfBits (calculateInterval args'))).statistical :
          Int) := by
  have h1 : (huffmanResults sequence (getNumberOfBits (calculateInterval args'))).nonStatistical
      = nonStatistical sequence
        (huffmanResults sequence (getNumberOfBits (calculateInterval args'))).args := rfl
  have h2 : (huffmanResults sequence (getNumberOfBits (calculateInterval args'))).ro =
      ratio (huffmanResults sequence (getNumberOfBits (calculateInterval args'))).nonStatistical
        ((huffmanResults sequence (getNumberOfBits (calculateInterval args'))).statistical :
          Int) := rfl
  rw [pipeline_args sequence hne args' hrun] at h1
  rw [h1] at h2
  exact ⟨h1, h2⟩

theorem pipeline_statistical (sequence : List Char) (args' : EncodingArgs) :
    (huffmanResults sequence (getNumberOfBits (calculateInterval args'))).statistical =
      (huffmanResults sequence args').statistical := by
  rw [statistical_eq, statistical_eq]
  rfl

/-- The arithmetic-coding part of the worked example "AAAABBBCCD". -/
theorem example_arithmetic (args' : EncodingArgs)
    (hrun : InitHuffman "AAAABBBCCD".toList {} args') :
    (calculateInterval args').arithmeticCodeInterval =
      (2 / 5) ^ 4 * (3 / 10) ^ 3 * (1 / 5) ^ 2 * (1 / 10) ^ 1 ∧
    (calculateInterval args').arithmeticCodeInterval = 27648 / 10 ^ 10 ∧
    (getNumberOfBits (calculateInterval args')).k = 20 ∧
    arithmeticResults "AAAABBBCCD".toList
      (huffmanResults "AAAABBBCCD".toList (getNumberOfBits (calculateInterval args'))).args =
        Ratio.finite 1 := by
  have hne : "AAAABBBCCD".toList ≠ [] := by decide
  obtain ⟨_, _, hmap, hint, _⟩ := createTree_run _ _ hrun
  have hm : (initQueue "AAAABBBCCD".toList {}).symbolMap =
      [("A", (4, 2 / 5)), ("B", (3, 3 / 10)), ("C", (2, 1 / 5)), ("D", (1, 1 / 10))] := by
    decide!
  rw [hm] at hmap
  have hint1 : args'.arithmeticCodeInterval = 1 := hint
  have hw : (calculateInterval args').arithmeticCodeInterval =
      (2 / 5) ^ 4 * (3 / 10) ^ 3 * (1 / 5) ^ 2 * (1 / 10) ^ 1 := by
    simp only [calculateInterval, hmap, hint1, List.foldl_cons, List.foldl_nil, one_mul]
  have hw2 : (calculateInterval args').arithmeticCodeInterval = 27648 / 10 ^ 10 := by
    rw [hw]
    norm_num
  have hk : (getNumberOfBits (calculateInterval args')).k = 20 := by
    simp only [getNumberOfBits, hw2]
    rw [clog_eq (1 / (27648 / 10 ^ 10)) 19 (by norm_num) (by norm_num) (by norm_num)]
    rfl
  refine ⟨hw, hw2, hk, ?_⟩
  rw [pipeline_args _ hne args' hrun]
  have hsize : args'.symbolMap.size = 4 := by rw [hmap]; rfl
  have hbits : bitsPerSymbol 4 = 2 := by decide!
  have hnon : nonStatistical "AAAABBBCCD".toList (getNumberOfBits (calculateInterval args'))
      = 20 := by
    show bitsPerSymbol args'.symbolMap.size * "AAAABBBCCD".toList.length = 20
    rw [hsize, hbits]
    rfl
  simp only [arithmeticResults, hnon, hk]
  simp [ratio]

/-- What every run of `initHuffman` on a sequence with one distinct character yields. -/
theorem single_symbol (sequence : List Char) (h1 : sequence.dedup.length = 1)
    (args' : EncodingArgs) (hrun : InitHuffman sequence {} args') :
    bitsPerSymbol args'.symbolMap.size = 0 ∧
    (huffmanResults sequence (getNumberOfBits (calculateInterval args'))).statistical = 0 ∧
    (huffmanResults sequence (getNumberOfBits (calculateInterval args'))).ro = Ratio.nan := by
  have hne : sequence ≠ [] := by
    intro h
    rw [h] at h1
    simp at h1
  obtain ⟨_, _, hmap, _, _⟩ := createTree_run _ _ hrun
  have hsize : args'.symbolMap.size = 1 := by
    rw [hmap, initQueue_size, h1]
  obtain ⟨_, _, _, hint⟩ := run_full sequence hne args' hrun
  rw [hsize] at hint
  have hbits : bitsPerSymbol 1 = 0 :=
    Nat.le_zero.mp (bitsPerSymbol_least 1 0 (le_refl 1) (le_refl 1))
  have hstat :
      (huffmanResults sequence (getNumberOfBits (calculateInterval args'))).statistical = 0 := by
    rw [pipeline_statistical, statistical_eq]
    exact pathLength_of_internalCount _ _ hint
  have hnon : nonStatistical sequence (getNumberOfBits (calculateInterval args')) = 0 := by
    show bitsPerSymbol args'.symbolMap.size * sequence.length = 0
    rw [hsize, hbits, Nat.zero_mul]
  refine ⟨by rw [hsize, hbits], hstat, ?_⟩
  have hr := (pipeline_report sequence hne args' hrun).2
  rw [hr, hnon, hstat]
  simp [ratio]

/-! ## The interval of the arithmetic code -/

theorem foldl_mul_eq (f : Entry → ℚ) (m : List Entry) (w : ℚ) :
    m.foldl (fun w e => w * f e) w = w * (m.map f).prod := by
  induction m generalizing w with
  | nil => simp
  | cons e rest ih =>
    simp only [List.foldl_cons, List.map_cons, List.prod_cons, ih]
    ring

theorem calculateInterval_eq (args : EncodingArgs) :
    (calculateInterval args).arithmeticCodeInterval =
      args.arithmeticCodeInterval * (args.symbolMap.map (fun e => e.2.2 ^ e.2.1)).prod := by
  simp only [calculateInterval]
  exact foldl_mul_eq (fun e => e.2.2 ^ e.2.1) _ _

/-- The entries of the map after a run of `initHuffman`. -/
theorem run_entries (sequence : List Char) (hne : sequence ≠ []) (args' : EncodingArgs)
    (hrun : InitHuffman sequence {} args') :
    args'.symbolMap = (countSymbols sequence []).map (withProbability sequence.length) ∧
    args'.arithmeticCodeInterval = 1 ∧
    (∀ e ∈ args'.symbolMap, 1 ≤ e.2.1 ∧ e.2.1 ≤ sequence.length ∧
      e.2.2 = (e.2.1 : ℚ) / (sequence.length : ℚ) ∧ 0 < e.2.2 ∧ e.2.2 ≤ 1) ∧
    (args'.symbolMap.map (fun e => e.2.1)).sum = sequence.length := by
  obtain ⟨_, _, hmap, hint, _⟩ := createTree_run _ _ hrun
  rw [initQueue_symbolMap] at hmap
  have hn : 0 < sequence.length := List.length_pos.mpr hne
  have hnq : (0 : ℚ) < sequence.length := by exact_mod_cast hn
  obtain ⟨_, _, _, hent, hsum⟩ := countSymbols_facts sequence
  refine ⟨hmap, hint, ?_, ?_⟩
  · intro e he
    rw [hmap] at he
    obtain ⟨e0, he0, rfl⟩ := List.mem_map.mp he
    obtain ⟨c, _, _, hc, hpos⟩ := hent e0 he0
    have hle : e0.2.1 ≤ sequence.length := by
      rw [hc]
      exact List.count_le_length _ _
    have h1 : (withProbability sequence.length e0).2.2 =
        (e0.2.1 : ℚ) / (sequence.length : ℚ) := rfl
    have h2 : (withProbability sequence.length e0).2.1 = e0.2.1 := rfl
    rw [h1, h2]
    refine ⟨hpos, hle, rfl, ?_, ?_⟩
    · apply div_pos _ hnq
      exact_mod_cast hpos
    · rw [div_le_one hnq]
      exact_mod_cast hle
  · rw [hmap, counts_withProbability]
    exact hsum

theorem prod_pow_pos_le_one (m : List Entry)
    (h : ∀ e ∈ m, 0 < e.2.2 ∧ e.2.2 ≤ 1) :
    0 < (m.map (fun e => e.2.2 ^ e.2.1)).prod ∧ (m.map (fun e => e.2.2 ^ e.2.1)).prod ≤ 1 := by
  induction m with
  | nil => simp
  | cons e rest ih =>
    obtain ⟨h1, h2⟩ := ih (fun e he => h e (List.mem_cons_of_mem _ he))
    obtain ⟨h3, h4⟩ := h e (List.mem_cons_self _ _)
    simp only [List.map_cons, List.prod_cons]
    have h5 : 0 < e.2.2 ^ e.2.1 := pow_pos h3 _
    have h6 : e.2.2 ^ e.2.1 ≤ 1 := pow_le_one₀ (le_of_lt h3) h4
    exact ⟨mul_pos h5 h1, mul_le_one₀ h6 (le_of_lt h1) h2⟩

/-- The interval and the bit count after a run of `initHuffman`. -/
theorem run_interval (sequence : List Char) (hne : sequence ≠ []) (args' : EncodingArgs)
    (hrun : InitHuffman sequence {} args') :
    (calculateInterval args').arithmeticCodeInterval =
      (args'.symbolMap.map (fun e => e.2.2 ^ e.2.1)).prod ∧
    0 < (calculateInterval args').arithmeticCodeInterval ∧
    (calculateInterval args').arithmeticCodeInterval ≤ 1 ∧
    (getNumberOfBits (calculateInterval args')).k =
      Int.clog 2 (1 / (calculateInterval args').arithmeticCodeInterval) + 1 ∧
    0 ≤ Int.clog 2 (1 / (calculateInterval args').arithmeticCodeInterval) := by
  obtain ⟨_, hint, hent, _⟩ := run_entries sequence hne args' hrun
  have heq : (calculateInterval args').arithmeticCodeInterval =
      (args'.symbolMap.map (fun e => e.2.2 ^ e.2.1)).prod := by
    rw [calculateInterval_eq, hint, one_mul]
  obtain ⟨h1, h2⟩ := prod_pow_pos_le_one args'.symbolMap (fun e he => (hent e he).2.2.2)
  rw [← heq] at h1 h2
  refine ⟨heq, h1, h2, rfl, ?_⟩
  have h3 : (1 : ℚ) ≤ 1 / (calculateInterval args').arithmeticCodeInterval := by
    rw [le_div_iff₀ h1, one_mul]
    exact h2
  rw [Int.clog_of_one_le_right _ h3]
  exact Int.natCast_nonneg _

theorem forestOf_perm {α : Type} (f : Symbol → List α) {F G : List Symbol} (h : F.Perm G) :
    (forestOf f F).Perm (forestOf f G) := by
  induction h with
  | nil => exact List.Perm.refl _
  | cons x _ ih => exact List.Perm.append_left _ ih
  | swap x y l =>
    simp only [forestOf, ← List.append_assoc]
    exact List.Perm.append_right _ List.perm_append_comm
  | trans _ _ ih1 ih2 => exact ih1.trans ih2

theorem forestOf_map {α : Type} (f : Symbol → List α) (g : Entry → Symbol) (h : Entry → α)
    (hfg : ∀ e, f (g e) = [h e]) (m : List Entry) : forestOf f (m.map g) = m.map h := by
  induction m with
  | nil => rfl
  | cons e rest ih => simp [forestOf, hfg, ih]

/-- A property of trees that the leaves have and that merging keeps holds of every tree the
loop leaves in the queue; and what merging concatenates is kept as a whole. -/
theorem createTreeLoop_invariant {α : Type} (P : Symbol → Prop) (f : Symbol → List α)
    (hP : ∀ l r, P l → P r → P (mergeNode l r))
    (hf : ∀ l r, P l → P r → f (mergeNode l r) = f l ++ f r)
    {pq pq' : List Symbol} (hrun : CreateTreeLoop pq pq') :
    (∀ t ∈ pq, P t) → (∀ t ∈ pq', P t) ∧ (forestOf f pq').Perm (forestOf f pq) := by
  induction hrun with
  | exit _ => exact fun h => ⟨h, List.Perm.refl _⟩
  | @iter pq pq' left right hlen hleft hright hrest ih =>
    intro hinv
    have hl_mem : left ∈ pq := hleft.1
    have hr_mem' : right ∈ pq.erase left := hright.1
    have hr_mem : right ∈ pq := List.mem_of_mem_erase hr_mem'
    have hperm : pq.Perm (left :: right :: (pq.erase left).erase right) :=
      (List.perm_cons_erase hl_mem).trans ((List.perm_cons_erase hr_mem').cons left)
    have hinv' : ∀ t ∈ pqPush (pqPop (pqPop pq left) right) (mergeNode left right), P t := by
      intro t ht
      simp only [pqPush, pqPop, List.mem_cons] at ht
      rcases ht with rfl | ht
      · exact hP _ _ (hinv left hl_mem) (hinv right hr_mem)
      · exact hinv t (List.mem_of_mem_erase (List.mem_of_mem_erase ht))
    obtain ⟨h1, h2⟩ := ih hinv'
    refine ⟨h1, h2.trans ?_⟩
    refine List.Perm.trans ?_ (forestOf_perm f hperm).symm
    simp only [pqPush, pqPop, forestOf, hf _ _ (hinv left hl_mem) (hinv right hr_mem),
      List.append_assoc]
    exact List.Perm.refl _

/-- The same for a run of `initHuffman`: the property holds of the tree, and what merging
concatenates is, on the tree, a permutation of what the leaves carry. -/
theorem run_invariant {α : Type} (P : Symbol → Prop) (f : Symbol → List α) (h : Entry → α)
    (sequence : List Char) (hleaf : ∀ e, P (leafOf sequence.length e))
    (hfleaf : ∀ e, f (leafOf sequence.length e) = [h e])
    (hP : ∀ l r, P l → P r → P (mergeNode l r))
    (hf : ∀ l r, P l → P r → f (mergeNode l r) = f l ++ f r)
    (args' : EncodingArgs) (hrun : InitHuffman sequence {} args') :
    P args'.treeRoot ∧ (f args'.treeRoot).Perm ((countSymbols sequence []).map h) := by
  obtain ⟨hloop, _, _, _, _⟩ := createTree_run _ _ hrun
  have hinit : ∀ t ∈ (initQueue sequence {}).pq, P t := by
    intro t ht
    rw [initQueue_pq] at ht
    simp only [List.mem_reverse, List.mem_map] at ht
    obtain ⟨e, _, rfl⟩ := ht
    exact hleaf e
  obtain ⟨h1, h2⟩ := createTreeLoop_invariant P f hP hf hloop hinit
  refine ⟨h1 _ (List.mem_singleton.mpr rfl), ?_⟩
  have h3 : (f args'.treeRoot).Perm (forestOf f (initQueue sequence {}).pq) := by
    simpa [forestOf] using h2
  refine h3.trans ?_
  rw [initQueue_pq]
  refine (forestOf_perm f (List.reverse_perm _)).trans ?_
  rw [forestOf_map f _ h hfleaf]

/-! ## The weights in the tree -/

theorem leafP_eq_sum (t : Symbol) : t.leafP = (t.leafNodes.map Prod.snd).sum := by
  induction t with
  | null => simp [Symbol.leafP, Symbol.leafNodes]
  | mk s p l r ihl ihr =>
    by_cases h : l = Symbol.null ∧ r = Symbol.null
    · simp [Symbol.leafP, Symbol.leafNodes, h]
    · simp only [Symbol.leafP, Symbol.leafNodes, h, if_false, List.map_append, List.sum_append,
        ihl, ihr]

/-- The weights in the tree that a run of `initHuffman` builds. -/
theorem run_weights (sequence : List Char) (hne : sequence ≠ []) (args' : EncodingArgs)
    (hrun : InitHuffman sequence {} args') :
    args'.treeRoot.SumsLeaves ∧ args'.treeRoot.SumsChildren ∧
    args'.treeRoot.leafNodes.Perm (args'.symbolMap.map (fun e => (e.1, e.2.2))) ∧
    args'.treeRoot.p = (args'.symbolMap.map (fun e => e.2.2)).sum ∧
    args'.treeRoot.p = 1 := by
  have key := run_invariant
    (fun t => t ≠ Symbol.null ∧ t.p = t.leafP ∧ t.SumsLeaves ∧ t.SumsChildren)
    Symbol.leafNodes (fun e => (e.1, (e.2.1 : ℚ) / (sequence.length : ℚ))) sequence
    (by
      intro e
      simp [leafOf, Symbol.p, Symbol.leafP, Symbol.SumsLeaves, Symbol.SumsChildren])
    (by
      intro e
      simp [leafOf, Symbol.leafNodes])
    (by
      intro l r hl hr
      have hnl : ¬ (l = Symbol.null ∧ r = Symbol.null) := fun h => hl.1 h.1
      have hp : (mergeNode l r).p = l.p + r.p := rfl
      refine ⟨by simp [mergeNode], ?_, ?_, ?_⟩
      · rw [hp, hl.2.1, hr.2.1]
        simp [mergeNode, Symbol.leafP, hnl]
      · simp only [mergeNode, Symbol.SumsLeaves]
        exact ⟨fun _ => by rw [hl.2.1, hr.2.1], hl.2.2.1, hr.2.2.1⟩
      · simp only [mergeNode, Symbol.SumsChildren]
        exact ⟨fun _ => trivial, hl.2.2.2, hr.2.2.2⟩)
    (by
      intro l r hl _
      have hnl : ¬ (l = Symbol.null ∧ r = Symbol.null) := fun h => hl.1 h.1
      simp [mergeNode, Symbol.leafNodes, hnl])
    args' hrun
  obtain ⟨⟨_, hp, hs, hc⟩, hperm⟩ := key
  obtain ⟨hmap, _, hent, hsum⟩ := run_entries sequence hne args' hrun
  have hn : (0 : ℚ) < sequence.length := by
    exact_mod_cast List.length_pos.mpr hne
  have hperm' : args'.treeRoot.leafNodes.Perm (args'.symbolMap.map (fun e => (e.1, e.2.2))) := by
    refine hperm.trans (List.Perm.of_eq ?_)
    rw [hmap, List.map_map]
    rfl
  have hroot : args'.treeRoot.p = (args'.symbolMap.map (fun e => e.2.2)).sum := by
    rw [hp, leafP_eq_sum, (hperm'.map Prod.snd).sum_eq, List.map_map]
    rfl
  refine ⟨hs, hc, hperm', hroot, ?_⟩
  rw [hroot]
  have h1 : args'.symbolMap.map (fun e => e.2.2) =
      args'.symbolMap.map (fun e => (e.2.1 : ℚ) / (sequence.length : ℚ)) := by
    apply List.map_congr_left
    intro e he
    exact (hent e he).2.2.1
  rw [h1, sum_map_div, hsum]
  exact div_self (ne_of_gt hn)

/-! ## Counting the merges -/

theorem createTreeIters_length {pq pq' : List Symbol} {k : Nat}
    (h : CreateTreeIters pq k pq') :
    1 ≤ pq.length → pq'.length + k = pq.length ∧ 1 ≤ pq'.length := by
  induction h with
  | zero => exact fun h => ⟨rfl, h⟩
  | @succ pq pq' left right k hlen hleft hright _ ih =>
    intro hpos
    have h1 : (pqPop pq left).length = pq.length - 1 := List.length_erase_of_mem hleft.1
    have h2 : (pqPop (pqPop pq left) right).length = (pqPop pq left).length - 1 :=
      List.length_erase_of_mem hright.1
    have h3 : 1 ≤ (pqPop pq left).length := List.length_pos.mpr (List.ne_nil_of_mem hright.1)
    have h4 := ih (by simp [pqPush])
    simp only [pqPush, List.length_cons] at h4
    omega

theorem createTreeLoop_iff_iters (pq pq' : List Symbol) :
    CreateTreeLoop pq pq' ↔ ∃ k, CreateTreeIters pq k pq' ∧ pq'.length = 1 := by
  constructor
  · intro h
    induction h with
    | exit hlen => exact ⟨0, CreateTreeIters.zero, hlen⟩
    | iter hlen hleft hright _ ih =>
      obtain ⟨k, hk, hl⟩ := ih
      exact ⟨k + 1, CreateTreeIters.succ hlen hleft hright hk, hl⟩
  · rintro ⟨k, hk, hl⟩
    induction hk with
    | zero => exact CreateTreeLoop.exit hl
    | succ hlen hleft hright _ ih => exact CreateTreeLoop.iter hlen hleft hright (ih hl)

theorem isTop_exists (pq : List Symbol) (h : pq ≠ []) : ∃ x, IsTop pq x := by
  cases ht : pqTop pq with
  | none => exact absurd ((pqTop_eq_none pq).mp ht) h
  | some x => exact ⟨x, pqTop_isTop pq x ht⟩

/-- The iterations of the loop of `createTree` on a queue that is not empty. -/
theorem createTree_iterations (args : EncodingArgs) (hn : 1 ≤ args.pq.length) :
    (∀ k pq', CreateTreeIters args.pq k pq' → pq'.length + k = args.pq.length) ∧
    (∀ k pq', CreateTreeIters args.pq k pq' → pq'.length ≠ 1 →
      ∃ left right, IsTop pq' left ∧ IsTop (pqPop pq' left) right) ∧
    (∀ args', CreateTree args args' →
      CreateTreeIters args.pq (args.pq.length - 1) args'.pq ∧ args'.pq = [args'.treeRoot]) := by
  refine ⟨fun k pq' h => (createTreeIters_length h hn).1, ?_, ?_⟩
  · intro k pq' h hne1
    obtain ⟨h1, h2⟩ := createTreeIters_length h hn
    obtain ⟨left, hl⟩ := isTop_exists pq' (by
      intro h0
      rw [h0] at h2
      simp at h2)
    have hlen : (pqPop pq' left).length = pq'.length - 1 := List.length_erase_of_mem hl.1
    obtain ⟨right, hr⟩ := isTop_exists (pqPop pq' left) (by
      intro h0
      rw [h0] at hlen
      simp at hlen
      omega)
    exact ⟨left, right, hl, hr⟩
  · intro args' hrun
    obtain ⟨hloop, hpq, _, _, _⟩ := createTree_run _ _ hrun
    obtain ⟨k, hk, _⟩ := (createTreeLoop_iff_iters _ _).mp hloop
    have := (createTreeIters_length hk hn).1
    simp only [List.length_singleton] at this
    have hk' : k = args.pq.length - 1 := by omega
    rw [hpq, ← hk']
    exact ⟨hk, rfl⟩

/-! ## Bounds on the Huffman total -/

theorem leaves_depth_pos (s : String) (p : ℚ) (l r : Symbol)
    (h : ¬ (l = Symbol.null ∧ r = Symbol.null)) :
    ∀ e ∈ (Symbol.mk s p l r).leaves, 1 ≤ e.2 := by
  intro e he
  simp only [Symbol.leaves, h, if_false, List.mem_map] at he
  obtain ⟨e', _, rfl⟩ := he
  simp

/-- The fixed-width code as a depth assignment: every count at depth `b`. -/
theorem kraftAt_uniform (m : SymbolMap) (b : ℕ) (hb : m.length ≤ 2 ^ b) :
    KraftAt b (Multiset.ofList (m.map (fun e => (e.2.1, b)))) ∧
    weights (Multiset.ofList (m.map (fun e => (e.2.1, b)))) =
      Multiset.ofList (m.map (fun e => e.2.1)) ∧
    cost (Multiset.ofList (m.map (fun e => (e.2.1, b)))) = b * (m.map (fun e => e.2.1)).sum := by
  refine ⟨⟨?_, ?_⟩, ?_, ?_⟩
  · intro d hd
    simp only [depths, Multiset.map_coe, Multiset.mem_coe, List.map_map, List.mem_map] at hd
    obtain ⟨e, _, rfl⟩ := hd
    exact le_refl _
  · simp only [kraftSum, depths, Multiset.map_coe, Multiset.sum_coe, List.map_map]
    have : (List.map ((fun d => 2 ^ (b - d)) ∘ Prod.snd ∘ fun e : Entry => (e.2.1, b)) m) =
        List.map (fun _ => 1) m := by
      apply List.map_congr_left
      intro e _
      simp
    rw [this]
    simpa using hb
  · simp only [weights, Multiset.map_coe, List.map_map]
    rfl
  · simp only [cost, Multiset.map_coe, Multiset.sum_coe, List.map_map]
    induction m with
    | nil => simp
    | cons e rest ih =>
      have ih' := ih (le_trans (by simp) hb)
      simp only [List.map_cons, List.sum_cons, Function.comp] at ih' ⊢
      rw [ih']
      ring

/-- The Huffman total of a run on a sequence with at least two distinct characters. -/
theorem run_total_bounds (sequence : List Char) (h2 : 2 ≤ sequence.dedup.length)
    (args' : EncodingArgs) (hrun : InitHuffman sequence {} args') :
    1 ≤ pathLength args'.symbolMap.count 0 args'.treeRoot ∧
    pathLength args'.symbolMap.count 0 args'.treeRoot ≤
      bitsPerSymbol args'.symbolMap.size * sequence.length := by
  have hne : sequence ≠ [] := by
    intro h
    rw [h] at h2
    simp at h2
  obtain ⟨hm, hnn, hl, hopt⟩ :=
    run_facts sequence hne (initQueue sequence {}).pq (List.Perm.refl _) args' hrun
  obtain ⟨_, _, hleaves, hint⟩ := run_full sequence hne args' hrun
  obtain ⟨_, _, hent, hsum⟩ := run_entries sequence hne args' hrun
  have hord : args'.symbolMap.Ordered := hm ▸ initQueue_ordered sequence
  have hsize : 2 ≤ args'.symbolMap.size := by
    rw [hm, initQueue_size]
    exact h2
  constructor
  · cases hroot : args'.treeRoot with
    | null => exact absurd hroot hnn
    | mk s p l r =>
      rw [hroot] at hint hleaves hl
      have hnl : ¬ (l = Symbol.null ∧ r = Symbol.null) := by
        intro h
        simp only [Symbol.internalCount, h, and_self, if_true] at hint
        omega
      have hdepth := leaves_depth_pos s p l r hnl
      have hcount : ∀ e ∈ (Symbol.mk s p l r).leaves, 1 ≤ args'.symbolMap.count e.1 := by
        intro e he
        have hk : e.1 ∈ args'.symbolMap.keys := hl.subset (List.mem_map_of_mem _ he)
        obtain ⟨e', he', hke⟩ := List.mem_map.mp hk
        rw [← hke, count_of_mem _ hord e' he']
        exact (hent e' he').1
      have hlen : 1 ≤ (Symbol.mk s p l r).leaves.length := by omega
      unfold pathLength
      have hge : ((Symbol.mk s p l r).leaves.map (fun _ => 1)).sum ≤
          ((Symbol.mk s p l r).leaves.map
            (fun e => (0 + e.2) * args'.symbolMap.count e.1)).sum := by
        apply List.sum_le_sum
        intro e he
        have h1 := hdepth e he
        have h2 := hcount e he
        rw [Nat.zero_add]
        exact Nat.mul_le_mul h1 h2
      simp only [List.map_const', List.sum_replicate, smul_eq_mul, mul_one] at hge
      omega
  · obtain ⟨k1, k2, k3⟩ := kraftAt_uniform args'.symbolMap (bitsPerSymbol args'.symbolMap.size)
      (bitsPerSymbol_le _)
    have := hopt _ _ k1 k2
    rw [k3, hsum] at this
    exact this

/-! ## The order of the characters -/

theorem mem_assign (m : SymbolMap) (s : String) (v : Nat × ℚ) (e : Entry)
    (h : e ∈ m.assign s v) : e = (s, v) ∨ e ∈ m := by
  induction m with
  | nil =>
    simp only [SymbolMap.assign, List.mem_singleton] at h
    exact Or.inl h
  | cons a rest ih =>
    obtain ⟨k, w⟩ := a
    by_cases h1 : s < k
    · simp only [SymbolMap.assign, h1, if_true, List.mem_cons] at h
      rcases h with h | h | h
      · exact Or.inl h
      · exact Or.inr (List.mem_cons.mpr (Or.inl h))
      · exact Or.inr (List.mem_cons_of_mem _ h)
    · by_cases h2 : s = k
      · subst h2
        simp only [SymbolMap.assign, h1, if_false, if_true, List.mem_cons] at h
        rcases h with h | h
        · exact Or.inl h
        · exact Or.inr (List.mem_cons_of_mem _ h)
      · simp only [SymbolMap.assign, h1, h2, if_false, List.mem_cons] at h
        rcases h with h | h
        · exact Or.inr (List.mem_cons.mpr (Or.inl h))
        · rcases ih h with h | h
          · exact Or.inl h
          · exact Or.inr (List.mem_cons_of_mem _ h)

theorem countSymbols_snd (sequence : List Char) (m : SymbolMap) (hm : ∀ e ∈ m, e.2.2 = 0) :
    ∀ e ∈ countSymbols sequence m, e.2.2 = 0 := by
  induction sequence generalizing m with
  | nil => simpa [countSymbols] using hm
  | cons c rest ih =>
    rw [countSymbols_cons]
    apply ih
    intro e he
    rw [countChar_eq] at he
    rcases mem_assign _ _ _ _ he with h | h
    · rw [h]
      cases hf : m.find ("".push c) with
      | none => simp
      | some v =>
        have := hm _ (SymbolMap.mem_of_find _ _ _ hf)
        simpa using this
    · exact hm e h

/-- Two maps in key order with the same lookups are equal. -/
theorem ordered_ext (m1 : SymbolMap) : ∀ (m2 : SymbolMap), m1.Ordered → m2.Ordered →
    (∀ s, m1.find s = m2.find s) → m1 = m2 := by
  induction m1 with
  | nil =>
    intro m2 _ _ h
    cases m2 with
    | nil => rfl
    | cons b r2 =>
      have := h b.1
      simp [SymbolMap.find] at this
  | cons a r1 ih =>
    intro m2 h1 h2 h
    cases m2 with
    | nil =>
      have := h a.1
      simp [SymbolMap.find] at this
    | cons b r2 =>
      have h1' := List.pairwise_cons.mp h1
      have h2' := List.pairwise_cons.mp h2
      have ha : SymbolMap.find (a :: r1) a.1 = some a.2 :=
        SymbolMap.find_of_mem _ h1 a.1 a.2 (List.mem_cons_self _ _)
      have hb : SymbolMap.find (b :: r2) b.1 = some b.2 :=
        SymbolMap.find_of_mem _ h2 b.1 b.2 (List.mem_cons_self _ _)
      have ha2 : (a.1, a.2) ∈ b :: r2 := SymbolMap.mem_of_find _ _ _ ((h a.1).symm.trans ha)
      have hb1 : (b.1, b.2) ∈ a :: r1 := SymbolMap.mem_of_find _ _ _ ((h b.1).trans hb)
      have hle1 : b.1 ≤ a.1 := by
        rcases List.mem_cons.mp ha2 with h' | h'
        · rw [← h']
        · exact le_of_lt (h2'.1 _ h')
      have hle2 : a.1 ≤ b.1 := by
        rcases List.mem_cons.mp hb1 with h' | h'
        · rw [← h']
        · exact le_of_lt (h1'.1 _ h')
      have hk : a.1 = b.1 := le_antisymm hle2 hle1
      have hv : a.2 = b.2 := by
        have := h a.1
        rw [ha, hk, hb] at this
        exact Option.some.inj this
      have hab : a = b := Prod.ext hk hv
      subst hab
      congr 1
      apply ih r2 h1'.2 h2'.2
      intro s
      by_cases hs : a.1 = s
      · rw [← hs, SymbolMap.find_eq_none_of_lt r1 a.1 h1'.1,
          SymbolMap.find_eq_none_of_lt r2 a.1 h2'.1]
      · have := h s
        simp only [SymbolMap.find, hs, if_false] at this
        exact this

theorem countSymbols_find (sequence : List Char) (s : String) :
    (countSymbols sequence []).find s =
      if s ∈ (countSymbols sequence []).keys then
        some ((countSymbols sequence []).count s, 0)
      else none := by
  by_cases hk : s ∈ (countSymbols sequence []).keys
  · rw [if_pos hk]
    cases hf : (countSymbols sequence []).find s with
    | none => exact absurd hk ((SymbolMap.find_eq_none_iff _ _).mp hf)
    | some v =>
      have h0 := countSymbols_snd sequence [] (by simp) _ (SymbolMap.mem_of_find _ _ _ hf)
      have hc : (countSymbols sequence []).count s = v.1 := by
        rw [SymbolMap.count_eq, hf]
        rfl
      rw [hc]
      simp only at h0
      rw [← h0]
  · rw [if_neg hk]
    exact (SymbolMap.find_eq_none_iff _ _).mpr hk

theorem countSymbols_perm (s1 s2 : List Char) (h : s1.Perm s2) :
    countSymbols s1 [] = countSymbols s2 [] := by
  apply ordered_ext _ _ (countSymbols_ordered s1 [] List.Pairwise.nil)
    (countSymbols_ordered s2 [] List.Pairwise.nil)
  intro s
  have hkeys : s ∈ (countSymbols s1 []).keys ↔ s ∈ (countSymbols s2 []).keys := by
    rw [countSymbols_keys, countSymbols_keys]
    constructor
    · rintro (h' | ⟨c, hc, rfl⟩)
      · exact Or.inl h'
      · exact Or.inr ⟨c, h.subset hc, rfl⟩
    · rintro (h' | ⟨c, hc, rfl⟩)
      · exact Or.inl h'
      · exact Or.inr ⟨c, h.symm.subset hc, rfl⟩
  have hcount : (countSymbols s1 []).count s = (countSymbols s2 []).count s := by
    rw [countSymbols_count, countSymbols_count, h.countP_eq]
  rw [countSymbols_find, countSymbols_find, hcount]
  by_cases hk : s ∈ (countSymbols s1 []).keys
  · rw [if_pos hk, if_pos (hkeys.mp hk)]
  · rw [if_neg hk, if_neg (fun h' => hk (hkeys.mpr h'))]

theorem initQueue_perm (s1 s2 : List Char) (h : s1.Perm s2) :
    initQueue s1 {} = initQueue s2 {} := by
  simp only [initQueue, countSymbols_perm s1 s2 h, h.length_eq]

theorem no_run_on_empty (args' : EncodingArgs) : ¬ InitHuffman [] {} args' := by
  intro hrun
  have h := (createTree_run _ _ hrun).1
  have hnil : (initQueue [] {}).pq = [] := rfl
  rw [hnil] at h
  cases h with
  | iter _ hleft _ _ => exact absurd hleft.1 (List.not_mem_nil _)

/-- Runs of `initHuffman` on two sequences that are permutations of each other. -/
theorem perm_runs (s1 s2 : List Char) (h : s1.Perm s2) (a1 a2 : EncodingArgs)
    (hrun1 : InitHuffman s1 {} a1) (hrun2 : InitHuffman s2 {} a2) :
    a1.symbolMap = a2.symbolMap ∧
    (huffmanResults s1 (getNumberOfBits (calculateInterval a1))).statistical =
      (huffmanResults s2 (getNumberOfBits (calculateInterval a2))).statistical ∧
    (calculateInterval a1).arithmeticCodeInterval =
      (calculateInterval a2).arithmeticCodeInterval ∧
    (getNumberOfBits (calculateInterval a1)).k = (getNumberOfBits (calculateInterval a2)).k ∧
    (huffmanResults s1 (getNumberOfBits (calculateInterval a1))).nonStatistical =
      (huffmanResults s2 (getNumberOfBits (calculateInterval a2))).nonStatistical ∧
    (huffmanResults s1 (getNumberOfBits (calculateInterval a1))).ro =
      (huffmanResults s2 (getNumberOfBits (calculateInterval a2))).ro ∧
    arithmeticResults s1 (huffmanResults s1 (getNumberOfBits (calculateInterval a1))).args =
      arithmeticResults s2 (huffmanResults s2 (getNumberOfBits (calculateInterval a2))).args := by
  have hne1 : s1 ≠ [] := by
    intro h0
    rw [h0] at hrun1
    exact no_run_on_empty a1 hrun1
  have hne2 : s2 ≠ [] := by
    intro h0
    rw [h0] at hrun2
    exact no_run_on_empty a2 hrun2
  have hq := initQueue_perm s1 s2 h
  obtain ⟨_, _, hm1, hi1, _⟩ := createTree_run _ _ hrun1
  obtain ⟨_, _, hm2, hi2, _⟩ := createTree_run _ _ hrun2
  have hmap : a1.symbolMap = a2.symbolMap := by rw [hm1, hm2, hq]
  have hrun2' : InitHuffman s1 {} a2 := by
    unfold InitHuffman at hrun2 ⊢
    rw [hq]
    exact hrun2
  have hstat : (huffmanResults s1 (getNumberOfBits (calculateInterval a1))).statistical =
      (huffmanResults s2 (getNumberOfBits (calculateInterval a2))).statistical := by
    rw [pipeline_statistical, pipeline_statistical, statistical_eq s2 a2, ← statistical_eq s1 a2]
    exact run_unique s1 hne1 _ _ (List.Perm.refl _) (List.Perm.refl _) a1 a2 hrun1 hrun2'
  have hint : (calculateInterval a1).arithmeticCodeInterval =
      (calculateInterval a2).arithmeticCodeInterval := by
    rw [calculateInterval_eq, calculateInterval_eq, hmap, hi1, hi2, hq]
  have hk : (getNumberOfBits (calculateInterval a1)).k =
      (getNumberOfBits (calculateInterval a2)).k := by
    simp only [getNumberOfBits, hint]
  obtain ⟨n1, r1⟩ := pipeline_report s1 hne1 a1 hrun1
  obtain ⟨n2, r2⟩ := pipeline_report s2 hne2 a2 hrun2
  have hnon : nonStatistical s1 (getNumberOfBits (calculateInterval a1)) =
      nonStatistical s2 (getNumberOfBits (calculateInterval a2)) := by
    show bitsPerSymbol a1.symbolMap.size * s1.length = bitsPerSymbol a2.symbolMap.size * s2.length
    rw [hmap, h.length_eq]
  refine ⟨hmap, hstat, hint, hk, ?_, ?_, ?_⟩
  · rw [n1, n2, hnon]
  · rw [r1, r2, hnon, hstat]
  · rw [pipeline_args s1 hne1 a1 hrun1, pipeline_args s2 hne2 a2 hrun2]
    simp only [arithmeticResults, hnon, hk]

/-! ## The vector `codes` -/

theorem height_le_internalCount (t : Symbol) : t.height ≤ t.internalCount := by
  induction t with
  | null => simp [Symbol.height, Symbol.internalCount]
  | mk s p l r ihl ihr =>
    by_cases h : l = Symbol.null ∧ r = Symbol.null
    · simp [Symbol.height, Symbol.internalCount, h]
    · simp only [Symbol.height, Symbol.internalCount, h, if_false]
      omega

theorem codeWrites_mk (s : String) (p : ℚ) (left right : Symbol) (limit : Nat) :
    codeWrites (Symbol.mk s p left right) limit =
      (if left = Symbol.null then [] else (limit, 0) :: codeWrites left (limit + 1)) ++
      (if right = Symbol.null then [] else (limit, 1) :: codeWrites right (limit + 1)) := by
  cases left <;> cases right <;> simp [codeWrites]

theorem codeWrites_bound (t : Symbol) : ∀ limit, ∀ w ∈ codeWrites t limit,
    limit ≤ w.1 ∧ w.1 < limit + t.height := by
  induction t with
  | null => simp [codeWrites]
  | mk s p l r ihl ihr =>
    intro limit w hw
    rw [codeWrites_mk] at hw
    by_cases h : l = Symbol.null ∧ r = Symbol.null
    · simp [h] at hw
    · simp only [Symbol.height, h, if_false]
      rcases List.mem_append.mp hw with hw | hw
      · by_cases hl : l = Symbol.null
        · simp [hl] at hw
        · simp only [hl, if_false, List.mem_cons] at hw
          rcases hw with rfl | hw
          · simp
          · have := ihl (limit + 1) w hw
            omega
      · by_cases hr : r = Symbol.null
        · simp [hr] at hw
        · simp only [hr, if_false, List.mem_cons] at hw
          rcases hw with rfl | hw
          · simp
          · have := ihr (limit + 1) w hw
            omega

/-- The vector `codes` after `huffmanRatio`: the writes of `codeWrites`, made in order. -/
theorem huffmanRatio_codes (root : Symbol) :
    ∀ (args : EncodingArgs) (codes : List Nat) (limit sum : Nat),
      (huffmanRatio args root codes limit sum).2.1 =
        (codeWrites root limit).foldl (fun c w => c.set w.1 w.2) codes := by
  induction root with
  | null =>
    intro args codes limit sum
    rw [huffmanRatio_null]
    rfl
  | mk symb p left right ihl ihr =>
    intro args codes limit sum
    rw [huffmanRatio_mk, codeWrites_mk]
    by_cases hl : left = Symbol.null
    · by_cases hr : right = Symbol.null
      · simp [hl, hr]
      · subst hl
        simp only [hr, and_false, if_false, if_true, List.nil_append, List.foldl_cons]
        rw [ihr]
    · by_cases hr : right = Symbol.null
      · subst hr
        simp only [hl, false_and, if_false, if_true, List.append_nil, List.foldl_cons]
        rw [huffmanRatio_null, ihl]
      · simp only [hl, hr, false_and, if_false, List.foldl_append, List.foldl_cons]
        rw [ihr, ihl]

/-! ## The bit count of the arithmetic code against the Huffman total -/

/-- Kraft's inequality for the leaves of a tree, over the reals. -/
theorem kraft_real (t : Symbol) : (t.leaves.map (fun e => ((1 : ℝ) / 2) ^ e.2)).sum ≤ 1 := by
  induction t with
  | null => simp [Symbol.leaves]
  | mk s p l r ihl ihr =>
    by_cases h : l = Symbol.null ∧ r = Symbol.null
    · simp [Symbol.leaves, h]
    · simp only [Symbol.leaves, h, if_false, List.map_map, List.map_append, List.sum_append]
      have e : ∀ u : Symbol,
          (List.map ((fun e : String × ℕ => ((1 : ℝ) / 2) ^ e.2) ∘
            fun e : String × ℕ => (e.1, e.2 + 1)) u.leaves).sum =
          (1 / 2) * (u.leaves.map (fun e => ((1 : ℝ) / 2) ^ e.2)).sum := by
        intro u
        induction u.leaves with
        | nil => simp
        | cons a rest ih =>
          simp only [List.map_cons, List.sum_cons, Function.comp] at ih ⊢
          rw [ih, pow_succ]
          ring
      rw [e l, e r]
      linarith

/-- Gibbs' inequality in the form needed here: when the depths `d` satisfy Kraft's inequality
and the counts `c` add up to `N`, the product of `(2 ^ d * c / N) ^ c` is at least 1. -/
theorem gibbs (ℓ : List (String × ℕ)) (c : String → ℕ) (hc : ∀ e ∈ ℓ, 1 ≤ c e.1)
    (hne : ℓ ≠ []) (hK : (ℓ.map (fun e => ((1 : ℝ) / 2) ^ e.2)).sum ≤ 1) :
    1 ≤ (ℓ.map (fun e => ((2 : ℝ) ^ e.2 * (c e.1 : ℝ) /
      (((ℓ.map (fun e => c e.1)).sum : ℕ) : ℝ)) ^ c e.1)).prod := by
  set N : ℕ := (ℓ.map (fun e => c e.1)).sum with hN
  have hNpos : 0 < N := by
    obtain ⟨e, he⟩ := List.exists_mem_of_ne_nil ℓ hne
    have h1 := hc e he
    have h2 : c e.1 ≤ N := List.single_le_sum (fun _ _ => Nat.zero_le _) _
      (List.mem_map_of_mem (fun e => c e.1) he)
    omega
  have hNr : (0 : ℝ) < N := by exact_mod_cast hNpos
  -- the weights and the numbers of the mean inequality
  let w : Fin ℓ.length → ℝ := fun i => (c ℓ[i.1].1 : ℝ)
  let z : Fin ℓ.length → ℝ := fun i => (N : ℝ) / ((2 : ℝ) ^ ℓ[i.1].2 * (c ℓ[i.1].1 : ℝ))
  have hcpos : ∀ i : Fin ℓ.length, (0 : ℝ) < c ℓ[i.1].1 := by
    intro i
    have := hc ℓ[i.1] (List.getElem_mem _)
    exact_mod_cast this
  have hzpos : ∀ i : Fin ℓ.length, 0 < z i := by
    intro i
    exact div_pos hNr (mul_pos (by positivity) (hcpos i))
  have hsumw : ∑ i : Fin ℓ.length, w i = (N : ℝ) := by
    have := Fin.sum_univ_get' ℓ (fun e => (c e.1 : ℝ))
    rw [hN]
    push_cast
    rw [List.map_map]
    exact this
  have hsumwz : ∑ i : Fin ℓ.length, w i * z i =
      (N : ℝ) * (ℓ.map (fun e => ((1 : ℝ) / 2) ^ e.2)).sum := by
    rw [← Fin.sum_univ_get' ℓ (fun e => ((1 : ℝ) / 2) ^ e.2), Finset.mul_sum]
    apply Finset.sum_congr rfl
    intro i _
    have h2 : ((2 : ℝ) ^ ℓ[i.1].2) ≠ 0 := by positivity
    have hci := ne_of_gt (hcpos i)
    simp only [w, z]
    field_simp
    ring
  have hmean := Real.geom_mean_le_arith_mean Finset.univ w z
    (fun i _ => le_of_lt (hcpos i)) (by rw [hsumw]; exact hNr) (fun i _ => le_of_lt (hzpos i))
  rw [hsumw, hsumwz] at hmean
  have hle1 : (N : ℝ) * (ℓ.map (fun e => ((1 : ℝ) / 2) ^ e.2)).sum / N ≤ 1 := by
    rw [div_le_one hNr]
    calc (N : ℝ) * (ℓ.map (fun e => ((1 : ℝ) / 2) ^ e.2)).sum ≤ N * 1 :=
          mul_le_mul_of_nonneg_left hK (le_of_lt hNr)
      _ = N := mul_one _
  have hPpos : 0 < ∏ i : Fin ℓ.length, z i ^ w i :=
    Finset.prod_pos (fun i _ => Real.rpow_pos_of_pos (hzpos i) _)
  have hP : ∏ i : Fin ℓ.length, z i ^ w i ≤ 1 := by
    have h := le_trans hmean hle1
    rcases (Real.rpow_le_one_iff_of_pos hPpos).mp h with h' | h'
    · have : (0 : ℝ) < (N : ℝ)⁻¹ := inv_pos.mpr hNr
      linarith [h'.2]
    · exact h'.1
  -- back to the list
  have hprod : (ℓ.map (fun e => ((2 : ℝ) ^ e.2 * (c e.1 : ℝ) / (N : ℝ)) ^ c e.1)).prod =
      (∏ i : Fin ℓ.length, z i ^ w i)⁻¹ := by
    rw [← Fin.prod_univ_get' ℓ (fun e => ((2 : ℝ) ^ e.2 * (c e.1 : ℝ) / (N : ℝ)) ^ c e.1),
      ← Finset.prod_inv_distrib]
    apply Finset.prod_congr rfl
    intro i _
    simp only [w, z]
    rw [Real.rpow_natCast, ← inv_pow, inv_div]
  rw [hprod]
  exact (one_le_inv₀ hPpos).mpr hP

theorem pow_list_sum {α : Type} (f : α → ℕ) (l : List α) :
    (2 : ℚ) ^ (l.map f).sum = (l.map (fun a => (2 : ℚ) ^ f a)).prod := by
  induction l with
  | nil => simp
  | cons a rest ih => simp only [List.map_cons, List.sum_cons, List.prod_cons, pow_add, ih]

theorem cast_list_prod {α : Type} (f : α → ℚ) (l : List α) :
    (((l.map f).prod : ℚ) : ℝ) = (l.map (fun a => ((f a : ℚ) : ℝ))).prod := by
  induction l with
  | nil => simp
  | cons a rest ih => simp only [List.map_cons, List.prod_cons, Rat.cast_mul, ih]

/-- The bit count of the arithmetic code is at most the Huffman total plus 1. -/
theorem run_bits (sequence : List Char) (hne : sequence ≠ []) (args' : EncodingArgs)
    (hrun : InitHuffman sequence {} args') :
    1 / (calculateInterval args').arithmeticCodeInterval ≤
      (2 : ℚ) ^ pathLength args'.symbolMap.count 0 args'.treeRoot ∧
    (getNumberOfBits (calculateInterval args')).k ≤
      ((pathLength args'.symbolMap.count 0 args'.treeRoot : ℕ) : ℤ) + 1 := by
  obtain ⟨hm, hnn, hl, _⟩ :=
    run_facts sequence hne (initQueue sequence {}).pq (List.Perm.refl _) args' hrun
  obtain ⟨_, _, hent, hsum⟩ := run_entries sequence hne args' hrun
  obtain ⟨hw, hwpos, _, hk, _⟩ := run_interval sequence hne args' hrun
  have hord : args'.symbolMap.Ordered := hm ▸ initQueue_ordered sequence
  have hn : (0 : ℚ) < sequence.length := by
    exact_mod_cast List.length_pos.mpr hne
  -- the counts along the leaves
  have hcounts : (args'.treeRoot.leaves.map (fun e => args'.symbolMap.count e.1)).Perm
      (args'.symbolMap.map (fun e => e.2.1)) := by
    rw [← counts_eq_map_keys _ hord]
    have := hl.map args'.symbolMap.count
    rwa [List.map_map] at this
  have hN : (args'.treeRoot.leaves.map (fun e => args'.symbolMap.count e.1)).sum =
      sequence.length := by
    rw [hcounts.sum_eq, hsum]
  have hc1 : ∀ e ∈ args'.treeRoot.leaves, 1 ≤ args'.symbolMap.count e.1 := by
    intro e he
    have hk : e.1 ∈ args'.symbolMap.keys := hl.subset (List.mem_map_of_mem _ he)
    obtain ⟨e', he', hke⟩ := List.mem_map.mp hk
    rw [← hke, count_of_mem _ hord e' he']
    exact (hent e' he').1
  have hlne : args'.treeRoot.leaves ≠ [] := by
    intro h0
    rw [h0] at hN
    simp only [List.map_nil, List.sum_nil] at hN
    exact hne (List.length_eq_zero.mp hN.symm)
  -- the width as a product over the leaves
  have hwidth : (calculateInterval args').arithmeticCodeInterval =
      (args'.treeRoot.leaves.map (fun e =>
        ((args'.symbolMap.count e.1 : ℚ) / (sequence.length : ℚ)) ^
          args'.symbolMap.count e.1)).prod := by
    rw [hw]
    have h1 : args'.symbolMap.map (fun e => e.2.2 ^ e.2.1) =
        args'.symbolMap.keys.map (fun k =>
          ((args'.symbolMap.count k : ℚ) / (sequence.length : ℚ)) ^
            args'.symbolMap.count k) := by
      simp only [SymbolMap.keys, List.map_map]
      apply List.map_congr_left
      intro e he
      simp only [Function.comp, count_of_mem _ hord e he, (hent e he).2.2.1]
    rw [h1, ← (hl.map _).prod_eq, List.map_map]
    rfl
  -- the inequality 1 ≤ 2 ^ total * width
  have hmain : (1 : ℚ) ≤
      (2 : ℚ) ^ pathLength args'.symbolMap.count 0 args'.treeRoot *
        (calculateInterval args').arithmeticCodeInterval := by
    have hprod : (2 : ℚ) ^ pathLength args'.symbolMap.count 0 args'.treeRoot *
        (calculateInterval args').arithmeticCodeInterval =
        (args'.treeRoot.leaves.map (fun e =>
          ((2 : ℚ) ^ e.2 * (args'.symbolMap.count e.1 : ℚ) / (sequence.length : ℚ)) ^
            args'.symbolMap.count e.1)).prod := by
      unfold pathLength
      rw [pow_list_sum, hwidth, ← List.prod_map_mul]
      congr 1
      apply List.map_congr_left
      intro e _
      rw [Nat.zero_add, pow_mul, ← mul_pow, mul_div_assoc]
    rw [hprod]
    have hg := gibbs args'.treeRoot.leaves args'.symbolMap.count hc1 hlne
      (kraft_real args'.treeRoot)
    rw [hN] at hg
    have hcast : (((args'.treeRoot.leaves.map (fun e =>
          ((2 : ℚ) ^ e.2 * (args'.symbolMap.count e.1 : ℚ) / (sequence.length : ℚ)) ^
            args'.symbolMap.count e.1)).prod : ℚ) : ℝ) =
        (args'.treeRoot.leaves.map (fun e =>
          ((2 : ℝ) ^ e.2 * (args'.symbolMap.count e.1 : ℝ) / (sequence.length : ℝ)) ^
            args'.symbolMap.count e.1)).prod := by
      rw [cast_list_prod]
      congr 1
      apply List.map_congr_left
      intro e _
      push_cast
      rfl
    rw [← hcast] at hg
    exact_mod_cast hg
  -- from the width to the bit count
  have hinv : 1 / (calculateInterval args').arithmeticCodeInterval ≤
      (2 : ℚ) ^ pathLength args'.symbolMap.count 0 args'.treeRoot := by
    rw [div_le_iff₀ hwpos]
    exact hmain
  have hb : 1 < 2 := by norm_num
  have hclog : Int.clog 2 (1 / (calculateInterval args').arithmeticCodeInterval) ≤
      ((pathLength args'.symbolMap.count 0 args'.treeRoot : ℕ) : ℤ) := by
    apply (Int.le_zpow_iff_clog_le hb (one_div_pos.mpr hwpos)).mp
    rw [zpow_natCast]
    exact_mod_cast hinv
  refine ⟨hinv, ?_⟩
  rw [hk]
  omega


/-! ## The binary64 reading: rounding -/

theorem searchExponent_mem (steps : Nat) : ∀ (lo hi : ℤ) (q : ℚ), lo ≤ hi →
    lo ≤ Binary64.searchExponent steps lo hi q ∧ Binary64.searchExponent steps lo hi q ≤ hi := by
  induction steps with
  | zero => intro lo hi q h; exact ⟨le_refl _, h⟩
  | succ n ih =>
    intro lo hi q h
    unfold Binary64.searchExponent
    simp only
    have h1 : lo ≤ (lo + hi) / 2 := by omega
    have h2 : (lo + hi) / 2 ≤ hi := by omega
    split
    · obtain ⟨a, b⟩ := ih ((lo + hi) / 2) hi q h2
      exact ⟨le_trans h1 a, b⟩
    · obtain ⟨a, b⟩ := ih lo ((lo + hi) / 2) q h1
      exact ⟨a, le_trans b h2⟩

theorem searchExponent_le (steps : Nat) : ∀ (lo hi : ℤ) (q : ℚ), (2 : ℚ) ^ lo ≤ q →
    (2 : ℚ) ^ Binary64.searchExponent steps lo hi q ≤ q := by
  induction steps with
  | zero => intro lo hi q h; exact h
  | succ n ih =>
    intro lo hi q h
    unfold Binary64.searchExponent
    simp only
    split
    · next hm => exact ih _ _ _ hm
    · exact ih _ _ _ h

theorem searchExponent_lt (steps : Nat) : ∀ (lo hi : ℤ) (q : ℚ), lo ≤ hi →
    hi - lo ≤ 2 ^ steps → q < (2 : ℚ) ^ hi →
    q < (2 : ℚ) ^ (Binary64.searchExponent steps lo hi q + 1) := by
  induction steps with
  | zero =>
    intro lo hi q h hs hq
    have : hi ≤ lo + 1 := by simpa using (by omega : hi ≤ lo + 2 ^ 0)
    exact lt_of_lt_of_le hq (zpow_le_zpow_right₀ (by norm_num) this)
  | succ n ih =>
    intro lo hi q h hs hq
    unfold Binary64.searchExponent
    simp only
    have h1 : lo ≤ (lo + hi) / 2 := by omega
    have h2 : (lo + hi) / 2 ≤ hi := by omega
    have hp : (2 : ℤ) ^ (n + 1) = 2 * 2 ^ n := by ring
    split
    · exact ih _ _ _ h2 (by omega) hq
    · next hm => exact ih _ _ _ h1 (by omega) (not_le.mp hm)

theorem searchExponent_lt_hi (steps : Nat) : ∀ (lo hi : ℤ) (q : ℚ), lo < hi →
    Binary64.searchExponent steps lo hi q < hi := by
  induction steps with
  | zero => intro lo hi q h; exact h
  | succ n ih =>
    intro lo hi q h
    unfold Binary64.searchExponent
    simp only
    have h1 : lo ≤ (lo + hi) / 2 := by omega
    have h2 : (lo + hi) / 2 < hi := by omega
    split
    · exact ih _ _ _ h2
    · exact lt_of_le_of_lt (searchExponent_mem n lo _ q h1).2 h2

/-- The exponent that `exponent` finds: it lies from -1022 to 1023, `2 ^ e ≤ q` unless `q` is
below `2 ^ (-1022)`, and `q < 2 ^ (e + 1)` unless `q` is `2 ^ 1024` or more. -/
theorem exponent_spec (q : ℚ) :
    -1022 ≤ Binary64.exponent q ∧ Binary64.exponent q ≤ 1023 ∧
    ((2 : ℚ) ^ (-1022 : ℤ) ≤ q → (2 : ℚ) ^ Binary64.exponent q ≤ q) ∧
    (q < (2 : ℚ) ^ (1024 : ℤ) → q < (2 : ℚ) ^ (Binary64.exponent q + 1)) := by
  unfold Binary64.exponent
  refine ⟨(searchExponent_mem 11 _ _ q (by norm_num)).1, ?_, ?_, ?_⟩
  · have := searchExponent_lt_hi 11 (-1022) 1024 q (by norm_num)
    omega
  · exact searchExponent_le 11 _ _ q
  · exact searchExponent_lt 11 _ _ q (by norm_num) (by norm_num)

/-- The integer that `nearestEven` picks is within one half of `q`, and is even when it is
exactly one half away. -/
theorem nearestEven_spec (q : ℚ) :
    |(Binary64.nearestEven q : ℚ) - q| ≤ 1 / 2 ∧
    (|(Binary64.nearestEven q : ℚ) - q| = 1 / 2 → Even (Binary64.nearestEven q)) := by
  unfold Binary64.nearestEven
  simp only
  have hf1 : (⌊q⌋ : ℚ) ≤ q := Int.floor_le q
  have hf2 : q < (⌊q⌋ : ℚ) + 1 := Int.lt_floor_add_one q
  split
  · next h =>
    have habs : |(⌊q⌋ : ℚ) - q| = q - ⌊q⌋ := by
      rw [abs_sub_comm]; exact abs_of_nonneg (by linarith)
    rw [habs]
    exact ⟨by linarith, fun h2 => by linarith⟩
  · next h =>
    split
    · next h2 =>
      have habs : |((⌊q⌋ + 1 : ℤ) : ℚ) - q| = ⌊q⌋ + 1 - q := by
        push_cast
        exact abs_of_nonneg (by linarith)
      rw [habs]
      exact ⟨by linarith, fun h3 => by linarith⟩
    · next h2 =>
      have heq : q - ⌊q⌋ = 1 / 2 := le_antisymm (not_lt.mp h2) (not_lt.mp h)
      split
      · next h3 =>
        have habs : |(⌊q⌋ : ℚ) - q| = q - ⌊q⌋ := by
          rw [abs_sub_comm]; exact abs_of_nonneg (by linarith)
        rw [habs]
        exact ⟨by linarith, fun _ => Int.even_iff.mpr h3⟩
      · next h3 =>
        have habs : |((⌊q⌋ + 1 : ℤ) : ℚ) - q| = ⌊q⌋ + 1 - q := by
          push_cast
          exact abs_of_nonneg (by linarith)
        rw [habs]
        refine ⟨by linarith, fun _ => ?_⟩
        rw [Int.even_add_one, Int.even_iff]
        exact h3

/-- The result of `roundNearest` on `q ≥ 0` is a multiple `n * 2 ^ (e - 52)` of the spacing in
the binade of `q`, with `n` of at most 53 binary digits or `n = 2 ^ 53`; it is within half a
spacing of `q`; and `n` is even when `q` lies halfway between two multiples.  There is a
result exactly when that multiple is below `2 ^ 1024`. -/
theorem roundNearest_spec (q : ℚ) (h0 : 0 ≤ q) :
    ∃ n : ℤ, 0 ≤ n ∧
      |(n : ℚ) * (2 : ℚ) ^ (Binary64.exponent q - 52) - q| ≤
        (2 : ℚ) ^ (Binary64.exponent q - 52) / 2 ∧
      (|(n : ℚ) * (2 : ℚ) ^ (Binary64.exponent q - 52) - q| =
        (2 : ℚ) ^ (Binary64.exponent q - 52) / 2 → Even n) ∧
      (q < (2 : ℚ) ^ (1024 : ℤ) → n ≤ 2 ^ 53) ∧
      ((2 : ℚ) ^ (-1022 : ℤ) ≤ q → 2 ^ 52 ≤ n) ∧
      Binary64.roundNearest q =
        if (n : ℚ) * (2 : ℚ) ^ (Binary64.exponent q - 52) < (2 : ℚ) ^ (1024 : ℤ) then
          some ((n : ℚ) * (2 : ℚ) ^ (Binary64.exponent q - 52))
        else none := by
  have hu : (0 : ℚ) < (2 : ℚ) ^ (Binary64.exponent q - 52) := zpow_pos (by norm_num) _
  obtain ⟨hn1, hn2⟩ := nearestEven_spec (q / (2 : ℚ) ^ (Binary64.exponent q - 52))
  have hscale : ∀ n : ℤ, |(n : ℚ) * (2 : ℚ) ^ (Binary64.exponent q - 52) - q| =
      |(n : ℚ) - q / (2 : ℚ) ^ (Binary64.exponent q - 52)| *
        (2 : ℚ) ^ (Binary64.exponent q - 52) := by
    intro n
    rw [← abs_of_pos hu, ← abs_mul, abs_of_pos hu]
    congr 1
    field_simp
  have hx0 : 0 ≤ q / (2 : ℚ) ^ (Binary64.exponent q - 52) := div_nonneg h0 (le_of_lt hu)
  have hlo := (abs_le.mp hn1).1
  have hhi := (abs_le.mp hn1).2
  refine ⟨Binary64.nearestEven (q / (2 : ℚ) ^ (Binary64.exponent q - 52)),
    ?_, ?_, ?_, ?_, ?_, ?_⟩
  · have h1 : (-1 : ℚ) < (Binary64.nearestEven (q / (2 : ℚ) ^ (Binary64.exponent q - 52)) : ℚ) := by
      linarith
    have h2 : (-1 : ℤ) < Binary64.nearestEven (q / (2 : ℚ) ^ (Binary64.exponent q - 52)) := by
      exact_mod_cast h1
    omega
  · rw [hscale]
    calc _ ≤ 1 / 2 * (2 : ℚ) ^ (Binary64.exponent q - 52) :=
          mul_le_mul_of_nonneg_right hn1 (le_of_lt hu)
      _ = _ := by ring
  · intro h
    rw [hscale] at h
    apply hn2
    have : |(Binary64.nearestEven (q / (2 : ℚ) ^ (Binary64.exponent q - 52)) : ℚ) -
        q / (2 : ℚ) ^ (Binary64.exponent q - 52)| * (2 : ℚ) ^ (Binary64.exponent q - 52) =
        1 / 2 * (2 : ℚ) ^ (Binary64.exponent q - 52) := by rw [h]; ring
    exact mul_right_cancel₀ (ne_of_gt hu) this
  · intro hq
    have hlt := (exponent_spec q).2.2.2 hq
    have hx : q / (2 : ℚ) ^ (Binary64.exponent q - 52) < 2 ^ 53 := by
      rw [div_lt_iff₀ hu]
      have : (2 : ℚ) ^ 53 * (2 : ℚ) ^ (Binary64.exponent q - 52) =
          (2 : ℚ) ^ (Binary64.exponent q + 1) := by
        rw [← zpow_natCast, ← zpow_add₀ (by norm_num : (2 : ℚ) ≠ 0)]
        congr 1
        push_cast
        ring
      rw [this]
      exact hlt
    have h1 : (Binary64.nearestEven (q / (2 : ℚ) ^ (Binary64.exponent q - 52)) : ℚ) <
        2 ^ 53 + 1 := by linarith
    have h2 : Binary64.nearestEven (q / (2 : ℚ) ^ (Binary64.exponent q - 52)) < 2 ^ 53 + 1 := by
      exact_mod_cast h1
    omega
  · intro hq
    have hle := (exponent_spec q).2.2.1 hq
    have hx : (2 : ℚ) ^ 52 ≤ q / (2 : ℚ) ^ (Binary64.exponent q - 52) := by
      rw [le_div_iff₀ hu]
      have : (2 : ℚ) ^ 52 * (2 : ℚ) ^ (Binary64.exponent q - 52) =
          (2 : ℚ) ^ Binary64.exponent q := by
        rw [← zpow_natCast, ← zpow_add₀ (by norm_num : (2 : ℚ) ≠ 0)]
        congr 1
        push_cast
        ring
      rw [this]
      exact hle
    have h1 : (2 : ℚ) ^ 52 - 1 <
        (Binary64.nearestEven (q / (2 : ℚ) ^ (Binary64.exponent q - 52)) : ℚ) := by linarith
    have h2 : (2 : ℤ) ^ 52 - 1 <
        Binary64.nearestEven (q / (2 : ℚ) ^ (Binary64.exponent q - 52)) := by
      exact_mod_cast h1
    omega
  · unfold Binary64.roundNearest
    simp only [abs_of_nonneg h0, not_lt.mpr h0, if_false]

/-- Values of `roundNearest`: 0.1 and 1/3 as the program holds them; an integer of 54 binary
digits halfway between two `double`s goes to the even one; half of the least positive
`double` goes to 0 and one and a half times it to twice it; the greatest finite `double` is
kept and what lies halfway from it to `2 ^ 1024`, or beyond, is an infinity. -/
theorem roundNearest_values :
    Binary64.roundNearest (1 / 10) = some (3602879701896397 / 2 ^ 55) ∧
    Binary64.roundNearest (1 / 3) = some (6004799503160661 / 2 ^ 54) ∧
    Binary64.roundNearest (2 ^ 53 + 1) = some (2 ^ 53) ∧
    Binary64.roundNearest (2 ^ 53 + 3) = some (2 ^ 53 + 4) ∧
    Binary64.roundNearest (1 / 2 ^ 1075) = some 0 ∧
    Binary64.roundNearest (3 / 2 ^ 1075) = some (1 / 2 ^ 1073) ∧
    Binary64.roundNearest (2 ^ 1024 - 2 ^ 971) = some (2 ^ 1024 - 2 ^ 971) ∧
    Binary64.roundNearest (2 ^ 1024 - 2 ^ 970) = none ∧
    Binary64.roundNearest 0 = some 0 := by
  decide!


/-! ## The binary64 reading: runs -/

theorem createTreeLoop64_sound (budget : Nat) : ∀ (pq pq' : List Symbol),
    Binary64.createTreeLoop budget pq = Except.ok pq' → Binary64.CreateTreeLoop pq pq' := by
  induction budget with
  | zero =>
    intro pq pq' h
    unfold Binary64.createTreeLoop at h
    by_cases hlen : pq.length = 1
    · simp only [hlen, ne_eq, not_true_eq_false, if_false, Except.ok.injEq] at h
      subst h
      exact Binary64.CreateTreeLoop.exit hlen
    · simp only [hlen, ne_eq, not_false_eq_true, if_true] at h
      cases h1 : pqTop pq with
      | none => simp [h1] at h
      | some left =>
        simp only [h1] at h
        cases h2 : pqTop (pqPop pq left) with
        | none => simp [h2] at h
        | some right =>
          simp only [h2] at h
          cases h3 : Binary64.mergeNode left right with
          | none => simp [h3] at h
          | some parent => simp [h3] at h
  | succ b ih =>
    intro pq pq' h
    unfold Binary64.createTreeLoop at h
    by_cases hlen : pq.length = 1
    · simp only [hlen, ne_eq, not_true_eq_false, if_false, Except.ok.injEq] at h
      subst h
      exact Binary64.CreateTreeLoop.exit hlen
    · simp only [hlen, ne_eq, not_false_eq_true, if_true] at h
      cases h1 : pqTop pq with
      | none => simp [h1] at h
      | some left =>
        simp only [h1] at h
        cases h2 : pqTop (pqPop pq left) with
        | none => simp [h2] at h
        | some right =>
          simp only [h2] at h
          cases h3 : Binary64.mergeNode left right with
          | none => simp [h3] at h
          | some parent =>
            simp only [h3] at h
            exact Binary64.CreateTreeLoop.iter hlen (pqTop_isTop _ _ h1) (pqTop_isTop _ _ h2) h3
              (ih _ _ h)

theorem createTree64_sound (args args' : EncodingArgs)
    (h : Binary64.createTree args = Except.ok args') : Binary64.CreateTree args args' := by
  unfold Binary64.createTree at h
  unfold Binary64.CreateTree
  by_cases hlen : args.pq.length = 1
  · simp only [hlen, if_true] at h ⊢
    cases ht : pqTop args.pq with
    | none => simp [ht] at h
    | some root =>
      simp only [ht, Except.ok.injEq] at h
      exact ⟨root, pqTop_isTop _ _ ht, h.symm⟩
  · simp only [hlen, if_false] at h ⊢
    cases hl : Binary64.createTreeLoop args.pq.length args.pq with
    | error e => simp [hl] at h
    | ok pq' =>
      simp only [hl] at h
      cases ht : pqTop pq' with
      | none => simp [ht] at h
      | some root =>
        simp only [ht, Except.ok.injEq] at h
        exact ⟨pq', root, createTreeLoop64_sound _ _ _ hl, pqTop_isTop _ _ ht, h.symm⟩

/-- What the executable `initHuffman` returns is a run. -/
theorem initHuffman64_sound (sequence : List Char) (args args' : EncodingArgs)
    (h : Binary64.initHuffman sequence args = Except.ok args') :
    Binary64.InitHuffman sequence args args' := by
  unfold Binary64.initHuffman at h
  cases hq : Binary64.initQueue sequence args with
  | none => simp [hq] at h
  | some a =>
    simp only [hq] at h
    exact ⟨a, hq, createTree64_sound _ _ h⟩

theorem mem_tops (pq : List Symbol) (x : Symbol) : x ∈ Binary64.tops pq ↔ IsTop pq x := by
  simp [Binary64.tops, IsTop, List.mem_filter]

theorem createTreeLoop64_length {pq pq' : List Symbol} (h : Binary64.CreateTreeLoop pq pq') :
    pq'.length = 1 := by
  induction h with
  | exit hlen => exact hlen
  | iter _ _ _ _ _ ih => exact ih

/-- The enumeration `createTreeRuns` misses no run of the loop. -/
theorem createTreeRuns_complete {pq pq' : List Symbol} (h : Binary64.CreateTreeLoop pq pq') :
    ∀ budget, pq.length ≤ budget + 1 → pq' ∈ Binary64.createTreeRuns budget pq := by
  induction h with
  | exit hlen =>
    intro budget _
    unfold Binary64.createTreeRuns
    simp [hlen]
  | @iter pq pq' left right parent hne hl hr hm _ ih =>
    intro budget hb
    have h1 : (pqPop pq left).length = pq.length - 1 := List.length_erase_of_mem hl.1
    have h2 : (pqPop (pqPop pq left) right).length = (pqPop pq left).length - 1 :=
      List.length_erase_of_mem hr.1
    have h3 : 0 < (pqPop pq left).length := List.length_pos_of_mem hr.1
    cases budget with
    | zero => omega
    | succ b =>
      unfold Binary64.createTreeRuns
      simp only [hne, ne_eq, not_false_eq_true, if_true, List.mem_flatMap]
      refine ⟨left, (mem_tops _ _).mpr hl, right, (mem_tops _ _).mpr hr, ?_⟩
      rw [hm]
      exact ih b (by simp only [pqPush, List.length_cons]; omega)

/-- After any run of `createTree` on a queue of at most `budget + 1` nodes, the root is the
one node of a queue that `createTreeRuns` lists. -/
theorem createTree64_root (args args' : EncodingArgs) (h : Binary64.CreateTree args args')
    (budget : Nat) (hb : args.pq.length ≤ budget + 1) :
    ∃ pq' ∈ Binary64.createTreeRuns budget args.pq, args'.treeRoot ∈ pq' := by
  unfold Binary64.CreateTree at h
  by_cases hlen : args.pq.length = 1
  · simp only [hlen, if_true] at h
    obtain ⟨root, htop, rfl⟩ := h
    exact ⟨args.pq, createTreeRuns_complete (Binary64.CreateTreeLoop.exit hlen) budget hb,
      htop.1⟩
  · simp only [hlen, if_false] at h
    obtain ⟨pq', root, hloop, htop, rfl⟩ := h
    exact ⟨pq', createTreeRuns_complete hloop budget hb, htop.1⟩

/-- A result that `toBool` reports as present is one. -/
theorem except_ok_of_toBool {ε α : Type} (x : Except ε α) (h : x.toBool = true) :
    ∃ a, x = Except.ok a := by
  cases x with
  | error e => simp [Except.toBool] at h
  | ok a => exact ⟨a, rfl⟩

/-- In a tree whose nodes hold the sum of the leaves below them, so does the root. -/
theorem sumsLeaves_root (t : Symbol) (h : t.SumsLeaves) : t.p = t.leafP := by
  cases t with
  | null => rfl
  | mk s p l r =>
    unfold Symbol.SumsLeaves at h
    unfold Symbol.leafP
    by_cases hl : l = Symbol.null ∧ r = Symbol.null
    · simp [hl, Symbol.p]
    · simp only [hl, if_false]
      exact h.1 hl

/-- A sequence on which the executable `initHuffman` returns has a run. -/
theorem run64_exists (sequence : List Char)
    (h : (Binary64.initHuffman sequence {}).toBool = true) :
    ∃ args', Binary64.InitHuffman sequence {} args' := by
  obtain ⟨a, ha⟩ := except_ok_of_toBool _ h
  exact ⟨a, initHuffman64_sound _ _ _ ha⟩

/-- C1: for every non-empty sequence `initHuffman` builds a tree; after any run the leaves of
the tree rooted at `treeRoot` carry exactly the keys of `symbolMap`, each once, and these keys
are the distinct characters of the sequence; and the total that `huffmanRatio` computes on
that tree (the sum over the leaves of depth times count) is at most the total it computes on
any tree whose leaves carry exactly those keys.  The built tree is thus a tree of the class
over which it is minimal. -/
theorem huffman_tree_optimal (sequence : List Char) (hne : sequence ≠ []) :
    (∃ args', InitHuffman sequence {} args') ∧
    ∀ args', InitHuffman sequence {} args' →
      args'.treeRoot ≠ Symbol.null ∧
      (args'.treeRoot.leaves.map Prod.fst).Perm args'.symbolMap.keys ∧
      (∀ s, s ∈ args'.symbolMap.keys ↔ ∃ c ∈ sequence, s = "".push c) ∧
      ∀ (t : Symbol) (codes codes' : List Nat),
        (∀ s, s ∈ t.leaves.map Prod.fst ↔ s ∈ args'.symbolMap.keys) →
        (huffmanRatio args' args'.treeRoot codes 0 0).2.2 ≤
          (huffmanRatio args' t codes' 0 0).2.2 := by
  refine ⟨(initHuffman_total sequence hne).imp (fun _ h => h.2), ?_⟩
  intro args' hrun
  obtain ⟨hm, hnull, hperm, hopt⟩ :=
    run_facts sequence hne (initQueue sequence {}).pq (List.Perm.refl _) args' hrun
  have hord : args'.symbolMap.Ordered := hm ▸ initQueue_ordered sequence
  refine ⟨hnull, hperm, ?_, ?_⟩
  · intro s
    rw [hm, initQueue_symbolMap, keys_withProbability]
    exact (countSymbols_facts sequence).1 s
  · intro t codes codes' ht
    obtain ⟨L, a1, a2, a3⟩ := tree_cover args'.symbolMap hord t (fun k hk => (ht k).mpr hk)
    rw [(huffmanRatio_spec _ _ _ _ _).2, (huffmanRatio_spec _ _ _ _ _).2, Nat.zero_add,
      Nat.zero_add]
    exact le_trans (hopt _ _ a1 a2) a3

theorem huffman_tree_optimal_witness :
    (∃ args', InitHuffman ['a', 'b', 'a'] {} args') ∧
    ∀ args', InitHuffman ['a', 'b', 'a'] {} args' →
      args'.treeRoot ≠ Symbol.null ∧
      (args'.treeRoot.leaves.map Prod.fst).Perm args'.symbolMap.keys ∧
      (∀ s, s ∈ args'.symbolMap.keys ↔ ∃ c ∈ ['a', 'b', 'a'], s = "".push c) ∧
      ∀ (t : Symbol) (codes codes' : List Nat),
        (∀ s, s ∈ t.leaves.map Prod.fst ↔ s ∈ args'.symbolMap.keys) →
        (huffmanRatio args' args'.treeRoot codes 0 0).2.2 ≤
          (huffmanRatio args' t codes' 0 0).2.2 :=
  huffman_tree_optimal ['a', 'b', 'a'] (by decide)

/-- C2: for every non-empty sequence `initHuffman` returns, and after any run every entry of
`symbolMap` has probability count / length, every probability lies in (0, 1] and the
probabilities sum to 1. -/
theorem initHuffman_probabilities (sequence : List Char) (hne : sequence ≠ []) :
    (∃ args', InitHuffman sequence {} args') ∧
    ∀ args', InitHuffman sequence {} args' →
      (∀ e ∈ args'.symbolMap,
        e.2.2 = (e.2.1 : ℚ) / (sequence.length : ℚ) ∧ 0 < e.2.2 ∧ e.2.2 ≤ 1) ∧
      (args'.symbolMap.map (fun e => e.2.2)).sum = 1 := by
  refine ⟨(initHuffman_total sequence hne).imp (fun _ h => h.2), ?_⟩
  intro args' hrun
  obtain ⟨_, _, hmap, _, _⟩ := createTree_run _ _ hrun
  rw [hmap, initQueue_symbolMap]
  have hn : 0 < sequence.length := List.length_pos.mpr hne
  have hnq : (0 : ℚ) < sequence.length := by exact_mod_cast hn
  obtain ⟨_, _, _, hent, hsum⟩ := countSymbols_facts sequence
  constructor
  · intro e he
    obtain ⟨e0, he0, rfl⟩ := List.mem_map.mp he
    obtain ⟨c, _, _, hc, hpos⟩ := hent e0 he0
    have hle : e0.2.1 ≤ sequence.length := by
      rw [hc]
      exact List.count_le_length _ _
    have h1 : (withProbability sequence.length e0).2.2 =
        (e0.2.1 : ℚ) / (sequence.length : ℚ) := rfl
    have h2 : (withProbability sequence.length e0).2.1 = e0.2.1 := rfl
    rw [h1, h2]
    refine ⟨rfl, ?_, ?_⟩
    · apply div_pos _ hnq
      exact_mod_cast hpos
    · rw [div_le_one hnq]
      exact_mod_cast hle
  · rw [List.map_map]
    have : ((fun e : Entry => e.2.2) ∘ withProbability sequence.length) =
        fun e => ((e.2.1 : ℚ) / (sequence.length : ℚ)) := rfl
    rw [this, sum_map_div, hsum]
    exact div_self (ne_of_gt hnq)

theorem initHuffman_probabilities_witness :
    (∃ args', InitHuffman ['a', 'b', 'a'] {} args') ∧
    ∀ args', InitHuffman ['a', 'b', 'a'] {} args' →
      (∀ e ∈ args'.symbolMap,
        e.2.2 = (e.2.1 : ℚ) / ((['a', 'b', 'a'] : List Char).length : ℚ) ∧
          0 < e.2.2 ∧ e.2.2 ≤ 1) ∧
      (args'.symbolMap.map (fun e => e.2.2)).sum = 1 :=
  initHuffman_probabilities ['a', 'b', 'a'] (by decide)

/-- C3: after the counting loop of `initHuffman` the keys of `symbolMap` are exactly the
one-character strings of the characters of the sequence, without repetition; every character
of the sequence has an entry whose count is its number of occurrences; every entry belongs to
a character of the sequence, holds its number of occurrences and that is at least 1; and the
counts sum to the length of the sequence. -/
theorem countSymbols_spec (sequence : List Char) :
    (∀ s, s ∈ (countSymbols sequence []).keys ↔ ∃ c ∈ sequence, s = "".push c) ∧
    (countSymbols sequence []).keys.Nodup ∧
    (∀ c ∈ sequence, ∃ q, ("".push c, (sequence.count c, q)) ∈ countSymbols sequence []) ∧
    (∀ e ∈ countSymbols sequence [], ∃ c ∈ sequence, e.1 = "".push c ∧
      e.2.1 = sequence.count c ∧ 1 ≤ e.2.1) ∧
    ((countSymbols sequence []).map (fun e => e.2.1)).sum = sequence.length :=
  countSymbols_facts sequence

/-- C4: for every sequence with at least two distinct characters `initHuffman` returns, and
the tree rooted at `treeRoot` after any run is a full binary tree: every node has no child or
two children, the number of leaves is `symbolMap.size()` and the number of nodes with children
is `symbolMap.size() - 1`. -/
theorem huffman_tree_full (sequence : List Char) (h2 : 2 ≤ sequence.dedup.length) :
    (∃ args', InitHuffman sequence {} args') ∧
    ∀ args', InitHuffman sequence {} args' →
      args'.treeRoot ≠ Symbol.null ∧ args'.treeRoot.Full ∧
      args'.treeRoot.leaves.length = args'.symbolMap.size ∧
      args'.treeRoot.internalCount = args'.symbolMap.size - 1 := by
  have hne : sequence ≠ [] := by
    intro h
    rw [h] at h2
    simp at h2
  exact ⟨(initHuffman_total sequence hne).imp (fun _ h => h.2),
    fun args' hrun => run_full sequence hne args' hrun⟩

theorem huffman_tree_full_witness :
    (∃ args', InitHuffman ['a', 'b', 'a'] {} args') ∧
    ∀ args', InitHuffman ['a', 'b', 'a'] {} args' →
      args'.treeRoot ≠ Symbol.null ∧ args'.treeRoot.Full ∧
      args'.treeRoot.leaves.length = args'.symbolMap.size ∧
      args'.treeRoot.internalCount = args'.symbolMap.size - 1 :=
  huffman_tree_full ['a', 'b', 'a'] (by decide)

/-- C5: for the frequency table of a sequence, whatever the order in which the leaves are
pushed into the queue and whichever minimum `top()` returns among ties, `createTree` builds a
tree with the same total weighted path length, the total that `huffmanResults` computes with
`huffmanRatio`. -/
theorem huffman_total_tie_break_invariant (sequence : List Char) (hne : sequence ≠ [])
    (pq₁ pq₂ : List Symbol) (h₁ : pq₁.Perm (initQueue sequence {}).pq)
    (h₂ : pq₂.Perm (initQueue sequence {}).pq) (args₁ args₂ : EncodingArgs)
    (hrun₁ : CreateTree { initQueue sequence {} with pq := pq₁ } args₁)
    (hrun₂ : CreateTree { initQueue sequence {} with pq := pq₂ } args₂) :
    (huffmanResults sequence args₁).statistical = (huffmanResults sequence args₂).statistical :=
  run_unique sequence hne pq₁ pq₂ h₁ h₂ args₁ args₂ hrun₁ hrun₂

theorem huffman_total_tie_break_invariant_witness :
    (huffmanResults ['a', 'b', 'c']
      { pq := [mergeNode (leafOf 3 ("a", (1, 0)))
          (mergeNode (leafOf 3 ("c", (1, 0))) (leafOf 3 ("b", (1, 0))))],
        symbolMap := [("a", (1, 1 / 3)), ("b", (1, 1 / 3)), ("c", (1, 1 / 3))],
        treeRoot := mergeNode (leafOf 3 ("a", (1, 0)))
          (mergeNode (leafOf 3 ("c", (1, 0))) (leafOf 3 ("b", (1, 0)))) }).statistical =
    (huffmanResults ['a', 'b', 'c']
      { pq := [mergeNode (leafOf 3 ("c", (1, 0)))
          (mergeNode (leafOf 3 ("a", (1, 0))) (leafOf 3 ("b", (1, 0))))],
        symbolMap := [("a", (1, 1 / 3)), ("b", (1, 1 / 3)), ("c", (1, 1 / 3))],
        treeRoot := mergeNode (leafOf 3 ("c", (1, 0)))
          (mergeNode (leafOf 3 ("a", (1, 0))) (leafOf 3 ("b", (1, 0)))) }).statistical :=
  huffman_total_tie_break_invariant ['a', 'b', 'c'] (by decide)
    [leafOf 3 ("c", (1, 0)), leafOf 3 ("b", (1, 0)), leafOf 3 ("a", (1, 0))]
    [leafOf 3 ("a", (1, 0)), leafOf 3 ("b", (1, 0)), leafOf 3 ("c", (1, 0))]
    (by decide!) (by decide!) _ _
    (createTree_sound _ _ (by with_unfolding_all rfl))
    (createTree_sound _ _ (by with_unfolding_all rfl))

/-- C6: for every `n ≥ 1`, `bitsPerSymbol n` is the least `b` with `2 ^ b ≥ n`; and
`bitsPerSymbol 1 = 0`. -/
theorem bitsPerSymbol_spec (n : Nat) (hn : 1 ≤ n) :
    n ≤ 2 ^ bitsPerSymbol n ∧ (∀ b, n ≤ 2 ^ b → bitsPerSymbol n ≤ b) ∧ bitsPerSymbol 1 = 0 :=
  ⟨bitsPerSymbol_le n, fun b hb => bitsPerSymbol_least n b hn hb,
    Nat.le_zero.mp (bitsPerSymbol_least 1 0 (le_refl 1) (le_refl 1))⟩

theorem bitsPerSymbol_spec_witness :
    5 ≤ 2 ^ bitsPerSymbol 5 ∧ (∀ b, 5 ≤ 2 ^ b → bitsPerSymbol 5 ≤ b) ∧ bitsPerSymbol 1 = 0 :=
  bitsPerSymbol_spec 5 (by decide)

/-- C7: for the sequence "AAAABBBCCD" `initHuffman` returns, and after any run the counts are
A=4, B=3, C=2, D=1, the alphabet size is 4, `bitsPerSymbol` gives 2, the baseline total is 20,
the total that `huffmanResults` computes with `huffmanRatio` is 19 and the ratio it reports
is 20/19. -/
theorem example_huffman_ratio :
    (∃ args', InitHuffman "AAAABBBCCD".toList {} args') ∧
    ∀ args', InitHuffman "AAAABBBCCD".toList {} args' →
      args'.symbolMap.map (fun e => (e.1, e.2.1)) = [("A", 4), ("B", 3), ("C", 2), ("D", 1)] ∧
      args'.symbolMap.size = 4 ∧
      bitsPerSymbol args'.symbolMap.size = 2 ∧
      (huffmanResults "AAAABBBCCD".toList
        (getNumberOfBits (calculateInterval args'))).nonStatistical = 20 ∧
      (huffmanResults "AAAABBBCCD".toList (getNumberOfBits (calculateInterval args'))).statistical
        = 19 ∧
      (huffmanResults "AAAABBBCCD".toList (getNumberOfBits (calculateInterval args'))).ro
        = Ratio.finite (20 / 19) := by
  have hne : "AAAABBBCCD".toList ≠ [] := by decide
  obtain ⟨a0, h0, hrun0⟩ := initHuffman_total "AAAABBBCCD".toList hne
  refine ⟨⟨a0, hrun0⟩, ?_⟩
  intro args' hrun
  obtain ⟨_, _, hmap, _, _⟩ := createTree_run _ _ hrun
  have hm : (initQueue "AAAABBBCCD".toList {}).symbolMap =
      [("A", (4, 2 / 5)), ("B", (3, 3 / 10)), ("C", (2, 1 / 5)), ("D", (1, 1 / 10))] := by
    decide!
  rw [hm] at hmap
  have hstat : (huffmanResults "AAAABBBCCD".toList args').statistical = 19 := by
    rw [run_unique "AAAABBBCCD".toList hne _ _ (List.Perm.refl _) (List.Perm.refl _) args' a0
      hrun hrun0]
    have hd : (match initHuffman "AAAABBBCCD".toList {} with
        | Except.ok a => (huffmanResults "AAAABBBCCD".toList a).statistical
        | Except.error _ => 0) = 19 := by decide!
    rw [h0] at hd
    exact hd
  have hsize : args'.symbolMap.size = 4 := by rw [hmap]; rfl
  have hbits : bitsPerSymbol 4 = 2 := by decide!
  have hnon : nonStatistical "AAAABBBCCD".toList (getNumberOfBits (calculateInterval args'))
      = 20 := by
    show bitsPerSymbol args'.symbolMap.size * "AAAABBBCCD".toList.length = 20
    rw [hsize, hbits]
    rfl
  have hst2 := (pipeline_statistical "AAAABBBCCD".toList args').trans hstat
  refine ⟨by rw [hmap]; rfl, hsize, by rw [hsize, hbits],
    (pipeline_report _ hne args' hrun).1.trans hnon, hst2, ?_⟩
  have hr := (pipeline_report _ hne args' hrun).2
  rw [hr, hnon, hst2]
  simp [ratio]

/-- C8, as the claim states it, fails: for the sequence "AAAABBBCCD" `initHuffman` returns,
and after any run the interval width is not 2.7648e-5 (it is ten times smaller), the bit count
`k` is not 17 and the reported arithmetic ratio is not 20/17. -/
theorem example_arithmetic_not_17 :
    (∃ args', InitHuffman "AAAABBBCCD".toList {} args') ∧
    ∀ args', InitHuffman "AAAABBBCCD".toList {} args' →
      (calculateInterval args').arithmeticCodeInterval ≠ 27648 / 10 ^ 9 ∧
      (getNumberOfBits (calculateInterval args')).k ≠ 17 ∧
      arithmeticResults "AAAABBBCCD".toList
        (huffmanResults "AAAABBBCCD".toList (getNumberOfBits (calculateInterval args'))).args ≠
          Ratio.finite (20 / 17) := by
  refine ⟨(initHuffman_total _ (by decide)).imp (fun _ h => h.2), ?_⟩
  intro args' hrun
  obtain ⟨_, h2, h3, h4⟩ := example_arithmetic args' hrun
  rw [h2, h3, h4]
  refine ⟨by norm_num, by decide, ?_⟩
  intro h
  injection h with h
  norm_num at h

/-- C8, amended: for the sequence "AAAABBBCCD" `initHuffman` returns, and after any run
`calculateInterval` yields the width 0.4^4 x 0.3^3 x 0.2^2 x 0.1^1, which is 2.7648e-6,
`getNumberOfBits` yields `k` = 20 and `arithmeticResults` reports the ratio 20/20 = 1. -/
theorem example_arithmetic_ratio :
    (∃ args', InitHuffman "AAAABBBCCD".toList {} args') ∧
    ∀ args', InitHuffman "AAAABBBCCD".toList {} args' →
      (calculateInterval args').arithmeticCodeInterval =
        (2 / 5) ^ 4 * (3 / 10) ^ 3 * (1 / 5) ^ 2 * (1 / 10) ^ 1 ∧
      (calculateInterval args').arithmeticCodeInterval = 27648 / 10 ^ 10 ∧
      (getNumberOfBits (calculateInterval args')).k = 20 ∧
      arithmeticResults "AAAABBBCCD".toList
        (huffmanResults "AAAABBBCCD".toList (getNumberOfBits (calculateInterval args'))).args =
          Ratio.finite 1 :=
  ⟨(initHuffman_total _ (by decide)).imp (fun _ h => h.2),
    fun args' hrun => example_arithmetic args' hrun⟩

/-- C9, as the claim states it, fails: for the sequence "AAAA" `initHuffman` returns, and after
any run `huffmanResults` signals no error but returns the ratio NaN. -/
theorem single_symbol_returns_nan :
    (∃ args', InitHuffman "AAAA".toList {} args') ∧
    ∀ args', InitHuffman "AAAA".toList {} args' →
      (huffmanResults "AAAA".toList (getNumberOfBits (calculateInterval args'))).ro =
        Ratio.nan :=
  ⟨(initHuffman_total _ (by decide)).imp (fun _ h => h.2),
    fun args' hrun => (single_symbol _ (by decide) args' hrun).2.2⟩

/-- C9, amended: for every sequence with exactly one distinct character `initHuffman` returns,
and after any run the baseline bits per symbol is 0, the Huffman total that `huffmanResults`
computes is 0, and `huffmanResults` divides 0 by 0 without a guard: the ratio it reports is
NaN. -/
theorem single_symbol_ratio (sequence : List Char) (h1 : sequence.dedup.length = 1) :
    (∃ args', InitHuffman sequence {} args') ∧
    ∀ args', InitHuffman sequence {} args' →
      bitsPerSymbol args'.symbolMap.size = 0 ∧
      (huffmanResults sequence (getNumberOfBits (calculateInterval args'))).statistical = 0 ∧
      (huffmanResults sequence (getNumberOfBits (calculateInterval args'))).ro =
        Ratio.nan := by
  have hne : sequence ≠ [] := by
    intro h
    rw [h] at h1
    simp at h1
  exact ⟨(initHuffman_total _ hne).imp (fun _ h => h.2),
    fun args' hrun => single_symbol sequence h1 args' hrun⟩

theorem single_symbol_ratio_witness :
    (∃ args', InitHuffman "AAAA".toList {} args') ∧
    ∀ args', InitHuffman "AAAA".toList {} args' →
      bitsPerSymbol args'.symbolMap.size = 0 ∧
      (huffmanResults "AAAA".toList (getNumberOfBits (calculateInterval args'))).statistical = 0 ∧
      (huffmanResults "AAAA".toList (getNumberOfBits (calculateInterval args'))).ro =
        Ratio.nan :=
  single_symbol_ratio "AAAA".toList (by decide)

/-- C10: at the empty sequence the code has the defect the claim excludes.  `initHuffman`
makes no check of its input: both of its loops run zero times, so `symbolMap` and the queue
are empty when it calls `createTree`; there `size()` is 0, not 1, and the loop calls `top()`
on the empty queue, which no element can answer.  The executable model stops with
`Fault.topOfEmptyQueue`, and `initHuffman` has no run that returns. -/
theorem empty_sequence_reaches_createTree :
    (initQueue [] {}).symbolMap = [] ∧ (initQueue [] {}).pq = [] ∧
    (initQueue [] {}).pq.length ≠ 1 ∧
    (∀ x, ¬ IsTop (initQueue [] {}).pq x) ∧
    createTree (initQueue [] {}) = Except.error Fault.topOfEmptyQueue ∧
    initHuffman [] {} = Except.error Fault.topOfEmptyQueue ∧
    ∀ args', ¬ InitHuffman [] {} args' :=
  ⟨rfl, rfl, by decide, fun _ h => absurd h.1 (List.not_mem_nil _), rfl, rfl,
    no_run_on_empty⟩
/-- C13: for every tree and every map, `huffmanRatio` called with limit 0 and sum 0 leaves in
`sum` the sum over the leaves of the tree of depth times the count stored in the map under the
symbol of the leaf (0 when the map has no such key); for a tree that is a single leaf the
result is 0. -/
theorem huffmanRatio_sum (args : EncodingArgs) (root : Symbol) (codes : List Nat) :
    (huffmanRatio args root codes 0 0).2.2 =
      (root.leaves.map
        (fun e => e.2 * ((args.symbolMap.find e.1).map Prod.fst).getD 0)).sum ∧
    ∀ (symb : String) (p : ℚ),
      (huffmanRatio args (Symbol.mk symb p Symbol.null Symbol.null) codes 0 0).2.2 = 0 := by
  constructor
  · rw [(huffmanRatio_spec root args codes 0 0).2, Nat.zero_add]
    unfold pathLength
    congr 1
    apply List.map_congr_left
    intro e _
    rw [Nat.zero_add, SymbolMap.count_eq]
  · intro symb p
    rw [(huffmanRatio_spec _ args codes 0 0).2, pathLength_leaf]
    omega

/-- C14, as the claim states it, fails in the arithmetic of the program: for the sequence
"aaaabbbccddd" `initHuffman` returns, and in the tree of any run, whichever of the two nodes
of weight 0.25 `top()` returns first, the `p` of the root is `1 - 2 ^ (-53)`: it is not 1, and
it is not the sum of the `p` of the leaves either, which is `1 - 2 ^ (-55)`.  The quotients
4/12 and 2/12 and the sums of `createTree` are rounded. -/
theorem root_weight_rounded :
    (∃ args', Binary64.InitHuffman "aaaabbbccddd".toList {} args') ∧
    ∀ args', Binary64.InitHuffman "aaaabbbccddd".toList {} args' →
      args'.treeRoot.p = 1 - 1 / 2 ^ 53 ∧ args'.treeRoot.p ≠ 1 ∧
      args'.treeRoot.leafP = 1 - 1 / 2 ^ 55 ∧ ¬ args'.treeRoot.SumsLeaves := by
  refine ⟨run64_exists _ (by decide!), ?_⟩
  intro args' hrun
  obtain ⟨a0, hq, hct⟩ := hrun
  have key : ∀ a ∈ Binary64.initQueue "aaaabbbccddd".toList {}, a.pq.length ≤ 3 + 1 ∧
      ∀ pq' ∈ Binary64.createTreeRuns 3 a.pq, ∀ root ∈ pq',
        root.p = 1 - 1 / 2 ^ 53 ∧ root.leafP = 1 - 1 / 2 ^ 55 := by
    decide!
  obtain ⟨hlen, hall⟩ := key a0 hq
  obtain ⟨pq', hpq', hroot⟩ := createTree64_root _ _ hct 3 hlen
  obtain ⟨hp, hleaf⟩ := hall pq' hpq' _ hroot
  refine ⟨hp, ?_, hleaf, ?_⟩
  · rw [hp]
    norm_num
  · intro hs
    have := sumsLeaves_root _ hs
    rw [hp, hleaf] at this
    norm_num at this

/-- C14, amended: with the probabilities and their sums taken as exact rational numbers, for
every non-empty sequence `initHuffman` returns, and in the tree of any run every node that has
children holds in `p` the sum of the `p` of the leaves of its subtree, and the sum of the `p`
of its two children; the leaves carry the symbols of `symbolMap` with their probabilities; so
the `p` of the root is the sum of all probabilities, which is 1. -/
theorem tree_weights (sequence : List Char) (hne : sequence ≠ []) :
    (∃ args', InitHuffman sequence {} args') ∧
    ∀ args', InitHuffman sequence {} args' →
      args'.treeRoot.SumsLeaves ∧ args'.treeRoot.SumsChildren ∧
      args'.treeRoot.leafNodes.Perm (args'.symbolMap.map (fun e => (e.1, e.2.2))) ∧
      args'.treeRoot.p = (args'.symbolMap.map (fun e => e.2.2)).sum ∧
      args'.treeRoot.p = 1 :=
  ⟨(initHuffman_total sequence hne).imp (fun _ h => h.2),
    fun args' hrun => run_weights sequence hne args' hrun⟩

theorem tree_weights_witness :
    (∃ args', InitHuffman ['a', 'b', 'a'] {} args') ∧
    ∀ args', InitHuffman ['a', 'b', 'a'] {} args' →
      args'.treeRoot.SumsLeaves ∧ args'.treeRoot.SumsChildren ∧
      args'.treeRoot.leafNodes.Perm (args'.symbolMap.map (fun e => (e.1, e.2.2))) ∧
      args'.treeRoot.p = (args'.symbolMap.map (fun e => e.2.2)).sum ∧
      args'.treeRoot.p = 1 :=
  tree_weights ['a', 'b', 'a'] (by decide)

/-- C15: on a queue of `n ≥ 1` nodes `createTree` returns; its loop never runs through its
body more than `n - 1` times (after `k` iterations the queue holds `n - k` nodes), it can
always go on while the queue does not hold exactly one node, and every run ends after exactly
`n - 1` iterations with one node in the queue, which is `treeRoot`.  When `n = 1` the queue is
left as it is, `treeRoot` is its only node, and that is a tree of height 0 when the node is a
leaf. -/
theorem createTree_merge_count (args : EncodingArgs) (hn : 1 ≤ args.pq.length) :
    (∃ args', createTree args = Except.ok args' ∧ CreateTree args args') ∧
    (∀ k pq', CreateTreeIters args.pq k pq' → pq'.length + k = args.pq.length) ∧
    (∀ k pq', CreateTreeIters args.pq k pq' → pq'.length ≠ 1 →
      ∃ left right, IsTop pq' left ∧ IsTop (pqPop pq' left) right) ∧
    (∀ args', CreateTree args args' →
      CreateTreeIters args.pq (args.pq.length - 1) args'.pq ∧
      args'.pq = [args'.treeRoot]) ∧
    (∀ x, args.pq = [x] → ∀ args', CreateTree args args' →
      args' = { args with treeRoot := x }) ∧
    (∀ s p, args.pq = [Symbol.mk s p Symbol.null Symbol.null] →
      ∀ args', CreateTree args args' → args'.treeRoot.height = 0) := by
  obtain ⟨h1, h2, h3⟩ := createTree_iterations args hn
  have hne : args.pq ≠ [] := List.length_pos.mp hn
  have single : ∀ x, args.pq = [x] → ∀ args', CreateTree args args' →
      args' = { args with treeRoot := x } := by
    intro x hx args' hrun
    have hlen : args.pq.length = 1 := by rw [hx]; rfl
    unfold CreateTree at hrun
    simp only [hlen, if_true] at hrun
    obtain ⟨root, htop, rfl⟩ := hrun
    have hroot : root = x := by
      have := htop.1
      rw [hx, List.mem_singleton] at this
      exact this
    rw [hroot]
  refine ⟨(createTree_total args hne).imp (fun a h => ⟨h, createTree_sound _ _ h⟩),
    h1, h2, h3, single, ?_⟩
  intro s p hx args' hrun
  rw [single _ hx args' hrun]
  simp [Symbol.height]

theorem createTree_merge_count_witness :
    (∃ args', createTree { pq := [leafOf 2 ("a", (1, 0)), leafOf 2 ("b", (1, 0))] } =
        Except.ok args' ∧
      CreateTree { pq := [leafOf 2 ("a", (1, 0)), leafOf 2 ("b", (1, 0))] } args') ∧
    (∀ k pq', CreateTreeIters [leafOf 2 ("a", (1, 0)), leafOf 2 ("b", (1, 0))] k pq' →
      pq'.length + k = 2) ∧
    (∀ k pq', CreateTreeIters [leafOf 2 ("a", (1, 0)), leafOf 2 ("b", (1, 0))] k pq' →
      pq'.length ≠ 1 → ∃ left right, IsTop pq' left ∧ IsTop (pqPop pq' left) right) ∧
    (∀ args', CreateTree { pq := [leafOf 2 ("a", (1, 0)), leafOf 2 ("b", (1, 0))] } args' →
      CreateTreeIters [leafOf 2 ("a", (1, 0)), leafOf 2 ("b", (1, 0))] 1 args'.pq ∧
      args'.pq = [args'.treeRoot]) ∧
    (∀ x, [leafOf 2 ("a", (1, 0)), leafOf 2 ("b", (1, 0))] = [x] →
      ∀ args', CreateTree { pq := [leafOf 2 ("a", (1, 0)), leafOf 2 ("b", (1, 0))] } args' →
      args' = { pq := [leafOf 2 ("a", (1, 0)), leafOf 2 ("b", (1, 0))], treeRoot := x }) ∧
    (∀ s p, [leafOf 2 ("a", (1, 0)), leafOf 2 ("b", (1, 0))] =
        [Symbol.mk s p Symbol.null Symbol.null] →
      ∀ args', CreateTree { pq := [leafOf 2 ("a", (1, 0)), leafOf 2 ("b", (1, 0))] } args' →
      args'.treeRoot.height = 0) :=
  createTree_merge_count { pq := [leafOf 2 ("a", (1, 0)), leafOf 2 ("b", (1, 0))] }
    (by decide)

/-- C16: for every sequence with at least two distinct characters `initHuffman` returns, and
after any run the Huffman total that `huffmanResults` computes is at least 1 and at most the
baseline `bitsPerSymbol(size) * length`, so the ratio that `huffmanResults` reports is a
finite number that is at least 1. -/
theorem huffman_ratio_at_least_one (sequence : List Char) (h2 : 2 ≤ sequence.dedup.length) :
    (∃ args', InitHuffman sequence {} args') ∧
    ∀ args', InitHuffman sequence {} args' →
      1 ≤ (huffmanResults sequence (getNumberOfBits (calculateInterval args'))).statistical ∧
      (huffmanResults sequence (getNumberOfBits (calculateInterval args'))).statistical ≤
        (huffmanResults sequence (getNumberOfBits (calculateInterval args'))).nonStatistical ∧
      (huffmanResults sequence (getNumberOfBits (calculateInterval args'))).nonStatistical =
        bitsPerSymbol args'.symbolMap.size * sequence.length ∧
      ∃ q : ℚ, (huffmanResults sequence (getNumberOfBits (calculateInterval args'))).ro =
        Ratio.finite q ∧ 1 ≤ q := by
  have hne : sequence ≠ [] := by
    intro h
    rw [h] at h2
    simp at h2
  refine ⟨(initHuffman_total sequence hne).imp (fun _ h => h.2), ?_⟩
  intro args' hrun
  obtain ⟨hlow, hhigh⟩ := run_total_bounds sequence h2 args' hrun
  obtain ⟨hnon, hro⟩ := pipeline_report sequence hne args' hrun
  have hstat : (huffmanResults sequence (getNumberOfBits (calculateInterval args'))).statistical
      = pathLength args'.symbolMap.count 0 args'.treeRoot := by
    rw [pipeline_statistical, statistical_eq]
  have hnon' : (huffmanResults sequence
      (getNumberOfBits (calculateInterval args'))).nonStatistical =
      bitsPerSymbol args'.symbolMap.size * sequence.length := hnon
  rw [hstat, hnon']
  refine ⟨hlow, hhigh, rfl, ?_⟩
  rw [hro, hstat]
  have hnon2 : nonStatistical sequence (getNumberOfBits (calculateInterval args')) =
      bitsPerSymbol args'.symbolMap.size * sequence.length := rfl
  rw [hnon2]
  have hpos : (0 : ℚ) < (pathLength args'.symbolMap.count 0 args'.treeRoot : ℕ) := by
    exact_mod_cast hlow
  refine ⟨((bitsPerSymbol args'.symbolMap.size * sequence.length : ℕ) : ℚ) /
    ((pathLength args'.symbolMap.count 0 args'.treeRoot : ℕ) : ℚ), ?_, ?_⟩
  · unfold ratio
    have hne0 : ((pathLength args'.symbolMap.count 0 args'.treeRoot : ℕ) : ℤ) ≠ 0 := by
      have : 0 < pathLength args'.symbolMap.count 0 args'.treeRoot := hlow
      omega
    rw [if_pos hne0]
    push_cast
    rfl
  · rw [le_div_iff₀ hpos, one_mul]
    exact_mod_cast hhigh

theorem huffman_ratio_at_least_one_witness :
    (∃ args', InitHuffman ['a', 'b', 'a'] {} args') ∧
    ∀ args', InitHuffman ['a', 'b', 'a'] {} args' →
      1 ≤ (huffmanResults ['a', 'b', 'a']
        (getNumberOfBits (calculateInterval args'))).statistical ∧
      (huffmanResults ['a', 'b', 'a']
        (getNumberOfBits (calculateInterval args'))).statistical ≤
        (huffmanResults ['a', 'b', 'a']
          (getNumberOfBits (calculateInterval args'))).nonStatistical ∧
      (huffmanResults ['a', 'b', 'a']
        (getNumberOfBits (calculateInterval args'))).nonStatistical =
        bitsPerSymbol args'.symbolMap.size * (['a', 'b', 'a'] : List Char).length ∧
      ∃ q : ℚ, (huffmanResults ['a', 'b', 'a']
        (getNumberOfBits (calculateInterval args'))).ro = Ratio.finite q ∧ 1 ≤ q :=
  huffman_ratio_at_least_one ['a', 'b', 'a'] (by decide)

/-- C17: for every non-empty sequence `initHuffman` returns, and after any run the reciprocal of
the interval width is at most 2 to the power of the Huffman total that `huffmanResults`
computes, so the bit count `k` of `getNumberOfBits` is at most that total plus 1. -/
theorem arithmetic_bits_le_huffman (sequence : List Char) (hne : sequence ≠ []) :
    (∃ args', InitHuffman sequence {} args') ∧
    ∀ args', InitHuffman sequence {} args' →
      1 / (calculateInterval args').arithmeticCodeInterval ≤
        (2 : ℚ) ^
          (huffmanResults sequence (getNumberOfBits (calculateInterval args'))).statistical ∧
      (getNumberOfBits (calculateInterval args')).k ≤
        ((huffmanResults sequence
          (getNumberOfBits (calculateInterval args'))).statistical : ℤ) + 1 := by
  refine ⟨(initHuffman_total sequence hne).imp (fun _ h => h.2), ?_⟩
  intro args' hrun
  have hstat : (huffmanResults sequence (getNumberOfBits (calculateInterval args'))).statistical
      = pathLength args'.symbolMap.count 0 args'.treeRoot := by
    rw [pipeline_statistical, statistical_eq]
  rw [hstat]
  exact run_bits sequence hne args' hrun

theorem arithmetic_bits_le_huffman_witness :
    (∃ args', InitHuffman ['a', 'b', 'a'] {} args') ∧
    ∀ args', InitHuffman ['a', 'b', 'a'] {} args' →
      1 / (calculateInterval args').arithmeticCodeInterval ≤
        (2 : ℚ) ^
          (huffmanResults ['a', 'b', 'a']
            (getNumberOfBits (calculateInterval args'))).statistical ∧
      (getNumberOfBits (calculateInterval args')).k ≤
        ((huffmanResults ['a', 'b', 'a']
          (getNumberOfBits (calculateInterval args'))).statistical : ℤ) + 1 :=
  arithmetic_bits_le_huffman ['a', 'b', 'a'] (by decide)

/-- C18: for every non-empty sequence `initHuffman` returns, and after any run the symbols on
the leaves of the tree are a permutation of the keys of `symbolMap`, which are distinct, so
each key is on exactly one leaf; every leaf finds under its symbol an entry with a count of at
least 1; and `huffmanRatio` on the tree returns `args` as it found it, so no entry is
inserted.  The character `#` may occur in the sequence. -/
theorem leaves_are_keys (sequence : List Char) (hne : sequence ≠ []) :
    (∃ args', InitHuffman sequence {} args') ∧
    ∀ args', InitHuffman sequence {} args' →
      (args'.treeRoot.leaves.map Prod.fst).Perm args'.symbolMap.keys ∧
      args'.symbolMap.keys.Nodup ∧
      (∀ e ∈ args'.treeRoot.leaves, ∃ v, args'.symbolMap.find e.1 = some v ∧ 1 ≤ v.1) ∧
      (∀ codes limit sum, (huffmanRatio args' args'.treeRoot codes limit sum).1 = args') ∧
      (huffmanResults sequence (getNumberOfBits (calculateInterval args'))).args =
        getNumberOfBits (calculateInterval args') := by
  refine ⟨(initHuffman_total sequence hne).imp (fun _ h => h.2), ?_⟩
  intro args' hrun
  obtain ⟨hm, _, hl, _⟩ :=
    run_facts sequence hne (initQueue sequence {}).pq (List.Perm.refl _) args' hrun
  obtain ⟨_, _, hent, _⟩ := run_entries sequence hne args' hrun
  have hord : args'.symbolMap.Ordered := hm ▸ initQueue_ordered sequence
  have hkeys : ∀ e ∈ args'.treeRoot.leaves, e.1 ∈ args'.symbolMap.keys :=
    fun e he => hl.subset (List.mem_map_of_mem _ he)
  refine ⟨hl, SymbolMap.keys_nodup _ hord, ?_, ?_, pipeline_args sequence hne args' hrun⟩
  · intro e he
    obtain ⟨e', he', hke⟩ := List.mem_map.mp (hkeys e he)
    refine ⟨e'.2, ?_, (hent e' he').1⟩
    rw [← hke]
    exact SymbolMap.find_of_mem _ hord e'.1 e'.2 he'
  · intro codes limit sum
    exact huffmanRatio_args _ _ _ _ _ hkeys

theorem leaves_are_keys_witness :
    (∃ args', InitHuffman ['#', 'a', '#'] {} args') ∧
    ∀ args', InitHuffman ['#', 'a', '#'] {} args' →
      (args'.treeRoot.leaves.map Prod.fst).Perm args'.symbolMap.keys ∧
      args'.symbolMap.keys.Nodup ∧
      (∀ e ∈ args'.treeRoot.leaves, ∃ v, args'.symbolMap.find e.1 = some v ∧ 1 ≤ v.1) ∧
      (∀ codes limit sum, (huffmanRatio args' args'.treeRoot codes limit sum).1 = args') ∧
      (huffmanResults ['#', 'a', '#'] (getNumberOfBits (calculateInterval args'))).args =
        getNumberOfBits (calculateInterval args') :=
  leaves_are_keys ['#', 'a', '#'] (by decide)

/-- C19: for two sequences that are permutations of each other `initHuffman` reaches its call
of `createTree` in the same state, it returns on both when they are not empty, and after any
runs the map, the Huffman total, the interval width, the bit count `k`, the baseline and the
two reported ratios are the same. -/
theorem permutation_invariant (s1 s2 : List Char) (h : s1.Perm s2) :
    initQueue s1 {} = initQueue s2 {} ∧
    (s1 ≠ [] → ∃ a1 a2, InitHuffman s1 {} a1 ∧ InitHuffman s2 {} a2) ∧
    ∀ a1 a2, InitHuffman s1 {} a1 → InitHuffman s2 {} a2 →
      a1.symbolMap = a2.symbolMap ∧
      (huffmanResults s1 (getNumberOfBits (calculateInterval a1))).statistical =
        (huffmanResults s2 (getNumberOfBits (calculateInterval a2))).statistical ∧
      (calculateInterval a1).arithmeticCodeInterval =
        (calculateInterval a2).arithmeticCodeInterval ∧
      (getNumberOfBits (calculateInterval a1)).k =
        (getNumberOfBits (calculateInterval a2)).k ∧
      (huffmanResults s1 (getNumberOfBits (calculateInterval a1))).nonStatistical =
        (huffmanResults s2 (getNumberOfBits (calculateInterval a2))).nonStatistical ∧
      (huffmanResults s1 (getNumberOfBits (calculateInterval a1))).ro =
        (huffmanResults s2 (getNumberOfBits (calculateInterval a2))).ro ∧
      arithmeticResults s1 (huffmanResults s1 (getNumberOfBits (calculateInterval a1))).args =
        arithmeticResults s2
          (huffmanResults s2 (getNumberOfBits (calculateInterval a2))).args := by
  refine ⟨initQueue_perm s1 s2 h, ?_, fun a1 a2 h1 h2 => perm_runs s1 s2 h a1 a2 h1 h2⟩
  intro hne1
  have hne2 : s2 ≠ [] := by
    intro h0
    rw [h0] at h
    exact hne1 (List.perm_nil.mp h)
  obtain ⟨a1, _, hrun1⟩ := initHuffman_total s1 hne1
  obtain ⟨a2, _, hrun2⟩ := initHuffman_total s2 hne2
  exact ⟨a1, a2, hrun1, hrun2⟩

theorem permutation_invariant_witness :
    initQueue ['a', 'b', 'a'] {} = initQueue ['b', 'a', 'a'] {} ∧
    ((['a', 'b', 'a'] : List Char) ≠ [] →
      ∃ a1 a2, InitHuffman ['a', 'b', 'a'] {} a1 ∧ InitHuffman ['b', 'a', 'a'] {} a2) ∧
    ∀ a1 a2, InitHuffman ['a', 'b', 'a'] {} a1 → InitHuffman ['b', 'a', 'a'] {} a2 →
      a1.symbolMap = a2.symbolMap ∧
      (huffmanResults ['a', 'b', 'a'] (getNumberOfBits (calculateInterval a1))).statistical =
        (huffmanResults ['b', 'a', 'a'] (getNumberOfBits (calculateInterval a2))).statistical ∧
      (calculateInterval a1).arithmeticCodeInterval =
        (calculateInterval a2).arithmeticCodeInterval ∧
      (getNumberOfBits (calculateInterval a1)).k =
        (getNumberOfBits (calculateInterval a2)).k ∧
      (huffmanResults ['a', 'b', 'a']
        (getNumberOfBits (calculateInterval a1))).nonStatistical =
        (huffmanResults ['b', 'a', 'a']
          (getNumberOfBits (calculateInterval a2))).nonStatistical ∧
      (huffmanResults ['a', 'b', 'a'] (getNumberOfBits (calculateInterval a1))).ro =
        (huffmanResults ['b', 'a', 'a'] (getNumberOfBits (calculateInterval a2))).ro ∧
      arithmeticResults ['a', 'b', 'a']
          (huffmanResults ['a', 'b', 'a'] (getNumberOfBits (calculateInterval a1))).args =
        arithmeticResults ['b', 'a', 'a']
          (huffmanResults ['b', 'a', 'a'] (getNumberOfBits (calculateInterval a2))).args :=
  permutation_invariant ['a', 'b', 'a'] ['b', 'a', 'a'] (by decide)

/-- C20: for every non-empty sequence `initHuffman` returns, and after any run the height of
the tree is at most `symbolMap.size() - 1`; the vector `codes` after `huffmanRatio` is the
result of the writes `codes[limit] = v` listed by `codeWrites`, and the index of each of them
is less than `symbolMap.size() - 1`, the capacity that `huffmanResults` reserves. -/
theorem codes_within_capacity (sequence : List Char) (hne : sequence ≠ []) :
    (∃ args', InitHuffman sequence {} args') ∧
    ∀ args', InitHuffman sequence {} args' →
      args'.treeRoot.height ≤ args'.symbolMap.size - 1 ∧
      (∀ (args : EncodingArgs) (codes : List Nat) (sum : Nat),
        (huffmanRatio args args'.treeRoot codes 0 sum).2.1 =
          (codeWrites args'.treeRoot 0).foldl (fun c w => c.set w.1 w.2) codes) ∧
      ∀ w ∈ codeWrites args'.treeRoot 0, w.1 < args'.symbolMap.size - 1 := by
  refine ⟨(initHuffman_total sequence hne).imp (fun _ h => h.2), ?_⟩
  intro args' hrun
  obtain ⟨_, _, _, hint⟩ := run_full sequence hne args' hrun
  have hh : args'.treeRoot.height ≤ args'.symbolMap.size - 1 := by
    rw [← hint]
    exact height_le_internalCount _
  refine ⟨hh, fun args codes sum => huffmanRatio_codes _ args codes 0 sum, ?_⟩
  intro w hw
  have := (codeWrites_bound args'.treeRoot 0 w hw).2
  omega

theorem codes_within_capacity_witness :
    (∃ args', InitHuffman ['a', 'b', 'a'] {} args') ∧
    ∀ args', InitHuffman ['a', 'b', 'a'] {} args' →
      args'.treeRoot.height ≤ args'.symbolMap.size - 1 ∧
      (∀ (args : EncodingArgs) (codes : List Nat) (sum : Nat),
        (huffmanRatio args args'.treeRoot codes 0 sum).2.1 =
          (codeWrites args'.treeRoot 0).foldl (fun c w => c.set w.1 w.2) codes) ∧
      ∀ w ∈ codeWrites args'.treeRoot 0, w.1 < args'.symbolMap.size - 1 :=
  codes_within_capacity ['a', 'b', 'a'] (by decide)

end HuffmanArithmetic
